import Mathlib

/-!
Segment tree (`segtree.h`): shallow embedding and verified properties

The C++ class `segmentTree<dType, tType, upd, pushd>` is embedded as follows.

* `Node V T` models the pointer type `Node*`: `Node.null` is `NULL`, `Node.node L R l r val tag`
  is a pointer to a node with these six members.
* `Policy V T` bundles the four template parameters: the default values `dType()` and `tType()`,
  the merge functor `upd`, the two call operators of the tag type and the pushdown functor.
* the private helpers `replace`, `modify`, `query` are recursive C++ functions that mutate the
  tree in place; here they take a node and return the node after the call (`replaceAux`,
  `modifyAux`, `queryAux`).  They recurse on a fuel argument and return `none` when the fuel is
  used up or a null pointer is dereferenced.  The public operations supply
  `fuelFor L R = (R - L).toNat + 1`.  More fuel never changes a result (`replaceAux_fuel_mono`,
  `modifyAux_fuel_mono`, `queryAux_fuel_mono`), and this amount is enough on every tree built by
  the public operations (`replace_total`, `modify_total`, `query_total`,
  `reachableC_shaped`).
* `int` is modelled twice.  The helpers `replaceAux`, `modifyAux`, `queryAux` and the public
  operations `replace`, `modify`, `query` built on them compute with `Int` (unbounded integer
  arithmetic): they say what the code does as long as no `int` computation overflows.  The
  helpers `replaceAux32`, `modifyAux32`, `queryAux32`, the public operations `replace32`,
  `modify32`, `query32` and the policies `defaultPolicy32`, `myPolicy32` wrap every `int`
  operation of the source to 32 bits (`wrap32`; the midpoint is `mid32`).  The two families
  of helpers agree on every well-shaped tree inside `[-2^30, 2^30]` (`replaceAux32_eq`,
  `modifyAux32_eq`, `queryAux32_eq`, and `replace32_eq`, `modify32_eq`, `query32_eq` for the
  public operations); started at a node without children whose left end is
  at most `2^30`, the 32-bit helpers return for no position or range above `2^30`
  (`replaceAux32_diverges`, `modifyAux32_diverges`, `queryAux32_diverges`).
* `replaceE`, `modifyE`, `queryE` are the public operations as state transformers that also
  give the tree left behind by an exception; they agree with `replace`, `modify`, `query`.
* `TreeObj` and `Heap` model `segmentTree` objects as holders of a root address, for the
  implicitly-defined copy constructor.
-/

namespace SegTree

/-! ## Data model -/

/-- Pointer to a tree node (`Node*`): `null` is `NULL`. -/
inductive Node (V T : Type) where
  | null : Node V T
  | node (L R : Int) (l r : Node V T) (val : V) (tag : T) : Node V T
  deriving DecidableEq

/-- The two pushdown functors of `segtree.h`. -/
inductive Pushd where
  | addPushdown : Pushd
  | noPushDown : Pushd
  deriving DecidableEq

/-- The template parameters of `segmentTree`. `tagApply tag L R val self` is the call
`self(tag, data)` of a tag object `self = data.tag` on a node `data` with bounds `L`, `R` and
value `val`; it returns the new `data.val` and the new `self`. `tagClear` is `operator()()`. -/
structure Policy (V T : Type) where
  dval : V
  dtag : T
  update : V → V → V
  tagApply : T → Int → Int → V → T → V × T
  tagClear : T → T
  pushdown : Pushd

/-- Outcome of a public operation. `stuck` means that the private helper did not return. -/
inductive Result (α : Type) where
  | ok : α → Result α
  | range_error : Result α
  | out_of_range : Result α
  | stuck : Result α
  deriving DecidableEq

/-- The class `segmentTree`: its only data member is `root`. -/
structure segmentTree (V T : Type) where
  root : Node V T
  deriving DecidableEq

variable {V T : Type}

/-- Read `cur->val`. -/
def Node.val? : Node V T → Option V
  | .null => none
  | .node _ _ _ _ val _ => some val

/-- Read `cur->L` and `cur->R`. -/
def Node.bounds? : Node V T → Option (Int × Int)
  | .null => none
  | .node L R _ _ _ _ => some (L, R)

/-- The midpoint `(cur->L + cur->R) >> 1` with unbounded integers: the sum does not overflow.
The midpoint the code computes on 32-bit `int` is `mid32`. -/
def mid (L R : Int) : Int := (L + R) >>> (1 : Nat)

/-- Function `check(cur, l, r)`: create the node when the pointer is null. -/
def check (P : Policy V T) : Node V T → Int → Int → Node V T
  | .null, l, r => .node l r .null .null P.dval P.dtag
  | .node L R cl cr val tag, _, _ => .node L R cl cr val tag

/-- The call `data.tag(tag, data)` on the node `data`. -/
def applyTag (P : Policy V T) (tag : T) : Node V T → Node V T
  | .null => .null
  | .node L R l r val self =>
    .node L R l r (P.tagApply tag L R val self).1 (P.tagApply tag L R val self).2

/-- The call `pushdown(*cur, *cur->l, *cur->r)`: returns the new `cur->tag` and the two
children. `addPushdown` applies the parent tag to both children and clears it; `noPushDown`
does nothing. -/
def pushdownStep (P : Policy V T) (tag : T) (lhs rhs : Node V T) : T × Node V T × Node V T :=
  match P.pushdown with
  | .addPushdown => (P.tagClear tag, applyTag P tag lhs, applyTag P tag rhs)
  | .noPushDown => (tag, lhs, rhs)

/-- Recompute `cur->val = update(cur->l->val, cur->r->val)` and rebuild the node. -/
def rebuild (P : Policy V T) (L R : Int) (l r : Node V T) (tag : T) : Option (Node V T) :=
  match l.val?, r.val? with
  | some lv, some rv => some (.node L R l r (P.update lv rv) tag)
  | _, _ => none

/-! ## Private helpers -/

/-- Helper `replace(Node* cur, int pos, const dType& val)`, with unbounded integers (the 32-bit
version is `replaceAux32`). -/
def replaceAux (P : Policy V T) : Nat → Node V T → Int → V → Option (Node V T)
  | 0, _, _, _ => none
  | _ + 1, .null, _, _ => none
  | fuel + 1, .node L R l r _ tag, pos, v =>
    if L = R then some (.node L R l r v tag)
    else
      let m := mid L R
      let p := pushdownStep P tag (check P l L m) (check P r (m + 1) R)
      if pos ≤ m then
        match replaceAux P fuel p.2.1 pos v with
        | some l3 => rebuild P L R l3 p.2.2 p.1
        | none => none
      else
        match replaceAux P fuel p.2.2 pos v with
        | some r3 => rebuild P L R p.2.1 r3 p.1
        | none => none

/-- Helper `modify(Node* cur, int l, int r, const tType& tag)`, with unbounded integers (the
32-bit version is `modifyAux32`). -/
def modifyAux (P : Policy V T) : Nat → Node V T → Int → Int → T → Option (Node V T)
  | 0, _, _, _, _ => none
  | _ + 1, .null, _, _, _ => none
  | fuel + 1, .node L R l r val tag, ml, mr, t =>
    if L = ml ∧ R = mr then some (applyTag P t (.node L R l r val tag))
    else
      let m := mid L R
      let p := pushdownStep P tag (check P l L m) (check P r (m + 1) R)
      if mr ≤ m then
        match modifyAux P fuel p.2.1 ml mr t with
        | some l3 => rebuild P L R l3 p.2.2 p.1
        | none => none
      else if ml > m then
        match modifyAux P fuel p.2.2 ml mr t with
        | some r3 => rebuild P L R p.2.1 r3 p.1
        | none => none
      else
        match modifyAux P fuel p.2.1 ml m t, modifyAux P fuel p.2.2 (m + 1) mr t with
        | some l3, some r3 => rebuild P L R l3 r3 p.1
        | _, _ => none

/-- Helper `query(Node* cur, int l, int r)`, with unbounded integers (the 32-bit version is
`queryAux32`): the returned value and the node after the call (the call creates children and
pushes tags down). -/
def queryAux (P : Policy V T) : Nat → Node V T → Int → Int → Option (V × Node V T)
  | 0, _, _, _ => none
  | _ + 1, .null, _, _ => none
  | fuel + 1, .node L R l r val tag, ql, qr =>
    if L = ql ∧ R = qr then some (val, .node L R l r val tag)
    else
      let m := mid L R
      let p := pushdownStep P tag (check P l L m) (check P r (m + 1) R)
      if qr ≤ m then
        match queryAux P fuel p.2.1 ql qr with
        | some (v, l3) => some (v, .node L R l3 p.2.2 val p.1)
        | none => none
      else if ql > m then
        match queryAux P fuel p.2.2 ql qr with
        | some (v, r3) => some (v, .node L R p.2.1 r3 val p.1)
        | none => none
      else
        match queryAux P fuel p.2.1 ql m, queryAux P fuel p.2.2 (m + 1) qr with
        | some (vl, l3), some (vr, r3) => some (P.update vl vr, .node L R l3 r3 val p.1)
        | _, _ => none

/-- Helper `clear(Node*& cur)`: deletes the subtree (children first) and sets the pointer to
`NULL`. -/
def clearNode : Node V T → Node V T
  | .null => .null
  | .node _ _ _ _ _ _ => .null

/-! ## Public operations -/

/-- Fuel handed to the helpers by the public operations on a tree over `[L, R]`. -/
def fuelFor (L R : Int) : Nat := (R - L).toNat + 1

/-- Constructor `segmentTree(int l, int r)`. -/
def construct (P : Policy V T) (l r : Int) : Result (segmentTree V T) :=
  if l > r then .range_error
  else .ok ⟨.node l r .null .null P.dval P.dtag⟩

/-- Public `clear()`: clears both children of the root; the root object itself is untouched. -/
def segmentTree.clear (t : segmentTree V T) : Result (segmentTree V T) :=
  match t.root with
  | .null => .stuck
  | .node L R l r val tag => .ok ⟨.node L R (clearNode l) (clearNode r) val tag⟩

/-- Public `replace(int pos, const dType& val)`, with unbounded integers. -/
def segmentTree.replace (P : Policy V T) (t : segmentTree V T) (pos : Int) (v : V) :
    Result (segmentTree V T) :=
  match t.root with
  | .null => .stuck
  | .node L R l r val tag =>
    if pos < L ∨ pos > R then .out_of_range
    else
      match replaceAux P (fuelFor L R) (.node L R l r val tag) pos v with
      | some n => .ok ⟨n⟩
      | none => .stuck

/-- Public `modify(int l, int r, const tType& tag)`, with unbounded integers: the sum `r+1` of
the first test does not overflow (the 32-bit version is `modify32`). -/
def segmentTree.modify (P : Policy V T) (t : segmentTree V T) (l r : Int) (tag : T) :
    Result (segmentTree V T) :=
  if l = r + 1 then .ok t
  else if l > r then .range_error
  else
    match t.root with
    | .null => .stuck
    | .node L R cl cr val tg =>
      if l < L ∨ r > R then .out_of_range
      else
        match modifyAux P (fuelFor L R) (.node L R cl cr val tg) l r tag with
        | some n => .ok ⟨n⟩
        | none => .stuck

/-- Public `modify(int pos, const tType& tag)`. -/
def segmentTree.modifyAt (P : Policy V T) (t : segmentTree V T) (pos : Int) (tag : T) :
    Result (segmentTree V T) :=
  t.modify P pos pos tag

/-- Public `query(int l, int r)`, with unbounded integers: the value and the tree after the
call. -/
def segmentTree.query (P : Policy V T) (t : segmentTree V T) (l r : Int) :
    Result (V × segmentTree V T) :=
  if l > r then .range_error
  else
    match t.root with
    | .null => .stuck
    | .node L R cl cr val tg =>
      if l < L ∨ r > R then .out_of_range
      else
        match queryAux P (fuelFor L R) (.node L R cl cr val tg) l r with
        | some (v, n) => .ok (v, ⟨n⟩)
        | none => .stuck

/-- Public `query(int pos)`. -/
def segmentTree.queryAt (P : Policy V T) (t : segmentTree V T) (pos : Int) :
    Result (V × segmentTree V T) :=
  t.query P pos pos

/-! ## The policies of `segtree.h` and of `segtree_test.cpp` -/

/-- The tag `addTag<int>`. -/
structure addTag where
  sum : Int
  deriving DecidableEq

/-- Call `addTag::operator()(tag, data)`: `data.val += tag.sum * (R - L + 1); sum += tag.sum`,
with unbounded integers (the 32-bit version is `addTag.apply32`). -/
def addTag.apply (tag : addTag) (L R : Int) (val : Int) (self : addTag) : Int × addTag :=
  (val + tag.sum * (R - L + 1), ⟨self.sum + tag.sum⟩)

/-- Call `addTag::operator()()`: `sum = T()`. -/
def addTag.clear (_self : addTag) : addTag := ⟨0⟩

/-- Functor `addUpdate`: `lhs + rhs`, with unbounded integers (the 32-bit version is
`addUpdate32`). -/
def addUpdate (lhs rhs : Int) : Int := lhs + rhs

/-- The default instantiation `segmentTree<>`: `int`, `addTag<int>`, `addUpdate`,
`addPushdown`, with unbounded integers (the 32-bit version is `defaultPolicy32`). -/
def defaultPolicy : Policy Int addTag where
  dval := 0
  dtag := ⟨0⟩
  update := addUpdate
  tagApply := addTag.apply
  tagClear := addTag.clear
  pushdown := .addPushdown

/-- The aggregate `myData2` of the test file; `myData2(val)` sets all four fields to `val`. -/
structure myData2 where
  maxl : Int
  maxr : Int
  maxval : Int
  sum : Int
  deriving DecidableEq

/-- Constructor `myData2(int val = 0)`. -/
def myData2.ofInt (val : Int) : myData2 := ⟨val, val, val, val⟩

/-- The tag `myTag` of the test file. -/
structure myTag where
  val : Int
  deriving DecidableEq

/-- Call `myTag::operator()(tag, data)`: adds `tag.val` to the four fields of `data.val`, with
unbounded integers (the 32-bit version is `myTag.apply32`). -/
def myTag.apply (tag : myTag) (_L _R : Int) (val : myData2) (self : myTag) : myData2 × myTag :=
  (⟨val.maxl + tag.val, val.maxr + tag.val, val.maxval + tag.val, val.sum + tag.val⟩, self)

/-- Functor `myUpdate` of the test file, with unbounded integers (the 32-bit version is
`myUpdate32`). -/
def myUpdate (lhs rhs : myData2) : myData2 :=
  { maxl := max lhs.maxl (lhs.sum + rhs.maxl)
    maxr := max rhs.maxr (lhs.maxr + rhs.sum)
    sum := lhs.sum + rhs.sum
    maxval := max (max lhs.maxval rhs.maxval) (lhs.maxr + rhs.maxl) }

/-- The instantiation `segmentTree<myData2, myTag, myUpdate, noPushDown>`, with unbounded
integers (the 32-bit version is `myPolicy32`). -/
def myPolicy : Policy myData2 myTag where
  dval := myData2.ofInt 0
  dtag := ⟨0⟩
  update := myUpdate
  tagApply := myTag.apply
  tagClear := fun self => self
  pushdown := .noPushDown

/-! ## Reference aggregates -/

/-- Sum of the `n` values `a l, a (l+1), ..., a (l+n-1)`. -/
def sumFrom (a : Int → Int) (l : Int) : Nat → Int
  | 0 => 0
  | n + 1 => a l + sumFrom a (l + 1) n

/-- Sum of `a[l..r]` (both ends included; `0` when `r < l`). -/
def rangeSum (a : Int → Int) (l r : Int) : Int := sumFrom a l (r + 1 - l).toNat

/-- Array after `replace(pos, v)`. -/
def setAt (a : Int → V) (pos : Int) (v : V) : Int → V := fun i => if i = pos then v else a i

/-- Array after `modify(l, r, t)`. -/
def addOn (a : Int → Int) (l r t : Int) : Int → Int :=
  fun i => if l ≤ i ∧ i ≤ r then a i + t else a i

/-! ## Representation invariant of the default (sum) tree -/

/-- `Rep a n`: the subtree at `n` represents the array `a` on the interval of `n`. The value of a
node is the sum of `a` over its interval; a node without children holds the constant `tag.sum`
on a non-leaf interval; the children of a node represent `a` without the pending tag. -/
def Rep : (Int → Int) → Node Int addTag → Prop
  | _, .null => False
  | a, .node L R l r val tag =>
    L ≤ R ∧ val = rangeSum a L R ∧
    ((l = .null ∧ r = .null ∧ (L < R → ∀ i, L ≤ i → i ≤ R → a i = tag.sum)) ∨
     (L < R ∧ l.bounds? = some (L, mid L R) ∧ r.bounds? = some (mid L R + 1, R) ∧
       Rep (fun i => a i - tag.sum) l ∧ Rep (fun i => a i - tag.sum) r))

/-! ## Runs of operations and reachable states -/

/-- The operations issued by the brute-force test. -/
inductive Op where
  | replace (pos v : Int) : Op
  | modify (l r t : Int) : Op
  | modifyAt (pos t : Int) : Op
  | query (l r : Int) : Op

/-- The arguments of an operation lie in `[L, R]` (and `l ≤ r`). -/
def Op.inRange (L R : Int) : Op → Prop
  | .replace pos _ => L ≤ pos ∧ pos ≤ R
  | .modify l r _ => L ≤ l ∧ l ≤ r ∧ r ≤ R
  | .modifyAt pos _ => L ≤ pos ∧ pos ≤ R
  | .query l r => L ≤ l ∧ l ≤ r ∧ r ≤ R

/-- Brute-force run on the reference array: the answers of the queries, in order. -/
def runRef (a : Int → Int) : List Op → List Int
  | [] => []
  | .replace pos v :: ops => runRef (setAt a pos v) ops
  | .modify l r t :: ops => runRef (addOn a l r t) ops
  | .modifyAt pos t :: ops => runRef (setAt a pos (a pos + t)) ops
  | .query l r :: ops => rangeSum a l r :: runRef a ops

/-- The same run on the default tree: the answers of the queries, or `none` when a call
fails. -/
def runTree (t : segmentTree Int addTag) : List Op → Option (List Int)
  | [] => some []
  | .replace pos v :: ops =>
    match t.replace defaultPolicy pos v with
    | .ok t1 => runTree t1 ops
    | _ => none
  | .modify l r x :: ops =>
    match t.modify defaultPolicy l r ⟨x⟩ with
    | .ok t1 => runTree t1 ops
    | _ => none
  | .modifyAt pos x :: ops =>
    match t.modifyAt defaultPolicy pos ⟨x⟩ with
    | .ok t1 => runTree t1 ops
    | _ => none
  | .query l r :: ops =>
    match t.query defaultPolicy l r with
    | .ok (x, t1) => (runTree t1 ops).map (fun xs => x :: xs)
    | _ => none

/-- States reachable from construction by `replace`, `modify` and `query` calls that return. -/
inductive Reachable (P : Policy V T) : segmentTree V T → Prop where
  | init {l r : Int} {t : segmentTree V T} : construct P l r = .ok t → Reachable P t
  | replace {t t1 : segmentTree V T} {pos : Int} {v : V} :
      Reachable P t → t.replace P pos v = .ok t1 → Reachable P t1
  | modify {t t1 : segmentTree V T} {l r : Int} {tag : T} :
      Reachable P t → t.modify P l r tag = .ok t1 → Reachable P t1
  | query {t t1 : segmentTree V T} {l r : Int} {v : V} :
      Reachable P t → t.query P l r = .ok (v, t1) → Reachable P t1

/-- States reachable from construction by `replace`, `modify`, `query` and `clear`. -/
inductive ReachableC (P : Policy V T) : segmentTree V T → Prop where
  | init {l r : Int} {t : segmentTree V T} : construct P l r = .ok t → ReachableC P t
  | replace {t t1 : segmentTree V T} {pos : Int} {v : V} :
      ReachableC P t → t.replace P pos v = .ok t1 → ReachableC P t1
  | modify {t t1 : segmentTree V T} {l r : Int} {tag : T} :
      ReachableC P t → t.modify P l r tag = .ok t1 → ReachableC P t1
  | query {t t1 : segmentTree V T} {l r : Int} {v : V} :
      ReachableC P t → t.query P l r = .ok (v, t1) → ReachableC P t1
  | clear {t t1 : segmentTree V T} : ReachableC P t → t.clear = .ok t1 → ReachableC P t1

/-- States reached from `t` by zero or more `query` calls. -/
inductive AfterQueries (P : Policy V T) (t : segmentTree V T) : segmentTree V T → Prop where
  | refl : AfterQueries P t t
  | step {t1 t2 : segmentTree V T} {l r : Int} {v : V} :
      AfterQueries P t t1 → t1.query P l r = .ok (v, t2) → AfterQueries P t t2

/-! ## Shape invariant (any policy) -/

/-- `Shaped n`: `n` is a node over a non-empty interval whose children are either both absent
or both present over `[L, mid]` and `[mid+1, R]`, recursively; a leaf has no children. -/
def Shaped : Node V T → Prop
  | .null => False
  | .node L R l r _ _ =>
    L ≤ R ∧ ((l = .null ∧ r = .null) ∨
      (L < R ∧ l.bounds? = some (L, mid L R) ∧ r.bounds? = some (mid L R + 1, R) ∧
        Shaped l ∧ Shaped r))

/-- Sequencing of calls: the second call runs only when the first returned normally. -/
def Result.bind {α β : Type} : Result α → (α → Result β) → Result β
  | .ok a, f => f a
  | .range_error, _ => .range_error
  | .out_of_range, _ => .out_of_range
  | .stuck, _ => .stuck

/-- The value returned by a query, dropping the tree. -/
def Result.value {α β : Type} : Result (α × β) → Result α
  | .ok p => .ok p.1
  | .range_error => .range_error
  | .out_of_range => .out_of_range
  | .stuck => .stuck

/-- Overwrite `cur->val`. -/
def Node.setVal (w : V) : Node V T → Node V T
  | .null => .null
  | .node L R l r _ tag => .node L R l r w tag

/-! ## Reference merge and the tree without pushdown -/

/-- Merge of the `n + 1` values `a l, a (l+1), ..., a (l+n)`, combined in increasing index
order. -/
def foldFrom (f : V → V → V) (a : Int → V) (l : Int) : Nat → V
  | 0 => a l
  | n + 1 => f (a l) (foldFrom f a (l + 1) n)

/-- Merge of `a[l..r]` in increasing index order (for `l ≤ r`). -/
def rangeFold (f : V → V → V) (a : Int → V) (l r : Int) : V := foldFrom f a l (r - l).toNat

/-- `RepN P a n`: under a policy without pushdown, the subtree at `n` represents the array `a`
on the interval of `n`: the value of a node is the merge of `a` over its interval, and a
non-leaf node without children stands for an all-default interval. -/
def RepN (P : Policy V T) (a : Int → V) : Node V T → Prop
  | .null => False
  | .node L R l r val _ =>
    L ≤ R ∧ val = rangeFold P.update a L R ∧
    ((l = .null ∧ r = .null ∧ (L < R → ∀ i, L ≤ i → i ≤ R → a i = P.dval)) ∨
     (L < R ∧ l.bounds? = some (L, mid L R) ∧ r.bounds? = some (mid L R + 1, R) ∧
       RepN P a l ∧ RepN P a r))

/-- A `replace` or a `query` call. -/
inductive ROp (V : Type) where
  | replace (pos : Int) (v : V) : ROp V
  | query (l r : Int) : ROp V

/-- The arguments of the call lie in `[L, R]` (and `l ≤ r`). -/
def ROp.inRange (L R : Int) : ROp V → Prop
  | .replace pos _ => L ≤ pos ∧ pos ≤ R
  | .query l r => L ≤ l ∧ l ≤ r ∧ r ≤ R

/-- A sequence of `replace` and `query` calls: the tree after the last call. -/
def runROps (P : Policy V T) (t : segmentTree V T) : List (ROp V) → Result (segmentTree V T)
  | [] => .ok t
  | .replace pos v :: ops => (t.replace P pos v).bind (fun t1 => runROps P t1 ops)
  | .query l r :: ops => (t.query P l r).bind (fun p => runROps P p.2 ops)

/-- The array after the writes `a[pos] := v` of a sequence of calls. -/
def arrayAfter (a : Int → V) : List (ROp V) → Int → V
  | [] => a
  | .replace pos v :: ops => arrayAfter (setAt a pos v) ops
  | .query _ _ :: ops => arrayAfter a ops

/-! ## The maximum-subarray test -/

/-- `x` is the maximum of `a[i] + ... + a[j]` over the non-empty sub-ranges `[i, j]` of
`[l, r]`. -/
def IsMaxSubarraySum (a : Int → Int) (l r x : Int) : Prop :=
  (∃ i j, l ≤ i ∧ i ≤ j ∧ j ≤ r ∧ rangeSum a i j = x) ∧
  ∀ i j, l ≤ i → i ≤ j → j ≤ r → rangeSum a i j ≤ x

/-- The operations issued by `DPtest`. -/
inductive DPOp where
  | replace (pos v : Int) : DPOp
  | modifyAt (pos t : Int) : DPOp
  | query (l r : Int) : DPOp

/-- The arguments of an operation lie in `[L, R]` (and `l ≤ r`). -/
def DPOp.inRange (L R : Int) : DPOp → Prop
  | .replace pos _ => L ≤ pos ∧ pos ≤ R
  | .modifyAt pos _ => L ≤ pos ∧ pos ≤ R
  | .query l r => L ≤ l ∧ l ≤ r ∧ r ≤ R

/-- Run on the tree `segmentTree<myData2, myTag, myUpdate, noPushDown>`: the `maxval` field of
every query answer, or `none` when a call fails. -/
def runDP (t : segmentTree myData2 myTag) : List DPOp → Option (List Int)
  | [] => some []
  | .replace pos v :: ops =>
    match t.replace myPolicy pos (myData2.ofInt v) with
    | .ok t1 => runDP t1 ops
    | _ => none
  | .modifyAt pos x :: ops =>
    match t.modifyAt myPolicy pos ⟨x⟩ with
    | .ok t1 => runDP t1 ops
    | _ => none
  | .query l r :: ops =>
    match t.query myPolicy l r with
    | .ok (d, t1) => (runDP t1 ops).map (fun xs => d.maxval :: xs)
    | _ => none

/-- `AnswersDP a ops xs`: `xs` lists, for every query of `ops` in order, the maximum subarray
sum of the reference array at the time of the query; the array starts as `a`, `replace` sets
`a[pos] := v` and the point `modify` adds to `a[pos]`. -/
def AnswersDP (a : Int → Int) : List DPOp → List Int → Prop
  | [] => fun xs => xs = []
  | .replace pos v :: ops => AnswersDP (setAt a pos v) ops
  | .modifyAt pos x :: ops => AnswersDP (setAt a pos (a pos + x)) ops
  | .query l r :: ops => fun xs =>
    ∃ x rest, xs = x :: rest ∧ IsMaxSubarraySum a l r x ∧ AnswersDP a ops rest

/-- Effect of `myTag::operator()` on a value: the four fields grow by `x`. -/
def myData2.addAll (d : myData2) (x : Int) : myData2 :=
  ⟨d.maxl + x, d.maxr + x, d.maxval + x, d.sum + x⟩

/-! ## Exceptions with the state they leave behind -/

/-- Outcome of a public call together with the tree the call leaves behind: `ret` is a normal
return, `throw_range` is `std::range_error`, `throw_oor` is `std::out_of_range`, both with the
tree at the point of the `throw`; `stuck` means that the helper did not return. -/
inductive Exec (σ α : Type) where
  | ret : α → σ → Exec σ α
  | throw_range : σ → Exec σ α
  | throw_oor : σ → Exec σ α
  | stuck : Exec σ α
  deriving DecidableEq

/-- Forget the state left by an exception. -/
def Exec.toResult {σ α : Type} : Exec σ α → Result (α × σ)
  | .ret a s => .ok (a, s)
  | .throw_range _ => .range_error
  | .throw_oor _ => .out_of_range
  | .stuck => .stuck

/-- Forget the state left by an exception, for a call that returns no value. -/
def Exec.toStateResult {σ : Type} : Exec σ Unit → Result σ
  | .ret _ s => .ok s
  | .throw_range _ => .range_error
  | .throw_oor _ => .out_of_range
  | .stuck => .stuck

/-- Public `replace(pos, val)` as a state transformer: the range check throws before the helper
is called. -/
def segmentTree.replaceE (P : Policy V T) (t : segmentTree V T) (pos : Int) (v : V) :
    Exec (segmentTree V T) Unit :=
  match t.root with
  | .null => .stuck
  | .node L R l r val tag =>
    if pos < L ∨ pos > R then .throw_oor t
    else
      match replaceAux P (fuelFor L R) (.node L R l r val tag) pos v with
      | some n => .ret () ⟨n⟩
      | none => .stuck

/-- Public `modify(l, r, tag)` as a state transformer. -/
def segmentTree.modifyE (P : Policy V T) (t : segmentTree V T) (l r : Int) (tag : T) :
    Exec (segmentTree V T) Unit :=
  if l = r + 1 then .ret () t
  else if l > r then .throw_range t
  else
    match t.root with
    | .null => .stuck
    | .node L R cl cr val tg =>
      if l < L ∨ r > R then .throw_oor t
      else
        match modifyAux P (fuelFor L R) (.node L R cl cr val tg) l r tag with
        | some n => .ret () ⟨n⟩
        | none => .stuck

/-- Public `query(l, r)` as a state transformer. -/
def segmentTree.queryE (P : Policy V T) (t : segmentTree V T) (l r : Int) :
    Exec (segmentTree V T) V :=
  if l > r then .throw_range t
  else
    match t.root with
    | .null => .stuck
    | .node L R cl cr val tg =>
      if l < L ∨ r > R then .throw_oor t
      else
        match queryAux P (fuelFor L R) (.node L R cl cr val tg) l r with
        | some (v, n) => .ret v ⟨n⟩
        | none => .stuck

/-! ## Copies of a tree object -/

/-- The heap: the node structure stored at each address (`null` where nothing is allocated). -/
def Heap (V T : Type) : Type := Nat → Node V T

/-- A `segmentTree` object: its only data member, the pointer `root`, as a heap address. -/
structure TreeObj where
  root : Nat
  deriving DecidableEq

/-- The implicitly-defined copy constructor and copy assignment of `segmentTree` (the class
declares neither): member-wise copy, so the pointer `root` is copied, not the nodes. -/
def TreeObj.copy (A : TreeObj) : TreeObj := ⟨A.root⟩

/-- Constructor `segmentTree(l, r)` allocating the root at address `addr`. -/
def TreeObj.construct (P : Policy V T) (h : Heap V T) (addr : Nat) (l r : Int) :
    Result (TreeObj × Heap V T) :=
  match SegTree.construct P l r with
  | .ok t => .ok (⟨addr⟩, Function.update h addr t.root)
  | .range_error => .range_error
  | .out_of_range => .out_of_range
  | .stuck => .stuck

/-- Call `A.replace(pos, v)`: works on the nodes reached from `A.root`. -/
def TreeObj.replace (P : Policy V T) (A : TreeObj) (h : Heap V T) (pos : Int) (v : V) :
    Result (Heap V T) :=
  match (⟨h A.root⟩ : segmentTree V T).replace P pos v with
  | .ok t => .ok (Function.update h A.root t.root)
  | .range_error => .range_error
  | .out_of_range => .out_of_range
  | .stuck => .stuck

/-- Call `A.modify(l, r, tag)`. -/
def TreeObj.modify (P : Policy V T) (A : TreeObj) (h : Heap V T) (l r : Int) (tag : T) :
    Result (Heap V T) :=
  match (⟨h A.root⟩ : segmentTree V T).modify P l r tag with
  | .ok t => .ok (Function.update h A.root t.root)
  | .range_error => .range_error
  | .out_of_range => .out_of_range
  | .stuck => .stuck

/-- Call `A.query(l, r)`. -/
def TreeObj.query (P : Policy V T) (A : TreeObj) (h : Heap V T) (l r : Int) :
    Result (V × Heap V T) :=
  match (⟨h A.root⟩ : segmentTree V T).query P l r with
  | .ok (v, t) => .ok (v, Function.update h A.root t.root)
  | .range_error => .range_error
  | .out_of_range => .out_of_range
  | .stuck => .stuck

/-! ## The midpoint in 32-bit arithmetic -/

/-- Wrap an integer to the range of a 32-bit signed `int`. -/
def wrap32 (x : Int) : Int := (x + 2147483648) % 4294967296 - 2147483648

/-- The midpoint `(cur->L + cur->R) >> 1` with the sum computed in 32-bit wrap-around
arithmetic and an arithmetic right shift. -/
def mid32 (L R : Int) : Int := wrap32 (L + R) >>> (1 : Nat)

/-! ## Traversals, depth and node counts -/

/-- `visitPoint Q n pos`: `Q` holds at every node the helper `replace` is called on when it is
started at `n` with position `pos`, read off the tree after the call: the node itself and,
unless it is a leaf, the child chosen by `pos ≤ mid`, and so on. -/
def visitPoint (Q : Node V T → Int → Prop) : Node V T → Int → Prop
  | .null, _ => False
  | .node L R l r val tag, pos =>
    Q (.node L R l r val tag) pos ∧
    (L ≠ R → if pos ≤ mid L R then visitPoint Q l pos else visitPoint Q r pos)

/-- `visitRange Q n l r`: `Q` holds at every node, with the arguments of the call, the helpers
`modify` and `query` are called on when started at `n` with the range `[l, r]`, read off the
tree after the call: the node itself and, unless its interval is `[l, r]`, the left child, the
right child, or both with the range split at `mid`. -/
def visitRange (Q : Node V T → Int → Int → Prop) : Node V T → Int → Int → Prop
  | .null, _, _ => False
  | .node L R cl cr val tag, l, r =>
    Q (.node L R cl cr val tag) l r ∧
    (¬ (L = l ∧ R = r) →
      if r ≤ mid L R then visitRange Q cl l r
      else if l > mid L R then visitRange Q cr l r
      else visitRange Q cl l (mid L R) ∧ visitRange Q cr (mid L R + 1) r)

/-- The arguments `l ≤ r` of a helper call lie in the interval of the node it is called on, and
a leaf has no children. -/
def argsInNode : Node V T → Int → Int → Prop
  | .null, _, _ => False
  | .node L R cl cr _ _, l, r => L ≤ l ∧ l ≤ r ∧ r ≤ R ∧ (L = R → cl = .null ∧ cr = .null)

/-- Number of levels of a tree: `0` for `NULL`; a node of depth `d` below the root gives
height at least `d + 1`. -/
def height : Node V T → Nat
  | .null => 0
  | .node _ _ l r _ _ => 1 + max (height l) (height r)

/-- Number of materialized nodes. -/
def nodeCount : Node V T → Nat
  | .null => 0
  | .node _ _ l r _ _ => 1 + nodeCount l + nodeCount r

/-- The two child pointers `cur->l`, `cur->r`. -/
def Node.kids : Node V T → Node V T × Node V T
  | .null => (.null, .null)
  | .node _ _ l r _ _ => (l, r)

/-- The two trees have the same materialized nodes, with the same bounds. -/
def sameNodes : Node V T → Node V T → Prop
  | .null, .null => True
  | .node L R l r _ _, .node L1 R1 l1 r1 _ _ =>
    L = L1 ∧ R = R1 ∧ sameNodes l l1 ∧ sameNodes r r1
  | _, _ => False

/-- Every node of `before` is a node of `after`, with the same bounds: no node was removed. -/
def keepsNodes : Node V T → Node V T → Prop
  | .null, _ => True
  | .node _ _ _ _ _ _, .null => False
  | .node L R l r _ _, .node L1 R1 l1 r1 _ _ =>
    L = L1 ∧ R = R1 ∧ keepsNodes l l1 ∧ keepsNodes r r1

/-- `slotKept before after`: `after` is the node `before`, or a node created in the empty slot
`before`, and no node was created below it. -/
def slotKept (b a : Node V T) : Prop :=
  a ≠ .null ∧ (b = .null ∨ b.bounds? = a.bounds?) ∧
    sameNodes b.kids.1 a.kids.1 ∧ sameNodes b.kids.2 a.kids.2

/-- `grownOnPoint before after pos`: `after` is the node `before`, or a node created in the
empty slot `before`; below it, nodes were created only as children of the nodes the helper
`replace` descends through for `pos` (the non-leaf nodes on the path). -/
def grownOnPoint : Node V T → Node V T → Int → Prop
  | _, .null, _ => False
  | b, .node L R cl cr _ _, pos =>
    (b = .null ∨ b.bounds? = some (L, R)) ∧
    (if L = R then sameNodes b.kids.1 cl ∧ sameNodes b.kids.2 cr
     else if pos ≤ mid L R then grownOnPoint b.kids.1 cl pos ∧ slotKept b.kids.2 cr
     else slotKept b.kids.1 cl ∧ grownOnPoint b.kids.2 cr pos)

/-- `grownOnRange before after l r`: the same for the helpers `modify` and `query` with the
range `[l, r]`: nodes were created only as children of the nodes the helper descends through
(the visited nodes whose interval is not exactly the range of the call). -/
def grownOnRange : Node V T → Node V T → Int → Int → Prop
  | _, .null, _, _ => False
  | b, .node L R cl cr _ _, l, r =>
    (b = .null ∨ b.bounds? = some (L, R)) ∧
    (if L = l ∧ R = r then sameNodes b.kids.1 cl ∧ sameNodes b.kids.2 cr
     else if r ≤ mid L R then grownOnRange b.kids.1 cl l r ∧ slotKept b.kids.2 cr
     else if l > mid L R then slotKept b.kids.1 cl ∧ grownOnRange b.kids.2 cr l r
     else grownOnRange b.kids.1 cl l (mid L R) ∧ grownOnRange b.kids.2 cr (mid L R + 1) r)

/-- The interval of the node is exactly `[l, r]`: the helpers `modify` and `query` stop. -/
def Node.spans : Node V T → Int → Int → Prop
  | .null, _, _ => False
  | .node L R _ _ _ _, l, r => L = l ∧ R = r

/-- The node is a leaf (`L == R`): the helper `replace` stops. -/
def Node.isLeaf : Node V T → Prop
  | .null => False
  | .node L R _ _ _ _ => L = R

/-- Bound on the nodes created by a `modify` or `query` call for `[l, r]` below a node over
`[L, R]`: none when the range is the whole interval, two per level when the range shares an
end with the interval, four per level otherwise. -/
def createdBound (L R l r : Int) : Nat :=
  (if L = l ∧ R = r then 0 else if L = l ∨ R = r then 2 else 4) * Nat.clog 2 (R - L + 1).toNat

/-- A node of the default tree that has been pushed down: both children exist, the tag is the
identity and the value is the merge of the children's values. -/
def PushedDown : Node Int addTag → Prop
  | .null => False
  | .node _ _ l r val tag =>
    ∃ lv rv, l.val? = some lv ∧ r.val? = some rv ∧ tag.sum = 0 ∧ val = addUpdate lv rv ∧
      val = lv + rv

/-- The tag of the node is the identity and both children exist. -/
def TagCleared : Node Int addTag → Prop
  | .null => False
  | .node _ _ l r _ tag => tag.sum = 0 ∧ l ≠ .null ∧ r ≠ .null

/-! ## The helpers and the public operations in 32-bit arithmetic

The definitions of this section repeat the helpers and the public operations with every `int`
operation of the source wrapped to 32 bits (`wrap32`): the midpoint is `mid32`, the bound
`mid+1` and the test `l == r+1` wrap.  The public operations take the recursion depth granted to
the helper as an argument `fuel`: a call of the code returns exactly when some `fuel` gives
`ok`, and it never returns when every `fuel` gives `stuck`. -/

/-- The integer `x` is representable as a 32-bit signed `int`. -/
def FitsInt (x : Int) : Prop := -2147483648 ≤ x ∧ x ≤ 2147483647

/-- Helper `replace(Node* cur, int pos, const dType& val)` in 32-bit arithmetic. -/
def replaceAux32 (P : Policy V T) : Nat → Node V T → Int → V → Option (Node V T)
  | 0, _, _, _ => none
  | _ + 1, .null, _, _ => none
  | fuel + 1, .node L R l r _ tag, pos, v =>
    if L = R then some (.node L R l r v tag)
    else
      let m := mid32 L R
      let p := pushdownStep P tag (check P l L m) (check P r (wrap32 (m + 1)) R)
      if pos ≤ m then
        match replaceAux32 P fuel p.2.1 pos v with
        | some l3 => rebuild P L R l3 p.2.2 p.1
        | none => none
      else
        match replaceAux32 P fuel p.2.2 pos v with
        | some r3 => rebuild P L R p.2.1 r3 p.1
        | none => none

/-- Helper `modify(Node* cur, int l, int r, const tType& tag)` in 32-bit arithmetic. -/
def modifyAux32 (P : Policy V T) : Nat → Node V T → Int → Int → T → Option (Node V T)
  | 0, _, _, _, _ => none
  | _ + 1, .null, _, _, _ => none
  | fuel + 1, .node L R l r val tag, ml, mr, t =>
    if L = ml ∧ R = mr then some (applyTag P t (.node L R l r val tag))
    else
      let m := mid32 L R
      let p := pushdownStep P tag (check P l L m) (check P r (wrap32 (m + 1)) R)
      if mr ≤ m then
        match modifyAux32 P fuel p.2.1 ml mr t with
        | some l3 => rebuild P L R l3 p.2.2 p.1
        | none => none
      else if ml > m then
        match modifyAux32 P fuel p.2.2 ml mr t with
        | some r3 => rebuild P L R p.2.1 r3 p.1
        | none => none
      else
        match modifyAux32 P fuel p.2.1 ml m t,
          modifyAux32 P fuel p.2.2 (wrap32 (m + 1)) mr t with
        | some l3, some r3 => rebuild P L R l3 r3 p.1
        | _, _ => none

/-- Helper `query(Node* cur, int l, int r)` in 32-bit arithmetic: the returned value and the
node after the call. -/
def queryAux32 (P : Policy V T) : Nat → Node V T → Int → Int → Option (V × Node V T)
  | 0, _, _, _ => none
  | _ + 1, .null, _, _ => none
  | fuel + 1, .node L R l r val tag, ql, qr =>
    if L = ql ∧ R = qr then some (val, .node L R l r val tag)
    else
      let m := mid32 L R
      let p := pushdownStep P tag (check P l L m) (check P r (wrap32 (m + 1)) R)
      if qr ≤ m then
        match queryAux32 P fuel p.2.1 ql qr with
        | some (v, l3) => some (v, .node L R l3 p.2.2 val p.1)
        | none => none
      else if ql > m then
        match queryAux32 P fuel p.2.2 ql qr with
        | some (v, r3) => some (v, .node L R p.2.1 r3 val p.1)
        | none => none
      else
        match queryAux32 P fuel p.2.1 ql m, queryAux32 P fuel p.2.2 (wrap32 (m + 1)) qr with
        | some (vl, l3), some (vr, r3) => some (P.update vl vr, .node L R l3 r3 val p.1)
        | _, _ => none

/-- Public `replace(int pos, const dType& val)`, the helper running in 32-bit arithmetic with
recursion depth `fuel`. -/
def segmentTree.replace32 (P : Policy V T) (fuel : Nat) (t : segmentTree V T) (pos : Int)
    (v : V) : Result (segmentTree V T) :=
  match t.root with
  | .null => .stuck
  | .node L R l r val tag =>
    if pos < L ∨ pos > R then .out_of_range
    else
      match replaceAux32 P fuel (.node L R l r val tag) pos v with
      | some n => .ok ⟨n⟩
      | none => .stuck

/-- Public `modify(int l, int r, const tType& tag)` in 32-bit arithmetic: the sum `r+1` of the
first test wraps. -/
def segmentTree.modify32 (P : Policy V T) (fuel : Nat) (t : segmentTree V T) (l r : Int)
    (tag : T) : Result (segmentTree V T) :=
  if l = wrap32 (r + 1) then .ok t
  else if l > r then .range_error
  else
    match t.root with
    | .null => .stuck
    | .node L R cl cr val tg =>
      if l < L ∨ r > R then .out_of_range
      else
        match modifyAux32 P fuel (.node L R cl cr val tg) l r tag with
        | some n => .ok ⟨n⟩
        | none => .stuck

/-- Public `query(int l, int r)`, the helper running in 32-bit arithmetic with recursion depth
`fuel`: the value and the tree after the call. -/
def segmentTree.query32 (P : Policy V T) (fuel : Nat) (t : segmentTree V T) (l r : Int) :
    Result (V × segmentTree V T) :=
  if l > r then .range_error
  else
    match t.root with
    | .null => .stuck
    | .node L R cl cr val tg =>
      if l < L ∨ r > R then .out_of_range
      else
        match queryAux32 P fuel (.node L R cl cr val tg) l r with
        | some (v, n) => .ok (v, ⟨n⟩)
        | none => .stuck

/-- Call `addTag<int>::operator()(tag, data)` in 32-bit arithmetic:
`data.val += tag.sum * (data.getR()-data.getL()+1); sum += tag.sum`. -/
def addTag.apply32 (tag : addTag) (L R : Int) (val : Int) (self : addTag) : Int × addTag :=
  (wrap32 (val + wrap32 (tag.sum * wrap32 (wrap32 (R - L) + 1))),
    ⟨wrap32 (self.sum + tag.sum)⟩)

/-- Functor `addUpdate` on `int`: `lhs + rhs` in 32-bit arithmetic. -/
def addUpdate32 (lhs rhs : Int) : Int := wrap32 (lhs + rhs)

/-- The default instantiation `segmentTree<>` with `int` arithmetic wrapped to 32 bits. -/
def defaultPolicy32 : Policy Int addTag where
  dval := 0
  dtag := ⟨0⟩
  update := addUpdate32
  tagApply := addTag.apply32
  tagClear := addTag.clear
  pushdown := .addPushdown

/-- Call `myTag::operator()(tag, data)` in 32-bit arithmetic. -/
def myTag.apply32 (tag : myTag) (_L _R : Int) (val : myData2) (self : myTag) :
    myData2 × myTag :=
  (⟨wrap32 (val.maxl + tag.val), wrap32 (val.maxr + tag.val), wrap32 (val.maxval + tag.val),
    wrap32 (val.sum + tag.val)⟩, self)

/-- Functor `myUpdate` of the test file in 32-bit arithmetic. -/
def myUpdate32 (lhs rhs : myData2) : myData2 :=
  { maxl := max lhs.maxl (wrap32 (lhs.sum + rhs.maxl))
    maxr := max rhs.maxr (wrap32 (lhs.maxr + rhs.sum))
    sum := wrap32 (lhs.sum + rhs.sum)
    maxval := max (max lhs.maxval rhs.maxval) (wrap32 (lhs.maxr + rhs.maxl)) }

/-- The instantiation `segmentTree<myData2, myTag, myUpdate, noPushDown>` with `int`
arithmetic wrapped to 32 bits. -/
def myPolicy32 : Policy myData2 myTag where
  dval := myData2.ofInt 0
  dtag := ⟨0⟩
  update := myUpdate32
  tagApply := myTag.apply32
  tagClear := fun self => self
  pushdown := .noPushDown

/-- Run of `DPtest` operations on `segmentTree<myData2, myTag, myUpdate, noPushDown>` in 32-bit
arithmetic, every helper with recursion depth `fuel`: the `maxval` field of every query answer,
or `none` when a call does not return normally. -/
def runDP32 (fuel : Nat) (t : segmentTree myData2 myTag) : List DPOp → Option (List Int)
  | [] => some []
  | .replace pos v :: ops =>
    match t.replace32 myPolicy32 fuel pos (myData2.ofInt v) with
    | .ok t1 => runDP32 fuel t1 ops
    | _ => none
  | .modifyAt pos x :: ops =>
    match t.modify32 myPolicy32 fuel pos pos ⟨x⟩ with
    | .ok t1 => runDP32 fuel t1 ops
    | _ => none
  | .query l r :: ops =>
    match t.query32 myPolicy32 fuel l r with
    | .ok (d, t1) => (runDP32 fuel t1 ops).map (fun xs => d.maxval :: xs)
    | _ => none

/-- States reachable from construction by `replace`, `modify` and `query` calls that return, the
helpers running in 32-bit arithmetic with whatever recursion depth they need. -/
inductive Reachable32 (P : Policy V T) : segmentTree V T → Prop where
  | init {l r : Int} {t : segmentTree V T} : construct P l r = .ok t → Reachable32 P t
  | replace {fuel : Nat} {t t1 : segmentTree V T} {pos : Int} {v : V} :
      Reachable32 P t → t.replace32 P fuel pos v = .ok t1 → Reachable32 P t1
  | modify {fuel : Nat} {t t1 : segmentTree V T} {l r : Int} {tag : T} :
      Reachable32 P t → t.modify32 P fuel l r tag = .ok t1 → Reachable32 P t1
  | query {fuel : Nat} {t t1 : segmentTree V T} {l r : Int} {v : V} :
      Reachable32 P t → t.query32 P fuel l r = .ok (v, t1) → Reachable32 P t1

/-- `visitPoint32 Q n pos`: `Q` holds at every node the helper `replace` is called on, in
32-bit arithmetic, when it is started at `n` with position `pos`, read off the tree after the
call: the node itself and, unless it is a leaf, the child chosen by `pos ≤ mid`, and so on. -/
def visitPoint32 (Q : Node V T → Int → Prop) : Node V T → Int → Prop
  | .null, _ => False
  | .node L R l r val tag, pos =>
    Q (.node L R l r val tag) pos ∧
    (L ≠ R → if pos ≤ mid32 L R then visitPoint32 Q l pos else visitPoint32 Q r pos)

/-- `visitRange32 Q n l r`: `Q` holds at every node, with the arguments of the call, the helpers
`modify` and `query` are called on, in 32-bit arithmetic, when started at `n` with the range
`[l, r]`, read off the tree after the call: the node itself and, unless its interval is
`[l, r]`, the left child, the right child, or both with the range split at `mid`. -/
def visitRange32 (Q : Node V T → Int → Int → Prop) : Node V T → Int → Int → Prop
  | .null, _, _ => False
  | .node L R cl cr val tag, l, r =>
    Q (.node L R cl cr val tag) l r ∧
    (¬ (L = l ∧ R = r) →
      if r ≤ mid32 L R then visitRange32 Q cl l r
      else if l > mid32 L R then visitRange32 Q cr l r
      else visitRange32 Q cl l (mid32 L R) ∧ visitRange32 Q cr (wrap32 (mid32 L R + 1)) r)

/-- A node of the default tree that has been pushed down, in 32-bit arithmetic: both children
exist, the tag is the identity and the value is the merge `addUpdate` of the children's
values, the `int` sum `leftChild.val + rightChild.val`; it is the sum of the two integers
whenever that sum is representable as an `int`. -/
def PushedDown32 : Node Int addTag → Prop
  | .null => False
  | .node _ _ l r val tag =>
    ∃ lv rv, l.val? = some lv ∧ r.val? = some rv ∧ tag.sum = 0 ∧ val = addUpdate32 lv rv ∧
      (FitsInt (lv + rv) → val = lv + rv)

/-- Invariant of the default tree in 32-bit arithmetic. A node has no children or both; a leaf
has none; the children's intervals are `[L, mid]` and `[mid+1, R]` for the 32-bit midpoint; the
value of a node is, modulo `2^32`, the pending tag times the width plus the values of the
children (a missing child counts as `0`). -/
def Inv32 : Node Int addTag → Prop
  | .null => True
  | .node L R l r val tag =>
    Inv32 l ∧ Inv32 r ∧
    ((l = .null ∧ r = .null ∧ (L ≠ R → val = wrap32 (tag.sum * (R - L + 1)))) ∨
     (L ≠ R ∧ l.bounds? = some (L, mid32 L R) ∧ r.bounds? = some (mid32 L R + 1, R) ∧
       ∃ lv rv, l.val? = some lv ∧ r.val? = some rv ∧
         val = wrap32 (tag.sum * (R - L + 1) + lv + rv)))

/-! ## Runs of the maximum-subarray test without `int` overflow -/

/-- Every sum `a[i] + ... + a[j]` over a contiguous sub-range `[i, j]` of `[L, R]` is
representable as a 32-bit signed `int`. -/
def SumsFit (a : Int → Int) (L R : Int) : Prop :=
  ∀ i j, L ≤ i → i ≤ j → j ≤ R → FitsInt (rangeSum a i j)

/-- `DPFits L R a ops`: along the run of `ops` from the reference array `a`, after every
`replace` (`a[pos] := v`) and every point `modify` (`a[pos] += t`) the sums of all contiguous
sub-ranges of `[L, R]` are representable as 32-bit signed `int`. -/
def DPFits (L R : Int) (a : Int → Int) : List DPOp → Prop
  | [] => True
  | .replace pos v :: ops =>
    SumsFit (setAt a pos v) L R ∧ DPFits L R (setAt a pos v) ops
  | .modifyAt pos x :: ops =>
    SumsFit (setAt a pos (a pos + x)) L R ∧ DPFits L R (setAt a pos (a pos + x)) ops
  | .query _ _ :: ops => DPFits L R a ops

/-! # Theorems -/

/-! ## Arithmetic of midpoints and range sums -/

theorem mid_eq (L R : Int) : mid L R = (L + R) / 2 := by
  have h := Int.shiftRight_eq_div_pow (L + R) 1
  simpa [mid] using h

theorem mid_bounds {L R : Int} (h : L < R) : L ≤ mid L R ∧ mid L R < R := by
  rw [mid_eq]
  omega

theorem sumFrom_append (a : Int → Int) (l : Int) (m n : Nat) :
    sumFrom a l (m + n) = sumFrom a l m + sumFrom a (l + m) n := by
  induction m generalizing l with
  | zero => simp [sumFrom]
  | succ m ih =>
    have h : m + 1 + n = (m + n) + 1 := by omega
    rw [h, sumFrom, sumFrom, ih (l + 1)]
    have h2 : l + 1 + (m : Int) = l + ((m + 1 : Nat) : Int) := by push_cast; ring
    rw [h2]
    ring

theorem sumFrom_congr {a b : Int → Int} (l : Int) (n : Nat)
    (h : ∀ i, l ≤ i → i < l + n → a i = b i) : sumFrom a l n = sumFrom b l n := by
  induction n generalizing l with
  | zero => rfl
  | succ n ih =>
    rw [sumFrom, sumFrom, h l (le_refl l) (by push_cast; omega)]
    rw [ih (l + 1) (fun i h1 h2 => h i (by omega) (by push_cast; omega))]

theorem sumFrom_add_const (a : Int → Int) (c : Int) (l : Int) (n : Nat) :
    sumFrom (fun i => a i + c) l n = sumFrom a l n + c * n := by
  induction n generalizing l with
  | zero => simp [sumFrom]
  | succ n ih =>
    rw [sumFrom, sumFrom, ih (l + 1)]
    push_cast
    ring

theorem rangeSum_single (a : Int → Int) (l : Int) : rangeSum a l l = a l := by
  have h : (l + 1 - l).toNat = 1 := by omega
  simp [rangeSum, h, sumFrom]

theorem rangeSum_split (a : Int → Int) {l m r : Int} (h1 : l ≤ m) (h2 : m ≤ r) :
    rangeSum a l r = rangeSum a l m + rangeSum a (m + 1) r := by
  unfold rangeSum
  have h : (r + 1 - l).toNat = (m + 1 - l).toNat + (r + 1 - (m + 1)).toNat := by omega
  rw [h, sumFrom_append]
  have h3 : l + ((m + 1 - l).toNat : Int) = m + 1 := by omega
  rw [h3]

theorem rangeSum_congr {a b : Int → Int} {l r : Int}
    (h : ∀ i, l ≤ i → i ≤ r → a i = b i) : rangeSum a l r = rangeSum b l r := by
  unfold rangeSum
  exact sumFrom_congr l _ (fun i h1 h2 => h i h1 (by omega))

theorem rangeSum_add_const (a : Int → Int) (c : Int) {l r : Int} (h : l ≤ r) :
    rangeSum (fun i => a i + c) l r = rangeSum a l r + c * (r - l + 1) := by
  unfold rangeSum
  rw [sumFrom_add_const]
  have h3 : (((r + 1 - l).toNat : Nat) : Int) = r - l + 1 := by omega
  rw [h3]

theorem sumFrom_zero (l : Int) (n : Nat) : sumFrom (fun _ => (0 : Int)) l n = 0 := by
  induction n generalizing l with
  | zero => rfl
  | succ n ih => rw [sumFrom, ih]; simp

theorem rangeSum_const (c : Int) {l r : Int} (h : l ≤ r) :
    rangeSum (fun _ => c) l r = c * (r - l + 1) := by
  have h0 : rangeSum (fun _ => (0 : Int)) l r = 0 := sumFrom_zero _ _
  have h1 := rangeSum_add_const (fun _ => (0 : Int)) c h
  simp only [zero_add] at h1
  rw [h1, h0, zero_add]

/-! ## More fuel never changes a result -/

theorem replaceAux_fuel_mono (P : Policy V T) (fuel : Nat) : ∀ (n n1 : Node V T) (pos : Int)
    (v : V), replaceAux P fuel n pos v = some n1 → replaceAux P (fuel + 1) n pos v = some n1 := by
  induction fuel with
  | zero => intro n n1 pos v h; exact absurd h (by simp [replaceAux])
  | succ fuel ih =>
    intro n n1 pos v h
    cases n with
    | null => exact absurd h (by simp [replaceAux])
    | node L R l r val tag =>
      rw [replaceAux] at h ⊢
      by_cases hLR : L = R
      · simpa only [if_pos hLR] using h
      · simp only [if_neg hLR] at h ⊢
        by_cases hp : pos ≤ mid L R
        · simp only [if_pos hp] at h ⊢
          cases e : replaceAux P fuel _ pos v with
          | none => rw [e] at h; exact absurd h (by simp)
          | some l3 => rw [e] at h; rw [ih _ _ _ _ e]; exact h
        · simp only [if_neg hp] at h ⊢
          cases e : replaceAux P fuel _ pos v with
          | none => rw [e] at h; exact absurd h (by simp)
          | some r3 => rw [e] at h; rw [ih _ _ _ _ e]; exact h

theorem modifyAux_fuel_mono (P : Policy V T) (fuel : Nat) : ∀ (n n1 : Node V T) (ml mr : Int)
    (t : T), modifyAux P fuel n ml mr t = some n1 → modifyAux P (fuel + 1) n ml mr t = some n1 := by
  induction fuel with
  | zero => intro n n1 ml mr t h; exact absurd h (by simp [modifyAux])
  | succ fuel ih =>
    intro n n1 ml mr t h
    cases n with
    | null => exact absurd h (by simp [modifyAux])
    | node L R l r val tag =>
      rw [modifyAux] at h ⊢
      by_cases hex : L = ml ∧ R = mr
      · simpa only [if_pos hex] using h
      · simp only [if_neg hex] at h ⊢
        by_cases hp : mr ≤ mid L R
        · simp only [if_pos hp] at h ⊢
          cases e : modifyAux P fuel _ ml mr t with
          | none => rw [e] at h; exact absurd h (by simp)
          | some l3 => rw [e] at h; rw [ih _ _ _ _ _ e]; exact h
        · simp only [if_neg hp] at h ⊢
          by_cases hq : ml > mid L R
          · simp only [if_pos hq] at h ⊢
            cases e : modifyAux P fuel _ ml mr t with
            | none => rw [e] at h; exact absurd h (by simp)
            | some r3 => rw [e] at h; rw [ih _ _ _ _ _ e]; exact h
          · simp only [if_neg hq] at h ⊢
            cases e1 : modifyAux P fuel _ ml (mid L R) t with
            | none => rw [e1] at h; exact absurd h (by simp)
            | some l3 =>
              cases e2 : modifyAux P fuel _ (mid L R + 1) mr t with
              | none => rw [e1, e2] at h; exact absurd h (by simp)
              | some r3 =>
                rw [e1, e2] at h
                rw [ih _ _ _ _ _ e1, ih _ _ _ _ _ e2]
                exact h

theorem queryAux_fuel_mono (P : Policy V T) (fuel : Nat) : ∀ (n : Node V T) (ql qr : Int)
    (res : V × Node V T),
    queryAux P fuel n ql qr = some res → queryAux P (fuel + 1) n ql qr = some res := by
  induction fuel with
  | zero => intro n ql qr res h; exact absurd h (by simp [queryAux])
  | succ fuel ih =>
    intro n ql qr res h
    cases n with
    | null => exact absurd h (by simp [queryAux])
    | node L R l r val tag =>
      rw [queryAux] at h ⊢
      by_cases hex : L = ql ∧ R = qr
      · simpa only [if_pos hex] using h
      · simp only [if_neg hex] at h ⊢
        by_cases hp : qr ≤ mid L R
        · simp only [if_pos hp] at h ⊢
          cases e : queryAux P fuel _ ql qr with
          | none => rw [e] at h; exact absurd h (by simp)
          | some x => rw [e] at h; rw [ih _ _ _ _ e]; exact h
        · simp only [if_neg hp] at h ⊢
          by_cases hq : ql > mid L R
          · simp only [if_pos hq] at h ⊢
            cases e : queryAux P fuel _ ql qr with
            | none => rw [e] at h; exact absurd h (by simp)
            | some x => rw [e] at h; rw [ih _ _ _ _ e]; exact h
          · simp only [if_neg hq] at h ⊢
            cases e1 : queryAux P fuel _ ql (mid L R) with
            | none => rw [e1] at h; exact absurd h (by simp)
            | some x =>
              cases e2 : queryAux P fuel _ (mid L R + 1) qr with
              | none => rw [e1, e2] at h; exact absurd h (by simp)
              | some y =>
                rw [e1, e2] at h
                rw [ih _ _ _ _ e1, ih _ _ _ _ e2]
                exact h

/-! ## The representation invariant of the default tree is preserved -/

theorem Rep_congr (n : Node Int addTag) : ∀ (a b : Int → Int) (L R : Int),
    n.bounds? = some (L, R) → (∀ i, L ≤ i → i ≤ R → a i = b i) → Rep a n → Rep b n := by
  induction n with
  | null => intro a b L R _ _ h; exact h
  | node L0 R0 l r val tag ihl ihr =>
    intro a b L R hb hab h
    simp only [Node.bounds?, Option.some.injEq, Prod.mk.injEq] at hb
    obtain ⟨rfl, rfl⟩ := hb
    obtain ⟨hle, hval, hk⟩ := h
    refine ⟨hle, ?_, ?_⟩
    · rw [hval]; exact rangeSum_congr hab
    · rcases hk with ⟨hl, hr, hc⟩ | ⟨hlt, hlb, hrb, hl, hr⟩
      · exact Or.inl ⟨hl, hr, fun h i h1 h2 => by rw [← hab i h1 h2]; exact hc h i h1 h2⟩
      · have hm := mid_bounds hlt
        refine Or.inr ⟨hlt, hlb, hrb, ?_, ?_⟩
        · exact ihl _ _ _ _ hlb (fun i h1 h2 => by rw [hab i h1 (by omega)]) hl
        · exact ihr _ _ _ _ hrb (fun i h1 h2 => by rw [hab i (by omega) h2]) hr

theorem Rep_val {a : Int → Int} {n : Node Int addTag} {L R : Int}
    (h : Rep a n) (hb : n.bounds? = some (L, R)) : n.val? = some (rangeSum a L R) := by
  cases n with
  | null => exact absurd h (by simp [Rep])
  | node L0 R0 l r val tag =>
    simp only [Node.bounds?, Option.some.injEq, Prod.mk.injEq] at hb
    obtain ⟨rfl, rfl⟩ := hb
    simp only [Node.val?, h.2.1]

/-- A node created by `check` represents the all-zero array. -/
theorem Rep_fresh {L R : Int} (h : L ≤ R) :
    Rep (fun _ => 0) (.node L R .null .null defaultPolicy.dval defaultPolicy.dtag) := by
  refine ⟨h, ?_, Or.inl ⟨rfl, rfl, fun _ _ _ _ => rfl⟩⟩
  rw [rangeSum_const 0 h]
  simp [defaultPolicy]

/-- Applying a tag to a node adds `t.sum` to every position of its interval. -/
theorem applyTag_rep {a : Int → Int} {n : Node Int addTag} {L R : Int} (t : addTag)
    (h : Rep a n) (hb : n.bounds? = some (L, R)) :
    Rep (fun i => a i + t.sum) (applyTag defaultPolicy t n) ∧
      (applyTag defaultPolicy t n).bounds? = some (L, R) := by
  cases n with
  | null => exact absurd h (by simp [Rep])
  | node L0 R0 l r val tag =>
    simp only [Node.bounds?, Option.some.injEq, Prod.mk.injEq] at hb
    obtain ⟨rfl, rfl⟩ := hb
    obtain ⟨hle, hval, hk⟩ := h
    refine ⟨⟨hle, ?_, ?_⟩, rfl⟩
    · simp only [defaultPolicy, addTag.apply]
      rw [rangeSum_add_const a t.sum hle, hval]
    · simp only [defaultPolicy, addTag.apply]
      rcases hk with ⟨hl, hr, hc⟩ | ⟨hlt, hlb, hrb, hl, hr⟩
      · exact Or.inl ⟨hl, hr, fun h i h1 h2 => by rw [hc h i h1 h2]⟩
      · refine Or.inr ⟨hlt, hlb, hrb, ?_, ?_⟩
        · exact Rep_congr l _ _ _ _ hlb (fun i _ _ => by ring) hl
        · exact Rep_congr r _ _ _ _ hrb (fun i _ _ => by ring) hr

/-- After `check`, `check` and `pushdown` on a non-leaf node, both children exist, represent the
same array as the parent, and the parent tag is cleared. -/
theorem descend_rep {a : Int → Int} {L R : Int} {l r : Node Int addTag} {val : Int} {tag : addTag}
    (h : Rep a (.node L R l r val tag)) (hlt : L < R) :
    (pushdownStep defaultPolicy tag (check defaultPolicy l L (mid L R))
        (check defaultPolicy r (mid L R + 1) R)).1.sum = 0 ∧
    Rep a (pushdownStep defaultPolicy tag (check defaultPolicy l L (mid L R))
        (check defaultPolicy r (mid L R + 1) R)).2.1 ∧
    (pushdownStep defaultPolicy tag (check defaultPolicy l L (mid L R))
        (check defaultPolicy r (mid L R + 1) R)).2.1.bounds? = some (L, mid L R) ∧
    Rep a (pushdownStep defaultPolicy tag (check defaultPolicy l L (mid L R))
        (check defaultPolicy r (mid L R + 1) R)).2.2 ∧
    (pushdownStep defaultPolicy tag (check defaultPolicy l L (mid L R))
        (check defaultPolicy r (mid L R + 1) R)).2.2.bounds? = some (mid L R + 1, R) := by
  have hm := mid_bounds hlt
  obtain ⟨_, _, hk⟩ := h
  have key : Rep (fun i => a i - tag.sum) (check defaultPolicy l L (mid L R)) ∧
      (check defaultPolicy l L (mid L R)).bounds? = some (L, mid L R) ∧
      Rep (fun i => a i - tag.sum) (check defaultPolicy r (mid L R + 1) R) ∧
      (check defaultPolicy r (mid L R + 1) R).bounds? = some (mid L R + 1, R) := by
    rcases hk with ⟨hl, hr, hc⟩ | ⟨_, hlb, hrb, hl, hr⟩
    · subst hl hr
      refine ⟨?_, rfl, ?_, rfl⟩
      · exact Rep_congr _ _ _ _ _ rfl
          (fun i h1 h2 => by rw [hc hlt i h1 (by omega)]; simp) (Rep_fresh hm.1)
      · exact Rep_congr _ _ _ _ _ rfl
          (fun i h1 h2 => by rw [hc hlt i (by omega) h2]; simp) (Rep_fresh (by omega))
    · cases l with
      | null => simp [Node.bounds?] at hlb
      | node _ _ _ _ _ _ =>
        cases r with
        | null => simp [Node.bounds?] at hrb
        | node _ _ _ _ _ _ => exact ⟨hl, hlb, hr, hrb⟩
  obtain ⟨hl, hlb, hr, hrb⟩ := key
  have al := applyTag_rep tag hl hlb
  have ar := applyTag_rep tag hr hrb
  refine ⟨rfl, ?_, al.2, ?_, ar.2⟩
  · exact Rep_congr _ _ _ _ _ al.2 (fun i _ _ => by ring) al.1
  · exact Rep_congr _ _ _ _ _ ar.2 (fun i _ _ => by ring) ar.1

/-- Recomputing the parent value from two children that represent `a`. -/
theorem rebuild_rep {a : Int → Int} {L R : Int} {l r : Node Int addTag} {tag : addTag}
    (hlt : L < R) (h0 : tag.sum = 0)
    (hl : Rep a l) (hlb : l.bounds? = some (L, mid L R))
    (hr : Rep a r) (hrb : r.bounds? = some (mid L R + 1, R)) :
    ∃ n, rebuild defaultPolicy L R l r tag = some n ∧ n.bounds? = some (L, R) ∧ Rep a n := by
  have hm := mid_bounds hlt
  refine ⟨.node L R l r (rangeSum a L (mid L R) + rangeSum a (mid L R + 1) R) tag, ?_, rfl, ?_⟩
  · simp [rebuild, Rep_val hl hlb, Rep_val hr hrb, defaultPolicy, addUpdate]
  · refine ⟨by omega, (rangeSum_split a hm.1 (by omega)).symm, Or.inr ⟨hlt, hlb, hrb, ?_, ?_⟩⟩
    · exact Rep_congr _ _ _ _ _ hlb (fun i _ _ => by simp [h0]) hl
    · exact Rep_congr _ _ _ _ _ hrb (fun i _ _ => by simp [h0]) hr

/-! ## The helpers on the default tree -/

theorem replaceAux_rep (fuel : Nat) : ∀ (n : Node Int addTag) (a : Int → Int) (L R pos v : Int),
    Rep a n → n.bounds? = some (L, R) → L ≤ pos → pos ≤ R → (R - L).toNat < fuel →
    ∃ n', replaceAux defaultPolicy fuel n pos v = some n' ∧ n'.bounds? = some (L, R) ∧
      Rep (setAt a pos v) n' := by
  induction fuel with
  | zero => intro n a L R pos v _ _ _ _ hf; omega
  | succ fuel ih =>
    intro n a L R pos v hrep hb hl hr hf
    cases n with
    | null => exact absurd hrep (by simp [Rep])
    | node L0 R0 l r val tag =>
      simp only [Node.bounds?, Option.some.injEq, Prod.mk.injEq] at hb
      obtain ⟨rfl, rfl⟩ := hb
      by_cases hLR : L0 = R0
      · subst hLR
        have hpos : pos = L0 := by omega
        subst hpos
        refine ⟨.node pos pos l r v tag, by simp [replaceAux], rfl, ?_⟩
        obtain ⟨_, _, hk⟩ := hrep
        refine ⟨le_refl _, ?_, ?_⟩
        · rw [rangeSum_single]; simp [setAt]
        · rcases hk with ⟨h1, h2, _⟩ | ⟨hlt, _⟩
          · exact Or.inl ⟨h1, h2, fun h => absurd h (lt_irrefl _)⟩
          · exact absurd hlt (lt_irrefl _)
      · have hlt : L0 < R0 := lt_of_le_of_ne (by omega) hLR
        obtain ⟨h0, hl1, hlb, hr1, hrb⟩ := descend_rep hrep hlt
        have hm := mid_bounds hlt
        simp only [replaceAux, if_neg hLR]
        generalize pushdownStep defaultPolicy tag (check defaultPolicy l L0 (mid L0 R0))
          (check defaultPolicy r (mid L0 R0 + 1) R0) = p at h0 hl1 hlb hr1 hrb ⊢
        by_cases hp : pos ≤ mid L0 R0
        · simp only [if_pos hp]
          obtain ⟨l3, e3, b3, r3⟩ := ih p.2.1 a L0 (mid L0 R0) pos v hl1 hlb hl hp (by omega)
          rw [e3]
          exact rebuild_rep hlt h0 r3 b3
            (Rep_congr _ _ _ _ _ hrb (fun i h1 _ => by simp only [setAt]; rw [if_neg (by omega)]) hr1)
            hrb
        · simp only [if_neg hp]
          obtain ⟨r3, e3, b3, rr3⟩ :=
            ih p.2.2 a (mid L0 R0 + 1) R0 pos v hr1 hrb (by omega) hr (by omega)
          rw [e3]
          exact rebuild_rep hlt h0
            (Rep_congr _ _ _ _ _ hlb (fun i _ h2 => by simp only [setAt]; rw [if_neg (by omega)]) hl1)
            hlb rr3 b3

theorem modifyAux_rep (fuel : Nat) : ∀ (n : Node Int addTag) (a : Int → Int)
    (L R ml mr : Int) (t : addTag),
    Rep a n → n.bounds? = some (L, R) → L ≤ ml → ml ≤ mr → mr ≤ R → (R - L).toNat < fuel →
    ∃ n', modifyAux defaultPolicy fuel n ml mr t = some n' ∧ n'.bounds? = some (L, R) ∧
      Rep (addOn a ml mr t.sum) n' := by
  induction fuel with
  | zero => intro n a L R ml mr t _ _ _ _ _ hf; omega
  | succ fuel ih =>
    intro n a L R ml mr t hrep hb hl hlr hr hf
    cases n with
    | null => exact absurd hrep (by simp [Rep])
    | node L0 R0 l r val tag =>
      simp only [Node.bounds?, Option.some.injEq, Prod.mk.injEq] at hb
      obtain ⟨rfl, rfl⟩ := hb
      by_cases hex : L0 = ml ∧ R0 = mr
      · obtain ⟨rfl, rfl⟩ := hex
        have ha := applyTag_rep t hrep rfl
        refine ⟨_, by simp only [modifyAux, true_and, if_true], ha.2, ?_⟩
        exact Rep_congr _ _ _ _ _ ha.2
          (fun i h1 h2 => by simp only [addOn]; rw [if_pos ⟨h1, h2⟩]) ha.1
      · have hlt : L0 < R0 := by
          rcases not_and_or.mp hex with h | h <;> omega
        obtain ⟨h0, hl1, hlb, hr1, hrb⟩ := descend_rep hrep hlt
        have hm := mid_bounds hlt
        simp only [modifyAux, if_neg hex]
        generalize pushdownStep defaultPolicy tag (check defaultPolicy l L0 (mid L0 R0))
          (check defaultPolicy r (mid L0 R0 + 1) R0) = p at h0 hl1 hlb hr1 hrb ⊢
        by_cases hp : mr ≤ mid L0 R0
        · simp only [if_pos hp]
          obtain ⟨l3, e3, b3, r3⟩ :=
            ih p.2.1 a L0 (mid L0 R0) ml mr t hl1 hlb hl hlr hp (by omega)
          rw [e3]
          exact rebuild_rep hlt h0 r3 b3
            (Rep_congr _ _ _ _ _ hrb
              (fun i h1 _ => by simp only [addOn]; rw [if_neg (by omega)]) hr1) hrb
        · simp only [if_neg hp]
          by_cases hq : ml > mid L0 R0
          · simp only [if_pos hq]
            obtain ⟨r3, e3, b3, rr3⟩ :=
              ih p.2.2 a (mid L0 R0 + 1) R0 ml mr t hr1 hrb (by omega) hlr hr (by omega)
            rw [e3]
            exact rebuild_rep hlt h0
              (Rep_congr _ _ _ _ _ hlb
                (fun i _ h2 => by simp only [addOn]; rw [if_neg (by omega)]) hl1) hlb rr3 b3
          · simp only [if_neg hq]
            obtain ⟨l3, e3, b3, ll3⟩ :=
              ih p.2.1 a L0 (mid L0 R0) ml (mid L0 R0) t hl1 hlb hl (by omega) (le_refl _)
                (by omega)
            obtain ⟨r3, e4, b4, rr3⟩ :=
              ih p.2.2 a (mid L0 R0 + 1) R0 (mid L0 R0 + 1) mr t hr1 hrb (le_refl _) (by omega)
                hr (by omega)
            rw [e3, e4]
            refine rebuild_rep hlt h0
              (Rep_congr _ _ _ _ _ b3 (fun i h1 h2 => ?_) ll3) b3
              (Rep_congr _ _ _ _ _ b4 (fun i h1 h2 => ?_) rr3) b4
            · simp only [addOn]
              by_cases hi : ml ≤ i
              · rw [if_pos ⟨hi, h2⟩, if_pos ⟨hi, by omega⟩]
              · rw [if_neg (fun h => hi h.1), if_neg (fun h => hi h.1)]
            · simp only [addOn]
              by_cases hi : i ≤ mr
              · rw [if_pos ⟨h1, hi⟩, if_pos ⟨by omega, hi⟩]
              · rw [if_neg (fun h => hi h.2), if_neg (fun h => hi h.2)]

theorem queryAux_rep (fuel : Nat) : ∀ (n : Node Int addTag) (a : Int → Int)
    (L R ql qr : Int),
    Rep a n → n.bounds? = some (L, R) → L ≤ ql → ql ≤ qr → qr ≤ R → (R - L).toNat < fuel →
    ∃ n', queryAux defaultPolicy fuel n ql qr = some (rangeSum a ql qr, n') ∧
      n'.bounds? = some (L, R) ∧ Rep a n' := by
  induction fuel with
  | zero => intro n a L R ql qr _ _ _ _ _ hf; omega
  | succ fuel ih =>
    intro n a L R ql qr hrep hb hl hlr hr hf
    cases n with
    | null => exact absurd hrep (by simp [Rep])
    | node L0 R0 l r val tag =>
      simp only [Node.bounds?, Option.some.injEq, Prod.mk.injEq] at hb
      obtain ⟨rfl, rfl⟩ := hb
      by_cases hex : L0 = ql ∧ R0 = qr
      · obtain ⟨rfl, rfl⟩ := hex
        refine ⟨.node L0 R0 l r val tag, ?_, rfl, hrep⟩
        simp only [queryAux, true_and, if_true, hrep.2.1]
      · have hlt : L0 < R0 := by
          rcases not_and_or.mp hex with h | h <;> omega
        obtain ⟨h0, hl1, hlb, hr1, hrb⟩ := descend_rep hrep hlt
        have hm := mid_bounds hlt
        have hval := hrep.2.1
        simp only [queryAux, if_neg hex]
        generalize pushdownStep defaultPolicy tag (check defaultPolicy l L0 (mid L0 R0))
          (check defaultPolicy r (mid L0 R0 + 1) R0) = p at h0 hl1 hlb hr1 hrb ⊢
        have fin : ∀ l3 r3 : Node Int addTag, Rep a l3 → l3.bounds? = some (L0, mid L0 R0) →
            Rep a r3 → r3.bounds? = some (mid L0 R0 + 1, R0) →
            Rep a (.node L0 R0 l3 r3 val p.1) := by
          intro l3 r3 k1 k2 k3 k4
          refine ⟨by omega, hval, Or.inr ⟨hlt, k2, k4, ?_, ?_⟩⟩
          · exact Rep_congr _ _ _ _ _ k2 (fun i _ _ => by simp [h0]) k1
          · exact Rep_congr _ _ _ _ _ k4 (fun i _ _ => by simp [h0]) k3
        by_cases hp : qr ≤ mid L0 R0
        · simp only [if_pos hp]
          obtain ⟨l3, e3, b3, r3⟩ :=
            ih p.2.1 a L0 (mid L0 R0) ql qr hl1 hlb hl hlr hp (by omega)
          rw [e3]
          exact ⟨.node L0 R0 l3 p.2.2 val p.1, rfl, rfl, fin _ _ r3 b3 hr1 hrb⟩
        · simp only [if_neg hp]
          by_cases hq : ql > mid L0 R0
          · simp only [if_pos hq]
            obtain ⟨r3, e3, b3, rr3⟩ :=
              ih p.2.2 a (mid L0 R0 + 1) R0 ql qr hr1 hrb (by omega) hlr hr (by omega)
            rw [e3]
            exact ⟨.node L0 R0 p.2.1 r3 val p.1, rfl, rfl, fin _ _ hl1 hlb rr3 b3⟩
          · simp only [if_neg hq]
            obtain ⟨l3, e3, b3, ll3⟩ :=
              ih p.2.1 a L0 (mid L0 R0) ql (mid L0 R0) hl1 hlb hl (by omega) (le_refl _)
                (by omega)
            obtain ⟨r3, e4, b4, rr3⟩ :=
              ih p.2.2 a (mid L0 R0 + 1) R0 (mid L0 R0 + 1) qr hr1 hrb (le_refl _) (by omega)
                hr (by omega)
            rw [e3, e4]
            refine ⟨.node L0 R0 l3 r3 val p.1, ?_, rfl, fin _ _ ll3 b3 rr3 b4⟩
            simp only [defaultPolicy, addUpdate]
            rw [rangeSum_split a (show ql ≤ mid L0 R0 by omega) (show mid L0 R0 ≤ qr by omega)]

/-! ## Public operations on the default tree -/

theorem construct_rep {L R : Int} {t : segmentTree Int addTag}
    (h : construct defaultPolicy L R = .ok t) :
    Rep (fun _ => 0) t.root ∧ t.root.bounds? = some (L, R) := by
  unfold construct at h
  split at h
  · exact absurd h (by simp)
  · rename_i hle
    simp only [Result.ok.injEq] at h
    subst h
    exact ⟨Rep_fresh (by omega), rfl⟩

theorem replace_rep {a : Int → Int} {t : segmentTree Int addTag} {L R : Int} (pos v : Int)
    (h : Rep a t.root) (hb : t.root.bounds? = some (L, R)) (h1 : L ≤ pos) (h2 : pos ≤ R) :
    ∃ t1, t.replace defaultPolicy pos v = .ok t1 ∧ t1.root.bounds? = some (L, R) ∧
      Rep (setAt a pos v) t1.root := by
  obtain ⟨root⟩ := t
  cases root with
  | null => exact absurd h (by simp [Rep])
  | node L0 R0 l r val tag =>
    simp only [Node.bounds?, Option.some.injEq, Prod.mk.injEq] at hb
    obtain ⟨rfl, rfl⟩ := hb
    obtain ⟨n, e, b, hr⟩ := replaceAux_rep (fuelFor L0 R0) _ a L0 R0 pos v h rfl h1 h2
      (by simp [fuelFor])
    refine ⟨⟨n⟩, ?_, b, hr⟩
    simp only [segmentTree.replace, e]
    rw [if_neg (by omega)]

theorem modify_rep {a : Int → Int} {t : segmentTree Int addTag} {L R : Int} (l r : Int)
    (tag : addTag)
    (h : Rep a t.root) (hb : t.root.bounds? = some (L, R)) (h1 : L ≤ l) (h2 : l ≤ r)
    (h3 : r ≤ R) :
    ∃ t1, t.modify defaultPolicy l r tag = .ok t1 ∧ t1.root.bounds? = some (L, R) ∧
      Rep (addOn a l r tag.sum) t1.root := by
  obtain ⟨root⟩ := t
  cases root with
  | null => exact absurd h (by simp [Rep])
  | node L0 R0 cl cr val tg =>
    simp only [Node.bounds?, Option.some.injEq, Prod.mk.injEq] at hb
    obtain ⟨rfl, rfl⟩ := hb
    obtain ⟨n, e, b, hr⟩ := modifyAux_rep (fuelFor L0 R0) _ a L0 R0 l r tag h rfl h1 h2 h3
      (by simp [fuelFor])
    refine ⟨⟨n⟩, ?_, b, hr⟩
    simp only [segmentTree.modify, e]
    rw [if_neg (by omega), if_neg (by omega), if_neg (by omega)]

theorem query_rep {a : Int → Int} {t : segmentTree Int addTag} {L R : Int} (l r : Int)
    (h : Rep a t.root) (hb : t.root.bounds? = some (L, R)) (h1 : L ≤ l) (h2 : l ≤ r)
    (h3 : r ≤ R) :
    ∃ t1, t.query defaultPolicy l r = .ok (rangeSum a l r, t1) ∧
      t1.root.bounds? = some (L, R) ∧ Rep a t1.root := by
  obtain ⟨root⟩ := t
  cases root with
  | null => exact absurd h (by simp [Rep])
  | node L0 R0 cl cr val tg =>
    simp only [Node.bounds?, Option.some.injEq, Prod.mk.injEq] at hb
    obtain ⟨rfl, rfl⟩ := hb
    obtain ⟨n, e, b, hr⟩ := queryAux_rep (fuelFor L0 R0) _ a L0 R0 l r h rfl h1 h2 h3
      (by simp [fuelFor])
    refine ⟨⟨n⟩, ?_, b, hr⟩
    simp only [segmentTree.query, e]
    rw [if_neg (by omega), if_neg (by omega)]

/-! ## What a returning call says about its arguments -/

theorem replace_ok_inv {P : Policy V T} {t t1 : segmentTree V T} {pos : Int} {v : V}
    (h : t.replace P pos v = .ok t1) :
    ∃ L R, t.root.bounds? = some (L, R) ∧ L ≤ pos ∧ pos ≤ R := by
  obtain ⟨root⟩ := t
  cases root with
  | null => simp [segmentTree.replace] at h
  | node L0 R0 l r val tag =>
    refine ⟨L0, R0, rfl, ?_⟩
    simp only [segmentTree.replace] at h
    split at h
    · exact absurd h (by simp)
    · omega

theorem modify_ok_inv {P : Policy V T} {t t1 : segmentTree V T} {l r : Int} {tag : T}
    (h : t.modify P l r tag = .ok t1) :
    (l = r + 1 ∧ t1 = t) ∨ (∃ L R, t.root.bounds? = some (L, R) ∧ L ≤ l ∧ l ≤ r ∧ r ≤ R) := by
  unfold segmentTree.modify at h
  split at h
  · rename_i he
    simp only [Result.ok.injEq] at h
    exact Or.inl ⟨he, h.symm⟩
  · split at h
    · exact absurd h (by simp)
    · right
      obtain ⟨root⟩ := t
      cases root with
      | null => simp at h
      | node L0 R0 cl cr val tg =>
        refine ⟨L0, R0, rfl, ?_⟩
        simp only at h
        split at h
        · exact absurd h (by simp)
        · omega

theorem query_ok_inv {P : Policy V T} {t t1 : segmentTree V T} {l r : Int} {v : V}
    (h : t.query P l r = .ok (v, t1)) :
    ∃ L R, t.root.bounds? = some (L, R) ∧ L ≤ l ∧ l ≤ r ∧ r ≤ R := by
  unfold segmentTree.query at h
  split at h
  · exact absurd h (by simp)
  · obtain ⟨root⟩ := t
    cases root with
    | null => simp at h
    | node L0 R0 cl cr val tg =>
      refine ⟨L0, R0, rfl, ?_⟩
      simp only at h
      split at h
      · exact absurd h (by simp)
      · omega

/-- Every state reachable without `clear` represents some array. -/
theorem reachable_rep {t : segmentTree Int addTag} (h : Reachable defaultPolicy t) :
    ∃ a L R, Rep a t.root ∧ t.root.bounds? = some (L, R) := by
  induction h with
  | init h0 => exact ⟨_, _, _, construct_rep h0⟩
  | @replace t t1 pos v _ e ih =>
    obtain ⟨a, L, R, hr, hb⟩ := ih
    obtain ⟨L1, R1, hb1, h1, h2⟩ := replace_ok_inv e
    rw [hb] at hb1
    simp only [Option.some.injEq, Prod.mk.injEq] at hb1
    obtain ⟨rfl, rfl⟩ := hb1
    obtain ⟨t2, e2, b2, r2⟩ := replace_rep pos v hr hb h1 h2
    rw [e] at e2
    simp only [Result.ok.injEq] at e2
    subst e2
    exact ⟨_, _, _, r2, b2⟩
  | @modify t t1 l r tag _ e ih =>
    obtain ⟨a, L, R, hr, hb⟩ := ih
    rcases modify_ok_inv e with ⟨_, rfl⟩ | ⟨L1, R1, hb1, h1, h2, h3⟩
    · exact ⟨a, L, R, hr, hb⟩
    · rw [hb] at hb1
      simp only [Option.some.injEq, Prod.mk.injEq] at hb1
      obtain ⟨rfl, rfl⟩ := hb1
      obtain ⟨t2, e2, b2, r2⟩ := modify_rep l r tag hr hb h1 h2 h3
      rw [e] at e2
      simp only [Result.ok.injEq] at e2
      subst e2
      exact ⟨_, _, _, r2, b2⟩
  | @query t t1 l r v _ e ih =>
    obtain ⟨a, L, R, hr, hb⟩ := ih
    obtain ⟨L1, R1, hb1, h1, h2, h3⟩ := query_ok_inv e
    rw [hb] at hb1
    simp only [Option.some.injEq, Prod.mk.injEq] at hb1
    obtain ⟨rfl, rfl⟩ := hb1
    obtain ⟨t2, e2, b2, r2⟩ := query_rep l r hr hb h1 h2 h3
    rw [e] at e2
    simp only [Result.ok.injEq, Prod.mk.injEq] at e2
    obtain ⟨_, rfl⟩ := e2
    exact ⟨_, _, _, r2, b2⟩

/-- The tree run agrees with the brute-force run from every state that represents `a`. -/
theorem runTree_eq_runRef (ops : List Op) : ∀ (t : segmentTree Int addTag) (a : Int → Int)
    (L R : Int), Rep a t.root → t.root.bounds? = some (L, R) →
    (∀ op ∈ ops, op.inRange L R) → runTree t ops = some (runRef a ops) := by
  induction ops with
  | nil => intro t a L R _ _ _; rfl
  | cons op ops ih =>
    intro t a L R hr hb hin
    have hop := hin op (List.mem_cons_self _ _)
    have hrest : ∀ o ∈ ops, o.inRange L R := fun o ho => hin o (List.mem_cons_of_mem _ ho)
    cases op with
    | replace pos v =>
      obtain ⟨t1, e, b1, r1⟩ := replace_rep pos v hr hb hop.1 hop.2
      simp only [runTree, runRef, e]
      exact ih t1 _ L R r1 b1 hrest
    | modify l r x =>
      obtain ⟨t1, e, b1, r1⟩ := modify_rep l r ⟨x⟩ hr hb hop.1 hop.2.1 hop.2.2
      simp only [runTree, runRef, e]
      exact ih t1 _ L R r1 b1 hrest
    | modifyAt pos x =>
      obtain ⟨t1, e, b1, r1⟩ := modify_rep pos pos ⟨x⟩ hr hb hop.1 (le_refl _) hop.2
      simp only [runTree, runRef, segmentTree.modifyAt, e]
      refine ih t1 _ L R (Rep_congr _ _ _ _ _ b1 (fun i _ _ => ?_) r1) b1 hrest
      simp only [addOn, setAt]
      by_cases hi : i = pos
      · subst hi; simp
      · rw [if_neg hi, if_neg (by omega)]
    | query l r =>
      obtain ⟨t1, e, b1, r1⟩ := query_rep l r hr hb hop.1 hop.2.1 hop.2.2
      simp only [runTree, runRef, e]
      rw [ih t1 a L R r1 b1 hrest]
      rfl

theorem afterQueries_rep {a : Int → Int} {t t1 : segmentTree Int addTag} {L R : Int}
    (hr : Rep a t.root) (hb : t.root.bounds? = some (L, R))
    (h : AfterQueries defaultPolicy t t1) :
    Rep a t1.root ∧ t1.root.bounds? = some (L, R) := by
  induction h with
  | refl => exact ⟨hr, hb⟩
  | @step t2 t3 l r v _ e ih =>
    obtain ⟨L1, R1, hb1, h1, h2, h3⟩ := query_ok_inv e
    rw [ih.2] at hb1
    simp only [Option.some.injEq, Prod.mk.injEq] at hb1
    obtain ⟨rfl, rfl⟩ := hb1
    obtain ⟨t4, e2, b2, r2⟩ := query_rep l r ih.1 ih.2 h1 h2 h3
    rw [e] at e2
    simp only [Result.ok.injEq, Prod.mk.injEq] at e2
    obtain ⟨_, rfl⟩ := e2
    exact ⟨r2, b2⟩

/-! ## Shape and termination for every policy -/

theorem applyTag_shaped (P : Policy V T) (t : T) {n : Node V T} {L R : Int}
    (h : Shaped n) (hb : n.bounds? = some (L, R)) :
    Shaped (applyTag P t n) ∧ (applyTag P t n).bounds? = some (L, R) := by
  cases n with
  | null => exact absurd h (by simp [Shaped])
  | node L0 R0 l r val tag => exact ⟨h, hb⟩

theorem check_shaped (P : Policy V T) {n : Node V T} {L R : Int} (hle : L ≤ R)
    (h : n = .null ∨ (Shaped n ∧ n.bounds? = some (L, R))) :
    Shaped (check P n L R) ∧ (check P n L R).bounds? = some (L, R) := by
  cases n with
  | null => exact ⟨⟨hle, Or.inl ⟨rfl, rfl⟩⟩, rfl⟩
  | node L0 R0 l r val tag =>
    rcases h with h | h
    · exact absurd h (by simp)
    · exact h

theorem descend_shaped (P : Policy V T) {L R : Int} {l r : Node V T} {val : V} {tag : T}
    (h : Shaped (.node L R l r val tag)) (hlt : L < R) :
    Shaped (pushdownStep P tag (check P l L (mid L R)) (check P r (mid L R + 1) R)).2.1 ∧
    (pushdownStep P tag (check P l L (mid L R)) (check P r (mid L R + 1) R)).2.1.bounds?
      = some (L, mid L R) ∧
    Shaped (pushdownStep P tag (check P l L (mid L R)) (check P r (mid L R + 1) R)).2.2 ∧
    (pushdownStep P tag (check P l L (mid L R)) (check P r (mid L R + 1) R)).2.2.bounds?
      = some (mid L R + 1, R) := by
  have hm := mid_bounds hlt
  have hl : Shaped (check P l L (mid L R)) ∧
      (check P l L (mid L R)).bounds? = some (L, mid L R) := by
    apply check_shaped P hm.1
    rcases h.2 with ⟨h1, _⟩ | ⟨_, hlb, _, hl, _⟩
    · exact Or.inl h1
    · exact Or.inr ⟨hl, hlb⟩
  have hr : Shaped (check P r (mid L R + 1) R) ∧
      (check P r (mid L R + 1) R).bounds? = some (mid L R + 1, R) := by
    apply check_shaped P (by omega)
    rcases h.2 with ⟨_, h2⟩ | ⟨_, _, hrb, _, hr⟩
    · exact Or.inl h2
    · exact Or.inr ⟨hr, hrb⟩
  unfold pushdownStep
  cases P.pushdown with
  | addPushdown =>
    exact ⟨(applyTag_shaped P tag hl.1 hl.2).1, (applyTag_shaped P tag hl.1 hl.2).2,
      (applyTag_shaped P tag hr.1 hr.2).1, (applyTag_shaped P tag hr.1 hr.2).2⟩
  | noPushDown => exact ⟨hl.1, hl.2, hr.1, hr.2⟩

theorem rebuild_shaped (P : Policy V T) {L R : Int} {l r : Node V T} (tag : T) (hlt : L < R)
    (hl : Shaped l) (hlb : l.bounds? = some (L, mid L R))
    (hr : Shaped r) (hrb : r.bounds? = some (mid L R + 1, R)) :
    ∃ n, rebuild P L R l r tag = some n ∧ n.bounds? = some (L, R) ∧ Shaped n := by
  cases l with
  | null => exact absurd hl (by simp [Shaped])
  | node _ _ _ _ lv _ =>
    cases r with
    | null => exact absurd hr (by simp [Shaped])
    | node _ _ _ _ rv _ =>
      exact ⟨_, rfl, rfl, ⟨by omega, Or.inr ⟨hlt, hlb, hrb, hl, hr⟩⟩⟩

theorem replaceAux_shaped (P : Policy V T) (fuel : Nat) : ∀ (n : Node V T) (L R pos : Int)
    (v : V), Shaped n → n.bounds? = some (L, R) → L ≤ pos → pos ≤ R → (R - L).toNat < fuel →
    ∃ n1, replaceAux P fuel n pos v = some n1 ∧ n1.bounds? = some (L, R) ∧ Shaped n1 := by
  induction fuel with
  | zero => intro n L R pos v _ _ _ _ hf; omega
  | succ fuel ih =>
    intro n L R pos v hs hb hl hr hf
    cases n with
    | null => exact absurd hs (by simp [Shaped])
    | node L0 R0 l r val tag =>
      simp only [Node.bounds?, Option.some.injEq, Prod.mk.injEq] at hb
      obtain ⟨rfl, rfl⟩ := hb
      by_cases hLR : L0 = R0
      · exact ⟨.node L0 R0 l r v tag, by simp [replaceAux, hLR], rfl, hs⟩
      · have hlt : L0 < R0 := lt_of_le_of_ne (by omega) hLR
        obtain ⟨hl1, hlb, hr1, hrb⟩ := descend_shaped P hs hlt
        have hm := mid_bounds hlt
        simp only [replaceAux, if_neg hLR]
        generalize pushdownStep P tag (check P l L0 (mid L0 R0))
          (check P r (mid L0 R0 + 1) R0) = p at hl1 hlb hr1 hrb ⊢
        by_cases hp : pos ≤ mid L0 R0
        · simp only [if_pos hp]
          obtain ⟨l3, e3, b3, s3⟩ := ih p.2.1 L0 (mid L0 R0) pos v hl1 hlb hl hp (by omega)
          rw [e3]
          exact rebuild_shaped P p.1 hlt s3 b3 hr1 hrb
        · simp only [if_neg hp]
          obtain ⟨r3, e3, b3, s3⟩ :=
            ih p.2.2 (mid L0 R0 + 1) R0 pos v hr1 hrb (by omega) hr (by omega)
          rw [e3]
          exact rebuild_shaped P p.1 hlt hl1 hlb s3 b3

theorem modifyAux_shaped (P : Policy V T) (fuel : Nat) : ∀ (n : Node V T) (L R ml mr : Int)
    (t : T), Shaped n → n.bounds? = some (L, R) → L ≤ ml → ml ≤ mr → mr ≤ R →
    (R - L).toNat < fuel →
    ∃ n1, modifyAux P fuel n ml mr t = some n1 ∧ n1.bounds? = some (L, R) ∧ Shaped n1 := by
  induction fuel with
  | zero => intro n L R ml mr t _ _ _ _ _ hf; omega
  | succ fuel ih =>
    intro n L R ml mr t hs hb hl hlr hr hf
    cases n with
    | null => exact absurd hs (by simp [Shaped])
    | node L0 R0 l r val tag =>
      simp only [Node.bounds?, Option.some.injEq, Prod.mk.injEq] at hb
      obtain ⟨rfl, rfl⟩ := hb
      by_cases hex : L0 = ml ∧ R0 = mr
      · exact ⟨_, by simp only [modifyAux, if_pos hex], (applyTag_shaped P t hs rfl).2,
          (applyTag_shaped P t hs rfl).1⟩
      · have hlt : L0 < R0 := by
          rcases not_and_or.mp hex with h | h <;> omega
        obtain ⟨hl1, hlb, hr1, hrb⟩ := descend_shaped P hs hlt
        have hm := mid_bounds hlt
        simp only [modifyAux, if_neg hex]
        generalize pushdownStep P tag (check P l L0 (mid L0 R0))
          (check P r (mid L0 R0 + 1) R0) = p at hl1 hlb hr1 hrb ⊢
        by_cases hp : mr ≤ mid L0 R0
        · simp only [if_pos hp]
          obtain ⟨l3, e3, b3, s3⟩ :=
            ih p.2.1 L0 (mid L0 R0) ml mr t hl1 hlb hl hlr hp (by omega)
          rw [e3]
          exact rebuild_shaped P p.1 hlt s3 b3 hr1 hrb
        · simp only [if_neg hp]
          by_cases hq : ml > mid L0 R0
          · simp only [if_pos hq]
            obtain ⟨r3, e3, b3, s3⟩ :=
              ih p.2.2 (mid L0 R0 + 1) R0 ml mr t hr1 hrb (by omega) hlr hr (by omega)
            rw [e3]
            exact rebuild_shaped P p.1 hlt hl1 hlb s3 b3
          · simp only [if_neg hq]
            obtain ⟨l3, e3, b3, s3⟩ :=
              ih p.2.1 L0 (mid L0 R0) ml (mid L0 R0) t hl1 hlb hl (by omega) (le_refl _)
                (by omega)
            obtain ⟨r3, e4, b4, s4⟩ :=
              ih p.2.2 (mid L0 R0 + 1) R0 (mid L0 R0 + 1) mr t hr1 hrb (le_refl _) (by omega)
                hr (by omega)
            rw [e3, e4]
            exact rebuild_shaped P p.1 hlt s3 b3 s4 b4

theorem queryAux_shaped (P : Policy V T) (fuel : Nat) : ∀ (n : Node V T) (L R ql qr : Int),
    Shaped n → n.bounds? = some (L, R) → L ≤ ql → ql ≤ qr → qr ≤ R →
    (R - L).toNat < fuel →
    ∃ v n1, queryAux P fuel n ql qr = some (v, n1) ∧ n1.bounds? = some (L, R) ∧ Shaped n1 := by
  induction fuel with
  | zero => intro n L R ql qr _ _ _ _ _ hf; omega
  | succ fuel ih =>
    intro n L R ql qr hs hb hl hlr hr hf
    cases n with
    | null => exact absurd hs (by simp [Shaped])
    | node L0 R0 l r val tag =>
      simp only [Node.bounds?, Option.some.injEq, Prod.mk.injEq] at hb
      obtain ⟨rfl, rfl⟩ := hb
      by_cases hex : L0 = ql ∧ R0 = qr
      · exact ⟨val, .node L0 R0 l r val tag, by simp only [queryAux, if_pos hex], rfl, hs⟩
      · have hlt : L0 < R0 := by
          rcases not_and_or.mp hex with h | h <;> omega
        obtain ⟨hl1, hlb, hr1, hrb⟩ := descend_shaped P hs hlt
        have hm := mid_bounds hlt
        simp only [queryAux, if_neg hex]
        generalize pushdownStep P tag (check P l L0 (mid L0 R0))
          (check P r (mid L0 R0 + 1) R0) = p at hl1 hlb hr1 hrb ⊢
        by_cases hp : qr ≤ mid L0 R0
        · simp only [if_pos hp]
          obtain ⟨x, l3, e3, b3, s3⟩ :=
            ih p.2.1 L0 (mid L0 R0) ql qr hl1 hlb hl hlr hp (by omega)
          rw [e3]
          exact ⟨x, .node L0 R0 l3 p.2.2 val p.1, rfl, rfl,
            ⟨by omega, Or.inr ⟨hlt, b3, hrb, s3, hr1⟩⟩⟩
        · simp only [if_neg hp]
          by_cases hq : ql > mid L0 R0
          · simp only [if_pos hq]
            obtain ⟨x, r3, e3, b3, s3⟩ :=
              ih p.2.2 (mid L0 R0 + 1) R0 ql qr hr1 hrb (by omega) hlr hr (by omega)
            rw [e3]
            exact ⟨x, .node L0 R0 p.2.1 r3 val p.1, rfl, rfl,
              ⟨by omega, Or.inr ⟨hlt, hlb, b3, hl1, s3⟩⟩⟩
          · simp only [if_neg hq]
            obtain ⟨x, l3, e3, b3, s3⟩ :=
              ih p.2.1 L0 (mid L0 R0) ql (mid L0 R0) hl1 hlb hl (by omega) (le_refl _)
                (by omega)
            obtain ⟨y, r3, e4, b4, s4⟩ :=
              ih p.2.2 (mid L0 R0 + 1) R0 (mid L0 R0 + 1) qr hr1 hrb (le_refl _) (by omega)
                hr (by omega)
            rw [e3, e4]
            exact ⟨P.update x y, .node L0 R0 l3 r3 val p.1, rfl, rfl,
              ⟨by omega, Or.inr ⟨hlt, b3, b4, s3, s4⟩⟩⟩

theorem replace_total (P : Policy V T) {t : segmentTree V T} {L R : Int} (pos : Int) (v : V)
    (h : Shaped t.root) (hb : t.root.bounds? = some (L, R)) (h1 : L ≤ pos) (h2 : pos ≤ R) :
    ∃ t1, t.replace P pos v = .ok t1 ∧ t1.root.bounds? = some (L, R) ∧ Shaped t1.root := by
  obtain ⟨root⟩ := t
  cases root with
  | null => exact absurd h (by simp [Shaped])
  | node L0 R0 l r val tag =>
    simp only [Node.bounds?, Option.some.injEq, Prod.mk.injEq] at hb
    obtain ⟨rfl, rfl⟩ := hb
    obtain ⟨n, e, b, hs⟩ := replaceAux_shaped P (fuelFor L0 R0) _ L0 R0 pos v h rfl h1 h2
      (by simp [fuelFor])
    refine ⟨⟨n⟩, ?_, b, hs⟩
    simp only [segmentTree.replace, e]
    rw [if_neg (by omega)]

theorem modify_total (P : Policy V T) {t : segmentTree V T} {L R : Int} (l r : Int) (tag : T)
    (h : Shaped t.root) (hb : t.root.bounds? = some (L, R)) (h1 : L ≤ l) (h2 : l ≤ r)
    (h3 : r ≤ R) :
    ∃ t1, t.modify P l r tag = .ok t1 ∧ t1.root.bounds? = some (L, R) ∧ Shaped t1.root := by
  obtain ⟨root⟩ := t
  cases root with
  | null => exact absurd h (by simp [Shaped])
  | node L0 R0 cl cr val tg =>
    simp only [Node.bounds?, Option.some.injEq, Prod.mk.injEq] at hb
    obtain ⟨rfl, rfl⟩ := hb
    obtain ⟨n, e, b, hs⟩ := modifyAux_shaped P (fuelFor L0 R0) _ L0 R0 l r tag h rfl h1 h2 h3
      (by simp [fuelFor])
    refine ⟨⟨n⟩, ?_, b, hs⟩
    simp only [segmentTree.modify, e]
    rw [if_neg (by omega), if_neg (by omega), if_neg (by omega)]

theorem query_total (P : Policy V T) {t : segmentTree V T} {L R : Int} (l r : Int)
    (h : Shaped t.root) (hb : t.root.bounds? = some (L, R)) (h1 : L ≤ l) (h2 : l ≤ r)
    (h3 : r ≤ R) :
    ∃ v t1, t.query P l r = .ok (v, t1) ∧ t1.root.bounds? = some (L, R) ∧ Shaped t1.root := by
  obtain ⟨root⟩ := t
  cases root with
  | null => exact absurd h (by simp [Shaped])
  | node L0 R0 cl cr val tg =>
    simp only [Node.bounds?, Option.some.injEq, Prod.mk.injEq] at hb
    obtain ⟨rfl, rfl⟩ := hb
    obtain ⟨v, n, e, b, hs⟩ := queryAux_shaped P (fuelFor L0 R0) _ L0 R0 l r h rfl h1 h2 h3
      (by simp [fuelFor])
    refine ⟨v, ⟨n⟩, ?_, b, hs⟩
    simp only [segmentTree.query, e]
    rw [if_neg (by omega), if_neg (by omega)]

/-- Every reachable state (with `clear`) is well shaped. -/
theorem reachableC_shaped {P : Policy V T} {t : segmentTree V T} (h : ReachableC P t) :
    ∃ L R, Shaped t.root ∧ t.root.bounds? = some (L, R) := by
  induction h with
  | @init l r t h0 =>
    unfold construct at h0
    split at h0
    · exact absurd h0 (by simp)
    · simp only [Result.ok.injEq] at h0
      subst h0
      exact ⟨l, r, ⟨by omega, Or.inl ⟨rfl, rfl⟩⟩, rfl⟩
  | @replace t t1 pos v _ e ih =>
    obtain ⟨L, R, hs, hb⟩ := ih
    obtain ⟨L1, R1, hb1, h1, h2⟩ := replace_ok_inv e
    rw [hb] at hb1
    simp only [Option.some.injEq, Prod.mk.injEq] at hb1
    obtain ⟨rfl, rfl⟩ := hb1
    obtain ⟨t2, e2, b2, s2⟩ := replace_total P pos v hs hb h1 h2
    rw [e] at e2
    simp only [Result.ok.injEq] at e2
    subst e2
    exact ⟨_, _, s2, b2⟩
  | @modify t t1 l r tag _ e ih =>
    obtain ⟨L, R, hs, hb⟩ := ih
    rcases modify_ok_inv e with ⟨_, rfl⟩ | ⟨L1, R1, hb1, h1, h2, h3⟩
    · exact ⟨L, R, hs, hb⟩
    · rw [hb] at hb1
      simp only [Option.some.injEq, Prod.mk.injEq] at hb1
      obtain ⟨rfl, rfl⟩ := hb1
      obtain ⟨t2, e2, b2, s2⟩ := modify_total P l r tag hs hb h1 h2 h3
      rw [e] at e2
      simp only [Result.ok.injEq] at e2
      subst e2
      exact ⟨_, _, s2, b2⟩
  | @query t t1 l r v _ e ih =>
    obtain ⟨L, R, hs, hb⟩ := ih
    obtain ⟨L1, R1, hb1, h1, h2, h3⟩ := query_ok_inv e
    rw [hb] at hb1
    simp only [Option.some.injEq, Prod.mk.injEq] at hb1
    obtain ⟨rfl, rfl⟩ := hb1
    obtain ⟨v2, t2, e2, b2, s2⟩ := query_total P l r hs hb h1 h2 h3
    rw [e] at e2
    simp only [Result.ok.injEq, Prod.mk.injEq] at e2
    obtain ⟨_, rfl⟩ := e2
    exact ⟨_, _, s2, b2⟩
  | @clear t t1 _ e ih =>
    obtain ⟨L, R, hs, hb⟩ := ih
    obtain ⟨root⟩ := t
    cases root with
    | null => exact absurd hs (by simp [Shaped])
    | node L0 R0 l r val tag =>
      simp only [segmentTree.clear, Result.ok.injEq] at e
      subst e
      refine ⟨L0, R0, ⟨hs.1, Or.inl ?_⟩, rfl⟩
      constructor
      · cases l <;> rfl
      · cases r <;> rfl

/-! ## States reachable with `clear`: only the root value can be stale -/

theorem setVal_self (d : V) (n : Node V T) : ∃ w, n.setVal w = n := by
  cases n with
  | null => exact ⟨d, rfl⟩
  | node L R l r val tag => exact ⟨val, rfl⟩

theorem replaceAux_setVal (P : Policy V T) (fuel : Nat) (n : Node V T) (w : V) (pos : Int)
    (v : V) : replaceAux P fuel (n.setVal w) pos v = replaceAux P fuel n pos v := by
  cases fuel with
  | zero => rfl
  | succ fuel =>
    cases n with
    | null => rfl
    | node L R l r val tag => simp only [Node.setVal, replaceAux]

theorem replace_setVal (P : Policy V T) (n : Node V T) (w : V) (pos : Int) (v : V) :
    (⟨n.setVal w⟩ : segmentTree V T).replace P pos v = (⟨n⟩ : segmentTree V T).replace P pos v := by
  cases n with
  | null => rfl
  | node L R l r val tag =>
    have h := replaceAux_setVal P (fuelFor L R) (.node L R l r val tag) w pos v
    simp only [Node.setVal] at h
    simp only [segmentTree.replace, Node.setVal, h]

theorem modifyAux_setVal (fuel : Nat) (n n1 : Node Int addTag) (w ml mr : Int) (t : addTag)
    (h : modifyAux defaultPolicy fuel (n.setVal w) ml mr t = some n1) :
    ∃ n2 w1, modifyAux defaultPolicy fuel n ml mr t = some n2 ∧ n2.setVal w1 = n1 := by
  cases fuel with
  | zero => exact absurd h (by simp [modifyAux])
  | succ fuel =>
    cases n with
    | null => exact absurd h (by simp [modifyAux, Node.setVal])
    | node L R l r val tag =>
      simp only [Node.setVal, modifyAux] at h ⊢
      by_cases hex : L = ml ∧ R = mr
      · simp only [if_pos hex, Option.some.injEq] at h ⊢
        subst h
        exact ⟨_, w + t.sum * (R - L + 1), rfl, rfl⟩
      · simp only [if_neg hex] at h ⊢
        obtain ⟨w1, e⟩ := setVal_self (0 : Int) n1
        exact ⟨n1, w1, h, e⟩

theorem modify_setVal (n : Node Int addTag) (w l r : Int) (tag : addTag)
    (t2 : segmentTree Int addTag)
    (h : (⟨n.setVal w⟩ : segmentTree Int addTag).modify defaultPolicy l r tag = .ok t2) :
    ∃ t3 w1, (⟨n⟩ : segmentTree Int addTag).modify defaultPolicy l r tag = .ok t3 ∧
      t3.root.setVal w1 = t2.root := by
  unfold segmentTree.modify at h ⊢
  by_cases h1 : l = r + 1
  · simp only [if_pos h1, Result.ok.injEq] at h ⊢
    subst h
    exact ⟨_, w, rfl, rfl⟩
  · simp only [if_neg h1] at h ⊢
    by_cases h2 : l > r
    · simp only [if_pos h2] at h
      exact absurd h (by simp)
    · simp only [if_neg h2] at h ⊢
      cases n with
      | null => exact absurd h (by simp [Node.setVal])
      | node L R cl cr val tg =>
        simp only [Node.setVal] at h ⊢
        by_cases h3 : l < L ∨ r > R
        · simp only [if_pos h3] at h
          exact absurd h (by simp)
        · simp only [if_neg h3] at h ⊢
          cases e : modifyAux defaultPolicy (fuelFor L R) (.node L R cl cr w tg) l r tag with
          | none => rw [e] at h; exact absurd h (by simp)
          | some n1 =>
            rw [e] at h
            simp only [Result.ok.injEq] at h
            subst h
            obtain ⟨n2, w1, e2, e3⟩ :=
              modifyAux_setVal (fuelFor L R) (.node L R cl cr val tg) n1 w l r tag e
            rw [e2]
            exact ⟨⟨n2⟩, w1, rfl, e3⟩

theorem queryAux_setVal (fuel : Nat) (n n1 : Node Int addTag) (w ql qr x : Int)
    (h : queryAux defaultPolicy fuel (n.setVal w) ql qr = some (x, n1)) :
    ∃ y n2 w1, queryAux defaultPolicy fuel n ql qr = some (y, n2) ∧ n2.setVal w1 = n1 := by
  cases fuel with
  | zero => exact absurd h (by simp [queryAux])
  | succ fuel =>
    cases n with
    | null => exact absurd h (by simp [queryAux, Node.setVal])
    | node L R l r val tag =>
      simp only [Node.setVal, queryAux] at h ⊢
      by_cases hex : L = ql ∧ R = qr
      · simp only [if_pos hex, Option.some.injEq, Prod.mk.injEq] at h ⊢
        obtain ⟨_, rfl⟩ := h
        exact ⟨val, _, w, ⟨rfl, rfl⟩, rfl⟩
      · simp only [if_neg hex] at h ⊢
        generalize pushdownStep defaultPolicy tag (check defaultPolicy l L (mid L R))
          (check defaultPolicy r (mid L R + 1) R) = p at h ⊢
        by_cases hp : qr ≤ mid L R
        · simp only [if_pos hp] at h ⊢
          cases e : queryAux defaultPolicy fuel p.2.1 ql qr with
          | none => rw [e] at h; exact absurd h (by simp)
          | some res =>
            rw [e] at h
            simp only [Option.some.injEq, Prod.mk.injEq] at h
            obtain ⟨_, rfl⟩ := h
            exact ⟨_, _, w, rfl, rfl⟩
        · simp only [if_neg hp] at h ⊢
          by_cases hq : ql > mid L R
          · simp only [if_pos hq] at h ⊢
            cases e : queryAux defaultPolicy fuel p.2.2 ql qr with
            | none => rw [e] at h; exact absurd h (by simp)
            | some res =>
              rw [e] at h
              simp only [Option.some.injEq, Prod.mk.injEq] at h
              obtain ⟨_, rfl⟩ := h
              exact ⟨_, _, w, rfl, rfl⟩
          · simp only [if_neg hq] at h ⊢
            cases e1 : queryAux defaultPolicy fuel p.2.1 ql (mid L R) with
            | none => rw [e1] at h; exact absurd h (by simp)
            | some res1 =>
              cases e2 : queryAux defaultPolicy fuel p.2.2 (mid L R + 1) qr with
              | none => rw [e1, e2] at h; exact absurd h (by simp)
              | some res2 =>
                rw [e1, e2] at h
                simp only [Option.some.injEq, Prod.mk.injEq] at h
                obtain ⟨_, rfl⟩ := h
                exact ⟨_, _, w, rfl, rfl⟩

theorem query_setVal (n : Node Int addTag) (w l r x : Int) (t2 : segmentTree Int addTag)
    (h : (⟨n.setVal w⟩ : segmentTree Int addTag).query defaultPolicy l r = .ok (x, t2)) :
    ∃ y t3 w1, (⟨n⟩ : segmentTree Int addTag).query defaultPolicy l r = .ok (y, t3) ∧
      t3.root.setVal w1 = t2.root := by
  unfold segmentTree.query at h ⊢
  by_cases h2 : l > r
  · simp only [if_pos h2] at h
    exact absurd h (by simp)
  · simp only [if_neg h2] at h ⊢
    cases n with
    | null => exact absurd h (by simp [Node.setVal])
    | node L R cl cr val tg =>
      simp only [Node.setVal] at h ⊢
      by_cases h3 : l < L ∨ r > R
      · simp only [if_pos h3] at h
        exact absurd h (by simp)
      · simp only [if_neg h3] at h ⊢
        cases e : queryAux defaultPolicy (fuelFor L R) (.node L R cl cr w tg) l r with
        | none => rw [e] at h; exact absurd h (by simp)
        | some res =>
          obtain ⟨x1, n1⟩ := res
          rw [e] at h
          simp only [Result.ok.injEq, Prod.mk.injEq] at h
          obtain ⟨_, rfl⟩ := h
          obtain ⟨y, n2, w1, e2, e3⟩ :=
            queryAux_setVal (fuelFor L R) (.node L R cl cr val tg) n1 w l r x1 e
          rw [e2]
          exact ⟨y, ⟨n2⟩, w1, rfl, e3⟩

theorem setVal_bounds (w : V) (n : Node V T) : (n.setVal w).bounds? = n.bounds? := by
  cases n <;> rfl

/-- Every state reachable with `clear` represents some array, up to the value stored in the
root. -/
theorem reachableC_rep {t : segmentTree Int addTag} (h : ReachableC defaultPolicy t) :
    ∃ a L R w, Rep a (t.root.setVal w) ∧ t.root.bounds? = some (L, R) := by
  induction h with
  | @init l r t0 h0 =>
    obtain ⟨hr, hb⟩ := construct_rep h0
    obtain ⟨w, e⟩ := setVal_self (0 : Int) t0.root
    exact ⟨_, _, _, w, by rw [e]; exact hr, hb⟩
  | @replace t t1 pos v _ e ih =>
    obtain ⟨a, L, R, w, hr, hb⟩ := ih
    obtain ⟨L1, R1, hb1, h1, h2⟩ := replace_ok_inv e
    rw [hb] at hb1
    simp only [Option.some.injEq, Prod.mk.injEq] at hb1
    obtain ⟨rfl, rfl⟩ := hb1
    obtain ⟨t2, e2, b2, r2⟩ := replace_rep (t := ⟨t.root.setVal w⟩) pos v hr
      (by rw [setVal_bounds]; exact hb) h1 h2
    rw [replace_setVal] at e2
    have e3 : t.replace defaultPolicy pos v = .ok t2 := e2
    rw [e] at e3
    simp only [Result.ok.injEq] at e3
    subst e3
    obtain ⟨w1, e4⟩ := setVal_self (0 : Int) t1.root
    exact ⟨_, _, _, w1, by rw [e4]; exact r2, b2⟩
  | @modify t t1 l r tag _ e ih =>
    obtain ⟨a, L, R, w, hr, hb⟩ := ih
    rcases modify_ok_inv e with ⟨_, rfl⟩ | ⟨L1, R1, hb1, h1, h2, h3⟩
    · exact ⟨a, L, R, w, hr, hb⟩
    · rw [hb] at hb1
      simp only [Option.some.injEq, Prod.mk.injEq] at hb1
      obtain ⟨rfl, rfl⟩ := hb1
      obtain ⟨t2, e2, b2, r2⟩ := modify_rep (t := ⟨t.root.setVal w⟩) l r tag hr
        (by rw [setVal_bounds]; exact hb) h1 h2 h3
      obtain ⟨t3, w1, e3, e4⟩ := modify_setVal t.root w l r tag t2 e2
      have e5 : t.modify defaultPolicy l r tag = .ok t3 := e3
      rw [e] at e5
      simp only [Result.ok.injEq] at e5
      subst e5
      refine ⟨_, L, R, w1, by rw [e4]; exact r2, ?_⟩
      rw [← setVal_bounds w1, e4]
      exact b2
  | @query t t1 l r v _ e ih =>
    obtain ⟨a, L, R, w, hr, hb⟩ := ih
    obtain ⟨L1, R1, hb1, h1, h2, h3⟩ := query_ok_inv e
    rw [hb] at hb1
    simp only [Option.some.injEq, Prod.mk.injEq] at hb1
    obtain ⟨rfl, rfl⟩ := hb1
    obtain ⟨t2, e2, b2, r2⟩ := query_rep (t := ⟨t.root.setVal w⟩) l r hr
      (by rw [setVal_bounds]; exact hb) h1 h2 h3
    obtain ⟨y, t3, w1, e3, e4⟩ := query_setVal t.root w l r _ t2 e2
    have e5 : t.query defaultPolicy l r = .ok (y, t3) := e3
    rw [e] at e5
    simp only [Result.ok.injEq, Prod.mk.injEq] at e5
    obtain ⟨_, rfl⟩ := e5
    refine ⟨a, L, R, w1, by rw [e4]; exact r2, ?_⟩
    rw [← setVal_bounds w1, e4]
    exact b2
  | @clear t t1 _ e ih =>
    obtain ⟨a, L, R, w, hr, hb⟩ := ih
    obtain ⟨root⟩ := t
    cases root with
    | null => simp [Node.bounds?] at hb
    | node L0 R0 l r val tag =>
      simp only [segmentTree.clear, Result.ok.injEq] at e
      subst e
      simp only [Node.bounds?, Option.some.injEq, Prod.mk.injEq] at hb
      obtain ⟨rfl, rfl⟩ := hb
      have hn : ∀ n : Node Int addTag, clearNode n = .null := fun n => by cases n <;> rfl
      refine ⟨fun _ => tag.sum, L0, R0, rangeSum (fun _ => tag.sum) L0 R0, ?_, rfl⟩
      simp only [hn, Node.setVal]
      exact ⟨hr.1, rfl, Or.inl ⟨rfl, rfl, fun _ _ _ _ => rfl⟩⟩

/-! ## Trees without pushdown: merge of the stored values -/

theorem foldFrom_congr (f : V → V → V) {a b : Int → V} (l : Int) (n : Nat)
    (h : ∀ i, l ≤ i → i ≤ l + n → a i = b i) : foldFrom f a l n = foldFrom f b l n := by
  induction n generalizing l with
  | zero => simp only [foldFrom]; exact h l (le_refl l) (by simp)
  | succ n ih =>
    rw [foldFrom, foldFrom, h l (le_refl l) (by push_cast; omega)]
    rw [ih (l + 1) (fun i h1 h2 => h i (by omega) (by push_cast; omega))]

theorem foldFrom_append (f : V → V → V) (hassoc : ∀ x y z, f (f x y) z = f x (f y z))
    (a : Int → V) (l : Int) (m n : Nat) :
    foldFrom f a l (m + n + 1) = f (foldFrom f a l m) (foldFrom f a (l + m + 1) n) := by
  induction m generalizing l with
  | zero => simp [foldFrom]
  | succ m ih =>
    have h : m + 1 + n + 1 = (m + n + 1) + 1 := by omega
    rw [h, foldFrom, ih (l + 1), foldFrom, hassoc]
    have h2 : l + 1 + (m : Int) + 1 = l + ((m + 1 : Nat) : Int) + 1 := by push_cast; ring
    rw [h2]

theorem foldFrom_const (f : V → V → V) (d : V) (hdd : f d d = d) (l : Int) (n : Nat) :
    foldFrom f (fun _ => d) l n = d := by
  induction n generalizing l with
  | zero => rfl
  | succ n ih => rw [foldFrom, ih, hdd]

theorem rangeFold_single (f : V → V → V) (a : Int → V) (l : Int) : rangeFold f a l l = a l := by
  simp [rangeFold, foldFrom]

theorem rangeFold_split (f : V → V → V) (hassoc : ∀ x y z, f (f x y) z = f x (f y z))
    (a : Int → V) {l m r : Int} (h1 : l ≤ m) (h2 : m < r) :
    rangeFold f a l r = f (rangeFold f a l m) (rangeFold f a (m + 1) r) := by
  unfold rangeFold
  have h : (r - l).toNat = (m - l).toNat + (r - (m + 1)).toNat + 1 := by omega
  rw [h, foldFrom_append f hassoc]
  have h3 : l + ((m - l).toNat : Int) + 1 = m + 1 := by omega
  rw [h3]

theorem rangeFold_congr (f : V → V → V) {a b : Int → V} {l r : Int} (hlr : l ≤ r)
    (h : ∀ i, l ≤ i → i ≤ r → a i = b i) : rangeFold f a l r = rangeFold f b l r := by
  unfold rangeFold
  exact foldFrom_congr f l _ (fun i h1 h2 => h i h1 (by omega))

theorem RepN_congr (P : Policy V T) {a b : Int → V} (n : Node V T) : ∀ (L R : Int),
    n.bounds? = some (L, R) → (∀ i, L ≤ i → i ≤ R → a i = b i) → RepN P a n → RepN P b n := by
  induction n with
  | null => intro L R _ _ h; exact h
  | node L0 R0 l r val tag ihl ihr =>
    intro L R hb hab h
    simp only [Node.bounds?, Option.some.injEq, Prod.mk.injEq] at hb
    obtain ⟨rfl, rfl⟩ := hb
    obtain ⟨hle, hval, hk⟩ := h
    refine ⟨hle, ?_, ?_⟩
    · rw [hval]; exact rangeFold_congr P.update hle hab
    · rcases hk with ⟨hl, hr, hc⟩ | ⟨hlt, hlb, hrb, hl, hr⟩
      · exact Or.inl ⟨hl, hr, fun h i h1 h2 => by rw [← hab i h1 h2]; exact hc h i h1 h2⟩
      · have hm := mid_bounds hlt
        refine Or.inr ⟨hlt, hlb, hrb, ?_, ?_⟩
        · exact ihl _ _ hlb (fun i h1 h2 => hab i h1 (by omega)) hl
        · exact ihr _ _ hrb (fun i h1 h2 => hab i (by omega) h2) hr

theorem RepN_val {P : Policy V T} {a : Int → V} {n : Node V T} {L R : Int}
    (h : RepN P a n) (hb : n.bounds? = some (L, R)) :
    n.val? = some (rangeFold P.update a L R) := by
  cases n with
  | null => exact absurd h (by simp [RepN])
  | node L0 R0 l r val tag =>
    simp only [Node.bounds?, Option.some.injEq, Prod.mk.injEq] at hb
    obtain ⟨rfl, rfl⟩ := hb
    simp only [Node.val?, h.2.1]

theorem RepN_fresh (P : Policy V T) (hdd : P.update P.dval P.dval = P.dval) {L R : Int}
    (h : L ≤ R) : RepN P (fun _ => P.dval) (.node L R .null .null P.dval P.dtag) := by
  refine ⟨h, ?_, Or.inl ⟨rfl, rfl, fun _ _ _ _ => rfl⟩⟩
  unfold rangeFold
  rw [foldFrom_const P.update P.dval hdd]

theorem descend_repN {P : Policy V T} (hP : P.pushdown = .noPushDown)
    (hdd : P.update P.dval P.dval = P.dval)
    {a : Int → V} {L R : Int} {l r : Node V T} {val : V} {tag : T}
    (h : RepN P a (.node L R l r val tag)) (hlt : L < R) :
    RepN P a (pushdownStep P tag (check P l L (mid L R)) (check P r (mid L R + 1) R)).2.1 ∧
    (pushdownStep P tag (check P l L (mid L R)) (check P r (mid L R + 1) R)).2.1.bounds?
      = some (L, mid L R) ∧
    RepN P a (pushdownStep P tag (check P l L (mid L R)) (check P r (mid L R + 1) R)).2.2 ∧
    (pushdownStep P tag (check P l L (mid L R)) (check P r (mid L R + 1) R)).2.2.bounds?
      = some (mid L R + 1, R) := by
  have hm := mid_bounds hlt
  obtain ⟨_, _, hk⟩ := h
  simp only [pushdownStep, hP]
  rcases hk with ⟨hl, hr, hc⟩ | ⟨_, hlb, hrb, hl, hr⟩
  · subst hl hr
    refine ⟨?_, rfl, ?_, rfl⟩
    · exact RepN_congr P _ _ _ rfl
        (fun i h1 h2 => by rw [hc hlt i h1 (by omega)]) (RepN_fresh P hdd hm.1)
    · exact RepN_congr P _ _ _ rfl
        (fun i h1 h2 => by rw [hc hlt i (by omega) h2]) (RepN_fresh P hdd (by omega))
  · cases l with
    | null => simp [Node.bounds?] at hlb
    | node _ _ _ _ _ _ =>
      cases r with
      | null => simp [Node.bounds?] at hrb
      | node _ _ _ _ _ _ => exact ⟨hl, hlb, hr, hrb⟩

theorem rebuild_repN {P : Policy V T}
    (hassoc : ∀ x y z, P.update (P.update x y) z = P.update x (P.update y z))
    {a : Int → V} {L R : Int} {l r : Node V T} (tag : T) (hlt : L < R)
    (hl : RepN P a l) (hlb : l.bounds? = some (L, mid L R))
    (hr : RepN P a r) (hrb : r.bounds? = some (mid L R + 1, R)) :
    ∃ n, rebuild P L R l r tag = some n ∧ n.bounds? = some (L, R) ∧ RepN P a n := by
  have hm := mid_bounds hlt
  refine ⟨.node L R l r (P.update (rangeFold P.update a L (mid L R))
    (rangeFold P.update a (mid L R + 1) R)) tag, ?_, rfl, ?_⟩
  · simp [rebuild, RepN_val hl hlb, RepN_val hr hrb]
  · exact ⟨by omega, (rangeFold_split P.update hassoc a hm.1 hm.2).symm,
      Or.inr ⟨hlt, hlb, hrb, hl, hr⟩⟩

theorem replaceAux_repN {P : Policy V T} (hP : P.pushdown = .noPushDown)
    (hassoc : ∀ x y z, P.update (P.update x y) z = P.update x (P.update y z))
    (hdd : P.update P.dval P.dval = P.dval) (fuel : Nat) :
    ∀ (n : Node V T) (a : Int → V) (L R pos : Int) (v : V),
    RepN P a n → n.bounds? = some (L, R) → L ≤ pos → pos ≤ R → (R - L).toNat < fuel →
    ∃ n1, replaceAux P fuel n pos v = some n1 ∧ n1.bounds? = some (L, R) ∧
      RepN P (setAt a pos v) n1 := by
  induction fuel with
  | zero => intro n a L R pos v _ _ _ _ hf; omega
  | succ fuel ih =>
    intro n a L R pos v hrep hb hl hr hf
    cases n with
    | null => exact absurd hrep (by simp [RepN])
    | node L0 R0 l r val tag =>
      simp only [Node.bounds?, Option.some.injEq, Prod.mk.injEq] at hb
      obtain ⟨rfl, rfl⟩ := hb
      by_cases hLR : L0 = R0
      · subst hLR
        have hpos : pos = L0 := by omega
        subst hpos
        refine ⟨.node pos pos l r v tag, by simp [replaceAux], rfl, ?_⟩
        obtain ⟨_, _, hk⟩ := hrep
        refine ⟨le_refl _, ?_, ?_⟩
        · rw [rangeFold_single]; simp [setAt]
        · rcases hk with ⟨h1, h2, _⟩ | ⟨hlt, _⟩
          · exact Or.inl ⟨h1, h2, fun h => absurd h (lt_irrefl _)⟩
          · exact absurd hlt (lt_irrefl _)
      · have hlt : L0 < R0 := lt_of_le_of_ne (by omega) hLR
        obtain ⟨hl1, hlb, hr1, hrb⟩ := descend_repN hP hdd hrep hlt
        have hm := mid_bounds hlt
        simp only [replaceAux, if_neg hLR]
        generalize pushdownStep P tag (check P l L0 (mid L0 R0))
          (check P r (mid L0 R0 + 1) R0) = p at hl1 hlb hr1 hrb ⊢
        by_cases hp : pos ≤ mid L0 R0
        · simp only [if_pos hp]
          obtain ⟨l3, e3, b3, r3⟩ := ih p.2.1 a L0 (mid L0 R0) pos v hl1 hlb hl hp (by omega)
          rw [e3]
          exact rebuild_repN hassoc p.1 hlt r3 b3
            (RepN_congr P _ _ _ hrb
              (fun i h1 _ => by simp only [setAt]; rw [if_neg (by omega)]) hr1) hrb
        · simp only [if_neg hp]
          obtain ⟨r3, e3, b3, rr3⟩ :=
            ih p.2.2 a (mid L0 R0 + 1) R0 pos v hr1 hrb (by omega) hr (by omega)
          rw [e3]
          exact rebuild_repN hassoc p.1 hlt
            (RepN_congr P _ _ _ hlb
              (fun i _ h2 => by simp only [setAt]; rw [if_neg (by omega)]) hl1) hlb rr3 b3

theorem queryAux_repN {P : Policy V T} (hP : P.pushdown = .noPushDown)
    (hassoc : ∀ x y z, P.update (P.update x y) z = P.update x (P.update y z))
    (hdd : P.update P.dval P.dval = P.dval) (fuel : Nat) :
    ∀ (n : Node V T) (a : Int → V) (L R ql qr : Int),
    RepN P a n → n.bounds? = some (L, R) → L ≤ ql → ql ≤ qr → qr ≤ R → (R - L).toNat < fuel →
    ∃ n1, queryAux P fuel n ql qr = some (rangeFold P.update a ql qr, n1) ∧
      n1.bounds? = some (L, R) ∧ RepN P a n1 := by
  induction fuel with
  | zero => intro n a L R ql qr _ _ _ _ _ hf; omega
  | succ fuel ih =>
    intro n a L R ql qr hrep hb hl hlr hr hf
    cases n with
    | null => exact absurd hrep (by simp [RepN])
    | node L0 R0 l r val tag =>
      simp only [Node.bounds?, Option.some.injEq, Prod.mk.injEq] at hb
      obtain ⟨rfl, rfl⟩ := hb
      by_cases hex : L0 = ql ∧ R0 = qr
      · obtain ⟨rfl, rfl⟩ := hex
        refine ⟨.node L0 R0 l r val tag, ?_, rfl, hrep⟩
        simp only [queryAux, true_and, if_true, hrep.2.1]
      · have hlt : L0 < R0 := by
          rcases not_and_or.mp hex with h | h <;> omega
        obtain ⟨hl1, hlb, hr1, hrb⟩ := descend_repN hP hdd hrep hlt
        have hm := mid_bounds hlt
        have hval := hrep.2.1
        simp only [queryAux, if_neg hex]
        generalize pushdownStep P tag (check P l L0 (mid L0 R0))
          (check P r (mid L0 R0 + 1) R0) = p at hl1 hlb hr1 hrb ⊢
        have fin : ∀ l3 r3 : Node V T, RepN P a l3 → l3.bounds? = some (L0, mid L0 R0) →
            RepN P a r3 → r3.bounds? = some (mid L0 R0 + 1, R0) →
            RepN P a (.node L0 R0 l3 r3 val p.1) :=
          fun l3 r3 k1 k2 k3 k4 => ⟨by omega, hval, Or.inr ⟨hlt, k2, k4, k1, k3⟩⟩
        by_cases hp : qr ≤ mid L0 R0
        · simp only [if_pos hp]
          obtain ⟨l3, e3, b3, r3⟩ :=
            ih p.2.1 a L0 (mid L0 R0) ql qr hl1 hlb hl hlr hp (by omega)
          rw [e3]
          exact ⟨.node L0 R0 l3 p.2.2 val p.1, rfl, rfl, fin _ _ r3 b3 hr1 hrb⟩
        · simp only [if_neg hp]
          by_cases hq : ql > mid L0 R0
          · simp only [if_pos hq]
            obtain ⟨r3, e3, b3, rr3⟩ :=
              ih p.2.2 a (mid L0 R0 + 1) R0 ql qr hr1 hrb (by omega) hlr hr (by omega)
            rw [e3]
            exact ⟨.node L0 R0 p.2.1 r3 val p.1, rfl, rfl, fin _ _ hl1 hlb rr3 b3⟩
          · simp only [if_neg hq]
            obtain ⟨l3, e3, b3, ll3⟩ :=
              ih p.2.1 a L0 (mid L0 R0) ql (mid L0 R0) hl1 hlb hl (by omega) (le_refl _)
                (by omega)
            obtain ⟨r3, e4, b4, rr3⟩ :=
              ih p.2.2 a (mid L0 R0 + 1) R0 (mid L0 R0 + 1) qr hr1 hrb (le_refl _) (by omega)
                hr (by omega)
            rw [e3, e4]
            refine ⟨.node L0 R0 l3 r3 val p.1, ?_, rfl, fin _ _ ll3 b3 rr3 b4⟩
            rw [rangeFold_split P.update hassoc a (show ql ≤ mid L0 R0 by omega)
              (show mid L0 R0 < qr by omega)]

theorem construct_repN (P : Policy V T) (hdd : P.update P.dval P.dval = P.dval) {L R : Int}
    {t : segmentTree V T} (h : construct P L R = .ok t) :
    RepN P (fun _ => P.dval) t.root ∧ t.root.bounds? = some (L, R) := by
  unfold construct at h
  split at h
  · exact absurd h (by simp)
  · simp only [Result.ok.injEq] at h
    subst h
    exact ⟨RepN_fresh P hdd (by omega), rfl⟩

theorem replace_repN {P : Policy V T} (hP : P.pushdown = .noPushDown)
    (hassoc : ∀ x y z, P.update (P.update x y) z = P.update x (P.update y z))
    (hdd : P.update P.dval P.dval = P.dval)
    {a : Int → V} {t : segmentTree V T} {L R : Int} (pos : Int) (v : V)
    (h : RepN P a t.root) (hb : t.root.bounds? = some (L, R)) (h1 : L ≤ pos) (h2 : pos ≤ R) :
    ∃ t1, t.replace P pos v = .ok t1 ∧ t1.root.bounds? = some (L, R) ∧
      RepN P (setAt a pos v) t1.root := by
  obtain ⟨root⟩ := t
  cases root with
  | null => exact absurd h (by simp [RepN])
  | node L0 R0 l r val tag =>
    simp only [Node.bounds?, Option.some.injEq, Prod.mk.injEq] at hb
    obtain ⟨rfl, rfl⟩ := hb
    obtain ⟨n, e, b, hr⟩ := replaceAux_repN hP hassoc hdd (fuelFor L0 R0) _ a L0 R0 pos v h rfl
      h1 h2 (by simp [fuelFor])
    refine ⟨⟨n⟩, ?_, b, hr⟩
    simp only [segmentTree.replace, e]
    rw [if_neg (by omega)]

theorem query_repN {P : Policy V T} (hP : P.pushdown = .noPushDown)
    (hassoc : ∀ x y z, P.update (P.update x y) z = P.update x (P.update y z))
    (hdd : P.update P.dval P.dval = P.dval)
    {a : Int → V} {t : segmentTree V T} {L R : Int} (l r : Int)
    (h : RepN P a t.root) (hb : t.root.bounds? = some (L, R)) (h1 : L ≤ l) (h2 : l ≤ r)
    (h3 : r ≤ R) :
    ∃ t1, t.query P l r = .ok (rangeFold P.update a l r, t1) ∧
      t1.root.bounds? = some (L, R) ∧ RepN P a t1.root := by
  obtain ⟨root⟩ := t
  cases root with
  | null => exact absurd h (by simp [RepN])
  | node L0 R0 cl cr val tg =>
    simp only [Node.bounds?, Option.some.injEq, Prod.mk.injEq] at hb
    obtain ⟨rfl, rfl⟩ := hb
    obtain ⟨n, e, b, hr⟩ := queryAux_repN hP hassoc hdd (fuelFor L0 R0) _ a L0 R0 l r h rfl
      h1 h2 h3 (by simp [fuelFor])
    refine ⟨⟨n⟩, ?_, b, hr⟩
    simp only [segmentTree.query, e]
    rw [if_neg (by omega), if_neg (by omega)]

theorem runROps_repN {P : Policy V T} (hP : P.pushdown = .noPushDown)
    (hassoc : ∀ x y z, P.update (P.update x y) z = P.update x (P.update y z))
    (hdd : P.update P.dval P.dval = P.dval) (ops : List (ROp V)) :
    ∀ (t : segmentTree V T) (a : Int → V) (L R : Int),
    RepN P a t.root → t.root.bounds? = some (L, R) → (∀ op ∈ ops, op.inRange L R) →
    ∃ t1, runROps P t ops = .ok t1 ∧ t1.root.bounds? = some (L, R) ∧
      RepN P (arrayAfter a ops) t1.root := by
  induction ops with
  | nil => intro t a L R h hb _; exact ⟨t, rfl, hb, h⟩
  | cons op ops ih =>
    intro t a L R h hb hin
    have hop := hin op (List.mem_cons_self _ _)
    have hrest : ∀ o ∈ ops, o.inRange L R := fun o ho => hin o (List.mem_cons_of_mem _ ho)
    cases op with
    | replace pos v =>
      obtain ⟨t1, e1, b1, r1⟩ := replace_repN hP hassoc hdd pos v h hb hop.1 hop.2
      obtain ⟨t2, e2, b2, r2⟩ := ih t1 _ L R r1 b1 hrest
      exact ⟨t2, by simp only [runROps, e1, Result.bind, e2], b2, r2⟩
    | query l r =>
      obtain ⟨t1, e1, b1, r1⟩ := query_repN hP hassoc hdd l r h hb hop.1 hop.2.1 hop.2.2
      obtain ⟨t2, e2, b2, r2⟩ := ih t1 _ L R r1 b1 hrest
      exact ⟨t2, by simp only [runROps, e1, Result.bind, e2], b2, r2⟩

/-! ## The maximum-subarray aggregate -/

theorem myUpdate_assoc (x y z : myData2) :
    myUpdate (myUpdate x y) z = myUpdate x (myUpdate y z) := by
  obtain ⟨a1, a2, a3, a4⟩ := x
  obtain ⟨b1, b2, b3, b4⟩ := y
  obtain ⟨c1, c2, c3, c4⟩ := z
  simp only [myUpdate, myData2.mk.injEq]
  refine ⟨by omega, by omega, by omega, by omega⟩

theorem myUpdate_dval : myPolicy.update myPolicy.dval myPolicy.dval = myPolicy.dval := by
  decide

/-- The merge of single elements: `sum` is the total, `maxl` the best prefix sum and `maxval`
the best sum of a non-empty contiguous block. -/
theorem foldFrom_myUpdate (a : Int → Int) (n : Nat) : ∀ l : Int,
    (foldFrom myUpdate (fun i => myData2.ofInt (a i)) l n).sum = sumFrom a l (n + 1) ∧
    ((∃ k, k ≤ n ∧
        sumFrom a l (k + 1) = (foldFrom myUpdate (fun i => myData2.ofInt (a i)) l n).maxl) ∧
      ∀ k, k ≤ n →
        sumFrom a l (k + 1) ≤ (foldFrom myUpdate (fun i => myData2.ofInt (a i)) l n).maxl) ∧
    ((∃ i k : Nat, i + k ≤ n ∧ sumFrom a (l + i) (k + 1) =
        (foldFrom myUpdate (fun i => myData2.ofInt (a i)) l n).maxval) ∧
      ∀ i k : Nat, i + k ≤ n → sumFrom a (l + i) (k + 1) ≤
        (foldFrom myUpdate (fun i => myData2.ofInt (a i)) l n).maxval) := by
  induction n with
  | zero =>
    intro l
    have h1 : sumFrom a l 1 = a l := by simp [sumFrom]
    refine ⟨by simp [foldFrom, myData2.ofInt, h1],
      ⟨⟨0, le_refl _, by simp [foldFrom, myData2.ofInt, h1]⟩, ?_⟩,
      ⟨⟨0, 0, le_refl _, by simp [foldFrom, myData2.ofInt, h1]⟩, ?_⟩⟩
    · intro k hk
      have : k = 0 := by omega
      subst this
      simp [foldFrom, myData2.ofInt, h1]
    · intro i k hik
      have hi : i = 0 := by omega
      have hk : k = 0 := by omega
      subst hi hk
      simp [foldFrom, myData2.ofInt, h1]
  | succ n ih =>
    intro l
    obtain ⟨hs, ⟨⟨k0, hk0, ek0⟩, hpre⟩, ⟨⟨i1, k1, hik1, e1⟩, hsub⟩⟩ := ih (l + 1)
    have hstep : ∀ m : Nat, sumFrom a l (m + 1) = a l + sumFrom a (l + 1) m := fun m => rfl
    have h1 : sumFrom a l 1 = a l := by simp [sumFrom]
    have hz : l + ((0 : Nat) : Int) = l := by simp
    have hsucc : ∀ i : Nat, l + ((i + 1 : Nat) : Int) = l + 1 + (i : Int) := fun i => by
      push_cast; ring
    simp only [foldFrom]
    generalize foldFrom myUpdate (fun i => myData2.ofInt (a i)) (l + 1) n = d
      at hs ek0 hpre e1 hsub ⊢
    simp only [myUpdate, myData2.ofInt]
    refine ⟨?_, ⟨?_, ?_⟩, ⟨?_, ?_⟩⟩
    · rw [hstep (n + 1), ← hs]
    · by_cases h : a l + d.maxl ≤ a l
      · exact ⟨0, by omega, by rw [h1]; omega⟩
      · exact ⟨k0 + 1, by omega, by rw [hstep (k0 + 1), ek0]; omega⟩
    · intro k hk
      cases k with
      | zero => rw [h1]; omega
      | succ k =>
        rw [hstep (k + 1)]
        have := hpre k (by omega)
        omega
    · have hcase : max (max (a l) d.maxval) (a l + d.maxl) = a l ∨
          max (max (a l) d.maxval) (a l + d.maxl) = d.maxval ∨
          max (max (a l) d.maxval) (a l + d.maxl) = a l + d.maxl := by omega
      rcases hcase with h | h | h
      · exact ⟨0, 0, by omega, by rw [hz, h1, h]⟩
      · exact ⟨i1 + 1, k1, by omega, by rw [hsucc, e1, h]⟩
      · exact ⟨0, k0 + 1, by omega, by rw [hz, hstep (k0 + 1), ek0, h]⟩
    · intro i k hik
      cases i with
      | zero =>
        rw [hz]
        cases k with
        | zero => rw [h1]; omega
        | succ k =>
          rw [hstep (k + 1)]
          have := hpre k (by omega)
          omega
      | succ i =>
        rw [hsucc]
        have := hsub i k (by omega)
        omega

/-- The `maxval` field of the merge of `a[l..r]` is the maximum subarray sum of `a[l..r]`. -/
theorem rangeFold_maxval (a : Int → Int) {l r : Int} (hlr : l ≤ r) :
    IsMaxSubarraySum a l r (rangeFold myUpdate (fun i => myData2.ofInt (a i)) l r).maxval := by
  obtain ⟨_, _, ⟨⟨i, k, hik, e⟩, hsub⟩⟩ := foldFrom_myUpdate a (r - l).toNat l
  unfold rangeFold
  constructor
  · refine ⟨l + i, l + i + k, by omega, by omega, by omega, ?_⟩
    rw [← e]
    unfold rangeSum
    have : (l + i + k + 1 - (l + i)).toNat = k + 1 := by omega
    rw [this]
  · intro i j h1 h2 h3
    have := hsub (i - l).toNat (j - i).toNat (by omega)
    have e1 : l + ((i - l).toNat : Int) = i := by omega
    have e2 : (j + 1 - i).toNat = (j - i).toNat + 1 := by omega
    rw [e1] at this
    unfold rangeSum
    rw [e2]
    exact this

theorem modifyAux_point (fuel : Nat) : ∀ (n : Node myData2 myTag) (a : Int → myData2)
    (L R pos : Int) (t : myTag),
    RepN myPolicy a n → n.bounds? = some (L, R) → L ≤ pos → pos ≤ R → (R - L).toNat < fuel →
    ∃ n1, modifyAux myPolicy fuel n pos pos t = some n1 ∧ n1.bounds? = some (L, R) ∧
      RepN myPolicy (setAt a pos ((a pos).addAll t.val)) n1 := by
  induction fuel with
  | zero => intro n a L R pos t _ _ _ _ hf; omega
  | succ fuel ih =>
    intro n a L R pos t hrep hb hl hr hf
    cases n with
    | null => exact absurd hrep (by simp [RepN])
    | node L0 R0 l r val tag =>
      simp only [Node.bounds?, Option.some.injEq, Prod.mk.injEq] at hb
      obtain ⟨rfl, rfl⟩ := hb
      by_cases hex : L0 = pos ∧ R0 = pos
      · obtain ⟨rfl, rfl⟩ := hex
        refine ⟨applyTag myPolicy t (.node R0 R0 l r val tag),
          by simp only [modifyAux, true_and, if_true], rfl, ?_⟩
        obtain ⟨_, hval, hk⟩ := hrep
        rw [rangeFold_single] at hval
        refine ⟨le_refl _, ?_, ?_⟩
        · rw [rangeFold_single, hval]
          simp [setAt, myPolicy, myTag.apply, myData2.addAll]
        · rcases hk with ⟨h1, h2, _⟩ | ⟨hlt, _⟩
          · exact Or.inl ⟨h1, h2, fun h => absurd h (lt_irrefl _)⟩
          · exact absurd hlt (lt_irrefl _)
      · have hlt : L0 < R0 := by
          rcases not_and_or.mp hex with h | h <;> omega
        obtain ⟨hl1, hlb, hr1, hrb⟩ := descend_repN rfl myUpdate_dval hrep hlt
        have hm := mid_bounds hlt
        simp only [modifyAux, if_neg hex]
        generalize pushdownStep myPolicy tag (check myPolicy l L0 (mid L0 R0))
          (check myPolicy r (mid L0 R0 + 1) R0) = p at hl1 hlb hr1 hrb ⊢
        by_cases hp : pos ≤ mid L0 R0
        · simp only [if_pos hp]
          obtain ⟨l3, e3, b3, r3⟩ := ih p.2.1 a L0 (mid L0 R0) pos t hl1 hlb hl hp (by omega)
          rw [e3]
          exact rebuild_repN myUpdate_assoc p.1 hlt r3 b3
            (RepN_congr myPolicy _ _ _ hrb
              (fun i h1 _ => by simp only [setAt]; rw [if_neg (by omega)]) hr1) hrb
        · have hq : pos > mid L0 R0 := by omega
          simp only [if_neg hp, if_pos hq]
          obtain ⟨r3, e3, b3, rr3⟩ :=
            ih p.2.2 a (mid L0 R0 + 1) R0 pos t hr1 hrb (by omega) hr (by omega)
          rw [e3]
          exact rebuild_repN myUpdate_assoc p.1 hlt
            (RepN_congr myPolicy _ _ _ hlb
              (fun i _ h2 => by simp only [setAt]; rw [if_neg (by omega)]) hl1) hlb rr3 b3

theorem modifyAt_point {a : Int → myData2} {t : segmentTree myData2 myTag} {L R : Int}
    (pos : Int) (tag : myTag)
    (h : RepN myPolicy a t.root) (hb : t.root.bounds? = some (L, R))
    (h1 : L ≤ pos) (h2 : pos ≤ R) :
    ∃ t1, t.modifyAt myPolicy pos tag = .ok t1 ∧ t1.root.bounds? = some (L, R) ∧
      RepN myPolicy (setAt a pos ((a pos).addAll tag.val)) t1.root := by
  obtain ⟨root⟩ := t
  cases root with
  | null => exact absurd h (by simp [RepN])
  | node L0 R0 cl cr val tg =>
    simp only [Node.bounds?, Option.some.injEq, Prod.mk.injEq] at hb
    obtain ⟨rfl, rfl⟩ := hb
    obtain ⟨n, e, b, hr⟩ := modifyAux_point (fuelFor L0 R0) _ a L0 R0 pos tag h rfl h1 h2
      (by simp [fuelFor])
    refine ⟨⟨n⟩, ?_, b, hr⟩
    simp only [segmentTree.modifyAt, segmentTree.modify, e]
    rw [if_neg (by omega), if_neg (by omega), if_neg (by omega)]

theorem runDP_answers (ops : List DPOp) : ∀ (t : segmentTree myData2 myTag) (a : Int → Int)
    (L R : Int), RepN myPolicy (fun i => myData2.ofInt (a i)) t.root →
    t.root.bounds? = some (L, R) → (∀ op ∈ ops, op.inRange L R) →
    ∃ xs, runDP t ops = some xs ∧ AnswersDP a ops xs := by
  induction ops with
  | nil => intro t a L R _ _ _; exact ⟨[], rfl, rfl⟩
  | cons op ops ih =>
    intro t a L R hr hb hin
    have hop := hin op (List.mem_cons_self _ _)
    have hrest : ∀ o ∈ ops, o.inRange L R := fun o ho => hin o (List.mem_cons_of_mem _ ho)
    cases op with
    | replace pos v =>
      obtain ⟨t1, e, b1, r1⟩ := replace_repN (P := myPolicy) rfl myUpdate_assoc myUpdate_dval
        pos (myData2.ofInt v) hr hb hop.1 hop.2
      have r2 : RepN myPolicy (fun i => myData2.ofInt (setAt a pos v i)) t1.root :=
        RepN_congr myPolicy _ _ _ b1 (fun i _ _ => by
          simp only [setAt]; split <;> rfl) r1
      obtain ⟨xs, e2, h2⟩ := ih t1 _ L R r2 b1 hrest
      exact ⟨xs, by simp only [runDP, e, e2], h2⟩
    | modifyAt pos x =>
      obtain ⟨t1, e, b1, r1⟩ := modifyAt_point pos ⟨x⟩ hr hb hop.1 hop.2
      have r2 : RepN myPolicy (fun i => myData2.ofInt (setAt a pos (a pos + x) i)) t1.root :=
        RepN_congr myPolicy _ _ _ b1 (fun i _ _ => by
          simp only [setAt]; split <;> rfl) r1
      obtain ⟨xs, e2, h2⟩ := ih t1 _ L R r2 b1 hrest
      exact ⟨xs, by simp only [runDP, e, e2], h2⟩
    | query l r =>
      obtain ⟨t1, e, b1, r1⟩ := query_repN (P := myPolicy) rfl myUpdate_assoc myUpdate_dval
        l r hr hb hop.1 hop.2.1 hop.2.2
      obtain ⟨xs, e2, h2⟩ := ih t1 a L R r1 b1 hrest
      refine ⟨_ :: xs, by simp only [runDP, e, e2, Option.map_some']; rfl, ?_⟩
      exact ⟨_, xs, rfl, rangeFold_maxval a hop.2.1, h2⟩

/-! ## The state-passing operations agree with the result-only ones -/

theorem replaceE_toStateResult (P : Policy V T) (t : segmentTree V T) (pos : Int) (v : V) :
    (t.replaceE P pos v).toStateResult = t.replace P pos v := by
  unfold segmentTree.replaceE segmentTree.replace
  cases t.root with
  | null => rfl
  | node L R cl cr val tg =>
    simp only
    split
    · rfl
    · split <;> rfl

theorem modifyE_toStateResult (P : Policy V T) (t : segmentTree V T) (l r : Int) (tag : T) :
    (t.modifyE P l r tag).toStateResult = t.modify P l r tag := by
  unfold segmentTree.modifyE segmentTree.modify
  split
  · rfl
  · split
    · rfl
    · cases t.root with
      | null => rfl
      | node L R cl cr val tg =>
        simp only
        split
        · rfl
        · split <;> rfl

theorem queryE_toResult (P : Policy V T) (t : segmentTree V T) (l r : Int) :
    (t.queryE P l r).toResult = t.query P l r := by
  unfold segmentTree.queryE segmentTree.query
  split
  · rfl
  · cases t.root with
    | null => rfl
    | node L R cl cr val tg =>
      simp only
      split
      · rfl
      · split <;> rfl

/-! ## Queries on a tree whose root value may be stale -/

theorem queryAux_setVal_value (fuel : Nat) (L R : Int) (l r : Node Int addTag) (tag : addTag)
    (w val ql qr x : Int) (n1 : Node Int addTag)
    (h : queryAux defaultPolicy fuel (.node L R l r w tag) ql qr = some (x, n1)) :
    queryAux defaultPolicy fuel (.node L R l r val tag) ql qr
        = some (if L = ql ∧ R = qr then val else x, n1.setVal val) ∧
      n1.setVal w = n1 := by
  cases fuel with
  | zero => exact absurd h (by simp [queryAux])
  | succ fuel =>
    simp only [queryAux] at h ⊢
    by_cases hex : L = ql ∧ R = qr
    · simp only [if_pos hex] at h ⊢
      simp only [Option.some.injEq, Prod.mk.injEq] at h
      obtain ⟨_, rfl⟩ := h
      exact ⟨rfl, rfl⟩
    · simp only [if_neg hex] at h ⊢
      generalize pushdownStep defaultPolicy tag (check defaultPolicy l L (mid L R))
        (check defaultPolicy r (mid L R + 1) R) = p at h ⊢
      by_cases hp : qr ≤ mid L R
      · simp only [if_pos hp] at h ⊢
        cases e : queryAux defaultPolicy fuel p.2.1 ql qr with
        | none => rw [e] at h; exact absurd h (by simp)
        | some res =>
          rw [e] at h
          simp only [Option.some.injEq, Prod.mk.injEq] at h
          obtain ⟨rfl, rfl⟩ := h
          exact ⟨rfl, rfl⟩
      · simp only [if_neg hp] at h ⊢
        by_cases hq : ql > mid L R
        · simp only [if_pos hq] at h ⊢
          cases e : queryAux defaultPolicy fuel p.2.2 ql qr with
          | none => rw [e] at h; exact absurd h (by simp)
          | some res =>
            rw [e] at h
            simp only [Option.some.injEq, Prod.mk.injEq] at h
            obtain ⟨rfl, rfl⟩ := h
            exact ⟨rfl, rfl⟩
        · simp only [if_neg hq] at h ⊢
          cases e1 : queryAux defaultPolicy fuel p.2.1 ql (mid L R) with
          | none => rw [e1] at h; exact absurd h (by simp)
          | some res1 =>
            cases e2 : queryAux defaultPolicy fuel p.2.2 (mid L R + 1) qr with
            | none => rw [e1, e2] at h; exact absurd h (by simp)
            | some res2 =>
              rw [e1, e2] at h
              simp only [Option.some.injEq, Prod.mk.injEq] at h
              obtain ⟨rfl, rfl⟩ := h
              exact ⟨rfl, rfl⟩

/-- A query on a tree that represents `a` up to its root value: an exact match on the root
returns the stored root value, every other query returns the sum over `a`; the root value and
the represented array are unchanged. -/
theorem query_stale {a : Int → Int} {L R : Int} {cl cr : Node Int addTag} {tg : addTag}
    (w val l r : Int) (h : Rep a (.node L R cl cr w tg))
    (h1 : L ≤ l) (h2 : l ≤ r) (h3 : r ≤ R) :
    ∃ cl1 cr1 tg1, (⟨.node L R cl cr val tg⟩ : segmentTree Int addTag).query defaultPolicy l r
        = .ok (if L = l ∧ R = r then val else rangeSum a l r, ⟨.node L R cl1 cr1 val tg1⟩) ∧
      Rep a (.node L R cl1 cr1 w tg1) := by
  obtain ⟨n1, e, b, hr⟩ := queryAux_rep (fuelFor L R) _ a L R l r h rfl h1 h2 h3
    (by simp [fuelFor])
  obtain ⟨e2, e3⟩ := queryAux_setVal_value (fuelFor L R) L R cl cr tg w val l r _ n1 e
  cases n1 with
  | null => exact absurd hr (by simp [Rep])
  | node L1 R1 cl1 cr1 w1 tg1 =>
    simp only [Node.bounds?, Option.some.injEq, Prod.mk.injEq] at b
    obtain ⟨rfl, rfl⟩ := b
    simp only [Node.setVal, Node.node.injEq, true_and, and_true] at e3
    subst e3
    refine ⟨cl1, cr1, tg1, ?_, hr⟩
    simp only [segmentTree.query, e2, Node.setVal]
    rw [if_neg (by omega), if_neg (by omega)]

/-! ## Logarithmic fuel -/

theorem clog_left {L R : Int} (h : L < R) :
    Nat.clog 2 (mid L R - L + 1).toNat + 1 ≤ Nat.clog 2 (R - L + 1).toNat := by
  have hm := mid_bounds h
  have e := mid_eq L R
  rw [Nat.clog_of_two_le (by decide) (show 2 ≤ (R - L + 1).toNat by omega)]
  exact Nat.succ_le_succ (Nat.clog_mono_right 2 (by omega))

theorem clog_right {L R : Int} (h : L < R) :
    Nat.clog 2 (R - (mid L R + 1) + 1).toNat + 1 ≤ Nat.clog 2 (R - L + 1).toNat := by
  have hm := mid_bounds h
  have e := mid_eq L R
  rw [Nat.clog_of_two_le (by decide) (show 2 ≤ (R - L + 1).toNat by omega)]
  exact Nat.succ_le_succ (Nat.clog_mono_right 2 (by omega))

theorem clog_le_width (L R : Int) : Nat.clog 2 (R - L + 1).toNat + 1 ≤ fuelFor L R := by
  unfold fuelFor
  by_cases h : L ≤ R
  · have h1 : (R - L + 1).toNat = (R - L).toNat + 1 := by omega
    rw [h1]
    exact Nat.succ_le_succ ((Nat.le_pow_iff_clog_le (by decide)).mp (Nat.lt_two_pow _))
  · have h1 : (R - L + 1).toNat ≤ 1 := by omega
    rw [Nat.clog_of_right_le_one h1]
    omega
/-- With fuel above `ceil(log2(R - L + 1))` the helper `replace` returns on a well-shaped
node: its recursion depth is at most `ceil(log2(R - L + 1)) + 1`. -/
theorem replaceAux_log (P : Policy V T) (fuel : Nat) : ∀ (n : Node V T) (L R pos : Int)
    (v : V), Shaped n → n.bounds? = some (L, R) → L ≤ pos → pos ≤ R → Nat.clog 2 (R - L + 1).toNat < fuel →
    ∃ n1, replaceAux P fuel n pos v = some n1 ∧ n1.bounds? = some (L, R) ∧ Shaped n1 := by
  induction fuel with
  | zero => intro n L R pos v _ _ _ _ hf; omega
  | succ fuel ih =>
    intro n L R pos v hs hb hl hr hf
    cases n with
    | null => exact absurd hs (by simp [Shaped])
    | node L0 R0 l r val tag =>
      simp only [Node.bounds?, Option.some.injEq, Prod.mk.injEq] at hb
      obtain ⟨rfl, rfl⟩ := hb
      by_cases hLR : L0 = R0
      · exact ⟨.node L0 R0 l r v tag, by simp [replaceAux, hLR], rfl, hs⟩
      · have hlt : L0 < R0 := lt_of_le_of_ne (by omega) hLR
        obtain ⟨hl1, hlb, hr1, hrb⟩ := descend_shaped P hs hlt
        have hm := mid_bounds hlt
        have hcl := clog_left hlt
        have hcr := clog_right hlt
        simp only [replaceAux, if_neg hLR]
        generalize pushdownStep P tag (check P l L0 (mid L0 R0))
          (check P r (mid L0 R0 + 1) R0) = p at hl1 hlb hr1 hrb ⊢
        by_cases hp : pos ≤ mid L0 R0
        · simp only [if_pos hp]
          obtain ⟨l3, e3, b3, s3⟩ := ih p.2.1 L0 (mid L0 R0) pos v hl1 hlb hl hp (by omega)
          rw [e3]
          exact rebuild_shaped P p.1 hlt s3 b3 hr1 hrb
        · simp only [if_neg hp]
          obtain ⟨r3, e3, b3, s3⟩ :=
            ih p.2.2 (mid L0 R0 + 1) R0 pos v hr1 hrb (by omega) hr (by omega)
          rw [e3]
          exact rebuild_shaped P p.1 hlt hl1 hlb s3 b3

theorem modifyAux_log (P : Policy V T) (fuel : Nat) : ∀ (n : Node V T) (L R ml mr : Int)
    (t : T), Shaped n → n.bounds? = some (L, R) → L ≤ ml → ml ≤ mr → mr ≤ R →
    Nat.clog 2 (R - L + 1).toNat < fuel →
    ∃ n1, modifyAux P fuel n ml mr t = some n1 ∧ n1.bounds? = some (L, R) ∧ Shaped n1 := by
  induction fuel with
  | zero => intro n L R ml mr t _ _ _ _ _ hf; omega
  | succ fuel ih =>
    intro n L R ml mr t hs hb hl hlr hr hf
    cases n with
    | null => exact absurd hs (by simp [Shaped])
    | node L0 R0 l r val tag =>
      simp only [Node.bounds?, Option.some.injEq, Prod.mk.injEq] at hb
      obtain ⟨rfl, rfl⟩ := hb
      by_cases hex : L0 = ml ∧ R0 = mr
      · exact ⟨_, by simp only [modifyAux, if_pos hex], (applyTag_shaped P t hs rfl).2,
          (applyTag_shaped P t hs rfl).1⟩
      · have hlt : L0 < R0 := by
          rcases not_and_or.mp hex with h | h <;> omega
        obtain ⟨hl1, hlb, hr1, hrb⟩ := descend_shaped P hs hlt
        have hm := mid_bounds hlt
        have hcl := clog_left hlt
        have hcr := clog_right hlt
        simp only [modifyAux, if_neg hex]
        generalize pushdownStep P tag (check P l L0 (mid L0 R0))
          (check P r (mid L0 R0 + 1) R0) = p at hl1 hlb hr1 hrb ⊢
        by_cases hp : mr ≤ mid L0 R0
        · simp only [if_pos hp]
          obtain ⟨l3, e3, b3, s3⟩ :=
            ih p.2.1 L0 (mid L0 R0) ml mr t hl1 hlb hl hlr hp (by omega)
          rw [e3]
          exact rebuild_shaped P p.1 hlt s3 b3 hr1 hrb
        · simp only [if_neg hp]
          by_cases hq : ml > mid L0 R0
          · simp only [if_pos hq]
            obtain ⟨r3, e3, b3, s3⟩ :=
              ih p.2.2 (mid L0 R0 + 1) R0 ml mr t hr1 hrb (by omega) hlr hr (by omega)
            rw [e3]
            exact rebuild_shaped P p.1 hlt hl1 hlb s3 b3
          · simp only [if_neg hq]
            obtain ⟨l3, e3, b3, s3⟩ :=
              ih p.2.1 L0 (mid L0 R0) ml (mid L0 R0) t hl1 hlb hl (by omega) (le_refl _)
                (by omega)
            obtain ⟨r3, e4, b4, s4⟩ :=
              ih p.2.2 (mid L0 R0 + 1) R0 (mid L0 R0 + 1) mr t hr1 hrb (le_refl _) (by omega)
                hr (by omega)
            rw [e3, e4]
            exact rebuild_shaped P p.1 hlt s3 b3 s4 b4

theorem queryAux_log (P : Policy V T) (fuel : Nat) : ∀ (n : Node V T) (L R ql qr : Int),
    Shaped n → n.bounds? = some (L, R) → L ≤ ql → ql ≤ qr → qr ≤ R →
    Nat.clog 2 (R - L + 1).toNat < fuel →
    ∃ v n1, queryAux P fuel n ql qr = some (v, n1) ∧ n1.bounds? = some (L, R) ∧ Shaped n1 := by
  induction fuel with
  | zero => intro n L R ql qr _ _ _ _ _ hf; omega
  | succ fuel ih =>
    intro n L R ql qr hs hb hl hlr hr hf
    cases n with
    | null => exact absurd hs (by simp [Shaped])
    | node L0 R0 l r val tag =>
      simp only [Node.bounds?, Option.some.injEq, Prod.mk.injEq] at hb
      obtain ⟨rfl, rfl⟩ := hb
      by_cases hex : L0 = ql ∧ R0 = qr
      · exact ⟨val, .node L0 R0 l r val tag, by simp only [queryAux, if_pos hex], rfl, hs⟩
      · have hlt : L0 < R0 := by
          rcases not_and_or.mp hex with h | h <;> omega
        obtain ⟨hl1, hlb, hr1, hrb⟩ := descend_shaped P hs hlt
        have hm := mid_bounds hlt
        have hcl := clog_left hlt
        have hcr := clog_right hlt
        simp only [queryAux, if_neg hex]
        generalize pushdownStep P tag (check P l L0 (mid L0 R0))
          (check P r (mid L0 R0 + 1) R0) = p at hl1 hlb hr1 hrb ⊢
        by_cases hp : qr ≤ mid L0 R0
        · simp only [if_pos hp]
          obtain ⟨x, l3, e3, b3, s3⟩ :=
            ih p.2.1 L0 (mid L0 R0) ql qr hl1 hlb hl hlr hp (by omega)
          rw [e3]
          exact ⟨x, .node L0 R0 l3 p.2.2 val p.1, rfl, rfl,
            ⟨by omega, Or.inr ⟨hlt, b3, hrb, s3, hr1⟩⟩⟩
        · simp only [if_neg hp]
          by_cases hq : ql > mid L0 R0
          · simp only [if_pos hq]
            obtain ⟨x, r3, e3, b3, s3⟩ :=
              ih p.2.2 (mid L0 R0 + 1) R0 ql qr hr1 hrb (by omega) hlr hr (by omega)
            rw [e3]
            exact ⟨x, .node L0 R0 p.2.1 r3 val p.1, rfl, rfl,
              ⟨by omega, Or.inr ⟨hlt, hlb, b3, hl1, s3⟩⟩⟩
          · simp only [if_neg hq]
            obtain ⟨x, l3, e3, b3, s3⟩ :=
              ih p.2.1 L0 (mid L0 R0) ql (mid L0 R0) hl1 hlb hl (by omega) (le_refl _)
                (by omega)
            obtain ⟨y, r3, e4, b4, s4⟩ :=
              ih p.2.2 (mid L0 R0 + 1) R0 (mid L0 R0 + 1) qr hr1 hrb (le_refl _) (by omega)
                hr (by omega)
            rw [e3, e4]
            exact ⟨P.update x y, .node L0 R0 l3 r3 val p.1, rfl, rfl,
              ⟨by omega, Or.inr ⟨hlt, b3, b4, s3, s4⟩⟩⟩
/-! ## Which nodes a call creates -/

theorem sameNodes_refl (n : Node V T) : sameNodes n n := by
  induction n with
  | null => trivial
  | node L R l r val tag ihl ihr => exact ⟨rfl, rfl, ihl, ihr⟩

theorem sameNodes_count {a b : Node V T} (h : sameNodes a b) : nodeCount b = nodeCount a := by
  induction a generalizing b with
  | null =>
    cases b with
    | null => rfl
    | node _ _ _ _ _ _ => exact absurd h (by simp [sameNodes])
  | node L R l r val tag ihl ihr =>
    cases b with
    | null => exact absurd h (by simp [sameNodes])
    | node L1 R1 l1 r1 _ _ =>
      obtain ⟨_, _, h1, h2⟩ := h
      simp only [nodeCount, ihl h1, ihr h2]

theorem sameNodes_keeps {a b : Node V T} (h : sameNodes a b) : keepsNodes a b := by
  induction a generalizing b with
  | null => cases b <;> trivial
  | node L R l r val tag ihl ihr =>
    cases b with
    | null => exact absurd h (by simp [sameNodes])
    | node L1 R1 l1 r1 _ _ =>
      obtain ⟨e1, e2, h1, h2⟩ := h
      exact ⟨e1, e2, ihl h1, ihr h2⟩

theorem slotKept_count {b a : Node V T} (h : slotKept b a) :
    nodeCount a ≤ max 1 (nodeCount b) := by
  obtain ⟨ha, hb, h1, h2⟩ := h
  cases a with
  | null => exact absurd rfl ha
  | node L R cl cr _ _ =>
    have e1 := sameNodes_count h1
    have e2 := sameNodes_count h2
    cases b with
    | null =>
      simp only [Node.kids, nodeCount] at e1 e2 ⊢
      omega
    | node Lb Rb bl br _ _ =>
      simp only [Node.kids, nodeCount] at e1 e2 ⊢
      omega

theorem slotKept_keeps {b a : Node V T} (h : slotKept b a) : keepsNodes b a := by
  obtain ⟨ha, hb, h1, h2⟩ := h
  cases b with
  | null => trivial
  | node Lb Rb bl br _ _ =>
    cases a with
    | null => exact absurd rfl ha
    | node L R cl cr _ _ =>
      rcases hb with hb | hb
      · exact absurd hb (by simp)
      · simp only [Node.bounds?, Option.some.injEq, Prod.mk.injEq] at hb
        exact ⟨hb.1, hb.2, sameNodes_keeps h1, sameNodes_keeps h2⟩

theorem check_kids (P : Policy V T) (n : Node V T) (a b : Int) :
    check P n a b ≠ .null ∧ (check P n a b).kids = n.kids ∧
      (n = .null ∨ n.bounds? = (check P n a b).bounds?) := by
  cases n with
  | null => exact ⟨by simp [check], rfl, Or.inl rfl⟩
  | node L R l r val tag => exact ⟨by simp [check], rfl, Or.inr rfl⟩

theorem applyTag_kids (P : Policy V T) (t : T) (n : Node V T) :
    (n ≠ .null → applyTag P t n ≠ .null) ∧ (applyTag P t n).kids = n.kids ∧
      (applyTag P t n).bounds? = n.bounds? := by
  cases n with
  | null => exact ⟨fun h => absurd rfl h, rfl, rfl⟩
  | node L R l r val tag => exact ⟨fun _ => by simp [applyTag], rfl, rfl⟩

/-- The children handed to the recursive calls exist, are the old children or new nodes in
empty slots, and have the old grandchildren. -/
theorem descend_kids (P : Policy V T) (tag : T) (l r : Node V T) (a b c d : Int) :
    (pushdownStep P tag (check P l a b) (check P r c d)).2.1 ≠ .null ∧
    (pushdownStep P tag (check P l a b) (check P r c d)).2.1.kids = l.kids ∧
    (l = .null ∨
      l.bounds? = (pushdownStep P tag (check P l a b) (check P r c d)).2.1.bounds?) ∧
    (pushdownStep P tag (check P l a b) (check P r c d)).2.2 ≠ .null ∧
    (pushdownStep P tag (check P l a b) (check P r c d)).2.2.kids = r.kids ∧
    (r = .null ∨
      r.bounds? = (pushdownStep P tag (check P l a b) (check P r c d)).2.2.bounds?) := by
  obtain ⟨l1, l2, l3⟩ := check_kids P l a b
  obtain ⟨r1, r2, r3⟩ := check_kids P r c d
  unfold pushdownStep
  cases P.pushdown with
  | noPushDown => exact ⟨l1, l2, l3, r1, r2, r3⟩
  | addPushdown =>
    obtain ⟨a1, a2, a3⟩ := applyTag_kids P tag (check P l a b)
    obtain ⟨b1, b2, b3⟩ := applyTag_kids P tag (check P r c d)
    refine ⟨a1 l1, a2.trans l2, ?_, b1 r1, b2.trans r2, ?_⟩
    · rcases l3 with h | h
      · exact Or.inl h
      · exact Or.inr (h.trans a3.symm)
    · rcases r3 with h | h
      · exact Or.inl h
      · exact Or.inr (h.trans b3.symm)

theorem slotKept_of_kids {b a : Node V T} (ha : a ≠ .null) (hk : a.kids = b.kids)
    (hb : b = .null ∨ b.bounds? = a.bounds?) : slotKept b a :=
  ⟨ha, hb, by rw [hk]; exact sameNodes_refl _, by rw [hk]; exact sameNodes_refl _⟩

theorem grownOnPoint_of_kids {b b1 a : Node V T} {pos : Int} (hb1 : b1 ≠ .null)
    (hk : b1.kids = b.kids) (hb : b = .null ∨ b.bounds? = b1.bounds?)
    (h : grownOnPoint b1 a pos) : grownOnPoint b a pos := by
  cases a with
  | null => exact h
  | node L R cl cr _ _ =>
    obtain ⟨h1, h2⟩ := h
    refine ⟨?_, by rw [← hk]; exact h2⟩
    rcases h1 with h1 | h1
    · exact absurd h1 hb1
    · rcases hb with hb | hb
      · exact Or.inl hb
      · exact Or.inr (hb.trans h1)

theorem grownOnRange_of_kids {b b1 a : Node V T} {l r : Int} (hb1 : b1 ≠ .null)
    (hk : b1.kids = b.kids) (hb : b = .null ∨ b.bounds? = b1.bounds?)
    (h : grownOnRange b1 a l r) : grownOnRange b a l r := by
  cases a with
  | null => exact h
  | node L R cl cr _ _ =>
    obtain ⟨h1, h2⟩ := h
    refine ⟨?_, by rw [← hk]; exact h2⟩
    rcases h1 with h1 | h1
    · exact absurd h1 hb1
    · rcases hb with hb | hb
      · exact Or.inl hb
      · exact Or.inr (hb.trans h1)

theorem rebuild_inv {P : Policy V T} {L R : Int} {l r n1 : Node V T} {tag : T}
    (h : rebuild P L R l r tag = some n1) : ∃ val, n1 = .node L R l r val tag := by
  unfold rebuild at h
  split at h
  · simp only [Option.some.injEq] at h
    exact ⟨_, h.symm⟩
  · exact absurd h (by simp)
theorem replaceAux_grown (P : Policy V T) (fuel : Nat) : ∀ (n n1 : Node V T) (pos : Int)
    (v : V), replaceAux P fuel n pos v = some n1 → grownOnPoint n n1 pos := by
  induction fuel with
  | zero => intro n n1 pos v h; exact absurd h (by simp [replaceAux])
  | succ fuel ih =>
    intro n n1 pos v h
    cases n with
    | null => exact absurd h (by simp [replaceAux])
    | node L R l r val tag =>
      rw [replaceAux] at h
      by_cases hLR : L = R
      · simp only [if_pos hLR, Option.some.injEq] at h
        subst h
        exact ⟨Or.inr rfl, by rw [if_pos hLR]; exact ⟨sameNodes_refl _, sameNodes_refl _⟩⟩
      · simp only [if_neg hLR] at h
        obtain ⟨k1, k2, k3, k4, k5, k6⟩ :=
          descend_kids P tag l r L (mid L R) (mid L R + 1) R
        generalize pushdownStep P tag (check P l L (mid L R))
          (check P r (mid L R + 1) R) = p at h k1 k2 k3 k4 k5 k6
        by_cases hp : pos ≤ mid L R
        · simp only [if_pos hp] at h
          cases e : replaceAux P fuel p.2.1 pos v with
          | none => rw [e] at h; exact absurd h (by simp)
          | some l3 =>
            rw [e] at h
            obtain ⟨w, rfl⟩ := rebuild_inv h
            refine ⟨Or.inr rfl, ?_⟩
            rw [if_neg hLR, if_pos hp]
            exact ⟨grownOnPoint_of_kids k1 k2 k3 (ih _ _ _ _ e), slotKept_of_kids k4 k5 k6⟩
        · simp only [if_neg hp] at h
          cases e : replaceAux P fuel p.2.2 pos v with
          | none => rw [e] at h; exact absurd h (by simp)
          | some r3 =>
            rw [e] at h
            obtain ⟨w, rfl⟩ := rebuild_inv h
            refine ⟨Or.inr rfl, ?_⟩
            rw [if_neg hLR, if_neg hp]
            exact ⟨slotKept_of_kids k1 k2 k3, grownOnPoint_of_kids k4 k5 k6 (ih _ _ _ _ e)⟩

theorem modifyAux_grown (P : Policy V T) (fuel : Nat) : ∀ (n n1 : Node V T) (ml mr : Int)
    (t : T), modifyAux P fuel n ml mr t = some n1 → grownOnRange n n1 ml mr := by
  induction fuel with
  | zero => intro n n1 ml mr t h; exact absurd h (by simp [modifyAux])
  | succ fuel ih =>
    intro n n1 ml mr t h
    cases n with
    | null => exact absurd h (by simp [modifyAux])
    | node L R l r val tag =>
      rw [modifyAux] at h
      by_cases hex : L = ml ∧ R = mr
      · simp only [if_pos hex, Option.some.injEq] at h
        subst h
        exact ⟨Or.inr rfl, by rw [if_pos hex]; exact ⟨sameNodes_refl _, sameNodes_refl _⟩⟩
      · simp only [if_neg hex] at h
        obtain ⟨k1, k2, k3, k4, k5, k6⟩ :=
          descend_kids P tag l r L (mid L R) (mid L R + 1) R
        generalize pushdownStep P tag (check P l L (mid L R))
          (check P r (mid L R + 1) R) = p at h k1 k2 k3 k4 k5 k6
        by_cases hp : mr ≤ mid L R
        · simp only [if_pos hp] at h
          cases e : modifyAux P fuel p.2.1 ml mr t with
          | none => rw [e] at h; exact absurd h (by simp)
          | some l3 =>
            rw [e] at h
            obtain ⟨w, rfl⟩ := rebuild_inv h
            refine ⟨Or.inr rfl, ?_⟩
            rw [if_neg hex, if_pos hp]
            exact ⟨grownOnRange_of_kids k1 k2 k3 (ih _ _ _ _ _ e), slotKept_of_kids k4 k5 k6⟩
        · simp only [if_neg hp] at h
          by_cases hq : ml > mid L R
          · simp only [if_pos hq] at h
            cases e : modifyAux P fuel p.2.2 ml mr t with
            | none => rw [e] at h; exact absurd h (by simp)
            | some r3 =>
              rw [e] at h
              obtain ⟨w, rfl⟩ := rebuild_inv h
              refine ⟨Or.inr rfl, ?_⟩
              rw [if_neg hex, if_neg hp, if_pos hq]
              exact ⟨slotKept_of_kids k1 k2 k3,
                grownOnRange_of_kids k4 k5 k6 (ih _ _ _ _ _ e)⟩
          · simp only [if_neg hq] at h
            cases e1 : modifyAux P fuel p.2.1 ml (mid L R) t with
            | none => rw [e1] at h; exact absurd h (by simp)
            | some l3 =>
              cases e2 : modifyAux P fuel p.2.2 (mid L R + 1) mr t with
              | none => rw [e1, e2] at h; exact absurd h (by simp)
              | some r3 =>
                rw [e1, e2] at h
                obtain ⟨w, rfl⟩ := rebuild_inv h
                refine ⟨Or.inr rfl, ?_⟩
                rw [if_neg hex, if_neg hp, if_neg hq]
                exact ⟨grownOnRange_of_kids k1 k2 k3 (ih _ _ _ _ _ e1),
                  grownOnRange_of_kids k4 k5 k6 (ih _ _ _ _ _ e2)⟩

theorem queryAux_grown (P : Policy V T) (fuel : Nat) : ∀ (n n1 : Node V T) (ql qr : Int)
    (x : V), queryAux P fuel n ql qr = some (x, n1) → grownOnRange n n1 ql qr := by
  induction fuel with
  | zero => intro n n1 ql qr x h; exact absurd h (by simp [queryAux])
  | succ fuel ih =>
    intro n n1 ql qr x h
    cases n with
    | null => exact absurd h (by simp [queryAux])
    | node L R l r val tag =>
      rw [queryAux] at h
      by_cases hex : L = ql ∧ R = qr
      · simp only [if_pos hex, Option.some.injEq, Prod.mk.injEq] at h
        obtain ⟨_, rfl⟩ := h
        exact ⟨Or.inr rfl, by rw [if_pos hex]; exact ⟨sameNodes_refl _, sameNodes_refl _⟩⟩
      · simp only [if_neg hex] at h
        obtain ⟨k1, k2, k3, k4, k5, k6⟩ :=
          descend_kids P tag l r L (mid L R) (mid L R + 1) R
        generalize pushdownStep P tag (check P l L (mid L R))
          (check P r (mid L R + 1) R) = p at h k1 k2 k3 k4 k5 k6
        by_cases hp : qr ≤ mid L R
        · simp only [if_pos hp] at h
          cases e : queryAux P fuel p.2.1 ql qr with
          | none => rw [e] at h; exact absurd h (by simp)
          | some res =>
            rw [e] at h
            simp only [Option.some.injEq, Prod.mk.injEq] at h
            obtain ⟨_, rfl⟩ := h
            refine ⟨Or.inr rfl, ?_⟩
            rw [if_neg hex, if_pos hp]
            exact ⟨grownOnRange_of_kids k1 k2 k3 (ih _ _ _ _ _ e), slotKept_of_kids k4 k5 k6⟩
        · simp only [if_neg hp] at h
          by_cases hq : ql > mid L R
          · simp only [if_pos hq] at h
            cases e : queryAux P fuel p.2.2 ql qr with
            | none => rw [e] at h; exact absurd h (by simp)
            | some res =>
              rw [e] at h
              simp only [Option.some.injEq, Prod.mk.injEq] at h
              obtain ⟨_, rfl⟩ := h
              refine ⟨Or.inr rfl, ?_⟩
              rw [if_neg hex, if_neg hp, if_pos hq]
              exact ⟨slotKept_of_kids k1 k2 k3,
                grownOnRange_of_kids k4 k5 k6 (ih _ _ _ _ _ e)⟩
          · simp only [if_neg hq] at h
            cases e1 : queryAux P fuel p.2.1 ql (mid L R) with
            | none => rw [e1] at h; exact absurd h (by simp)
            | some res1 =>
              cases e2 : queryAux P fuel p.2.2 (mid L R + 1) qr with
              | none => rw [e1, e2] at h; exact absurd h (by simp)
              | some res2 =>
                rw [e1, e2] at h
                simp only [Option.some.injEq, Prod.mk.injEq] at h
                obtain ⟨_, rfl⟩ := h
                refine ⟨Or.inr rfl, ?_⟩
                rw [if_neg hex, if_neg hp, if_neg hq]
                exact ⟨grownOnRange_of_kids k1 k2 k3 (ih _ _ _ _ _ e1),
                  grownOnRange_of_kids k4 k5 k6 (ih _ _ _ _ _ e2)⟩
theorem grownOnPoint_keeps (a : Node V T) : ∀ (b : Node V T) (pos : Int),
    grownOnPoint b a pos → keepsNodes b a := by
  induction a with
  | null => intro b pos h; exact absurd h (by simp [grownOnPoint])
  | node L R cl cr val tag ihl ihr =>
    intro b pos h
    obtain ⟨h1, h2⟩ := h
    cases b with
    | null => trivial
    | node Lb Rb bl br _ _ =>
      rcases h1 with h1 | h1
      · exact absurd h1 (by simp)
      · simp only [Node.bounds?, Option.some.injEq, Prod.mk.injEq] at h1
        simp only [Node.kids] at h2
        refine ⟨h1.1, h1.2, ?_⟩
        by_cases hLR : L = R
        · rw [if_pos hLR] at h2
          exact ⟨sameNodes_keeps h2.1, sameNodes_keeps h2.2⟩
        · rw [if_neg hLR] at h2
          by_cases hp : pos ≤ mid L R
          · rw [if_pos hp] at h2
            exact ⟨ihl _ _ h2.1, slotKept_keeps h2.2⟩
          · rw [if_neg hp] at h2
            exact ⟨slotKept_keeps h2.1, ihr _ _ h2.2⟩

theorem grownOnRange_keeps (a : Node V T) : ∀ (b : Node V T) (l r : Int),
    grownOnRange b a l r → keepsNodes b a := by
  induction a with
  | null => intro b l r h; exact absurd h (by simp [grownOnRange])
  | node L R cl cr val tag ihl ihr =>
    intro b l r h
    obtain ⟨h1, h2⟩ := h
    cases b with
    | null => trivial
    | node Lb Rb bl br _ _ =>
      rcases h1 with h1 | h1
      · exact absurd h1 (by simp)
      · simp only [Node.bounds?, Option.some.injEq, Prod.mk.injEq] at h1
        simp only [Node.kids] at h2
        refine ⟨h1.1, h1.2, ?_⟩
        by_cases hex : L = l ∧ R = r
        · rw [if_pos hex] at h2
          exact ⟨sameNodes_keeps h2.1, sameNodes_keeps h2.2⟩
        · rw [if_neg hex] at h2
          by_cases hp : r ≤ mid L R
          · rw [if_pos hp] at h2
            exact ⟨ihl _ _ _ h2.1, slotKept_keeps h2.2⟩
          · rw [if_neg hp] at h2
            by_cases hq : l > mid L R
            · rw [if_pos hq] at h2
              exact ⟨slotKept_keeps h2.1, ihr _ _ _ h2.2⟩
            · rw [if_neg hq] at h2
              exact ⟨ihl _ _ _ h2.1, ihr _ _ _ h2.2⟩

theorem kids_count (b : Node V T) :
    max 1 (nodeCount b) = 1 + nodeCount b.kids.1 + nodeCount b.kids.2 := by
  cases b with
  | null => rfl
  | node L R l r _ _ => simp only [nodeCount, Node.kids]; omega

theorem grownOnPoint_count (a : Node V T) : ∀ (b : Node V T) (L R pos : Int),
    Shaped a → a.bounds? = some (L, R) → grownOnPoint b a pos →
    nodeCount a ≤ max 1 (nodeCount b) + 2 * Nat.clog 2 (R - L + 1).toNat := by
  induction a with
  | null => intro b L R pos h; exact absurd h (by simp [Shaped])
  | node L0 R0 cl cr val tag ihl ihr =>
    intro b L R pos hs hb h
    simp only [Node.bounds?, Option.some.injEq, Prod.mk.injEq] at hb
    obtain ⟨rfl, rfl⟩ := hb
    obtain ⟨_, h2⟩ := h
    rw [kids_count b]
    simp only [nodeCount]
    by_cases hLR : L0 = R0
    · rw [if_pos hLR] at h2
      rw [sameNodes_count h2.1, sameNodes_count h2.2]
      omega
    · rw [if_neg hLR] at h2
      have hlt : L0 < R0 := lt_of_le_of_ne hs.1 hLR
      have hcl := clog_left hlt
      have hcr := clog_right hlt
      by_cases hp : pos ≤ mid L0 R0
      · rw [if_pos hp] at h2
        rcases hs.2 with ⟨e1, _⟩ | ⟨_, hlb, _, hsl, _⟩
        · subst e1; exact absurd h2.1 (by simp [grownOnPoint])
        · have i1 := ihl _ _ _ pos hsl hlb h2.1
          have i2 := slotKept_count h2.2
          omega
      · rw [if_neg hp] at h2
        rcases hs.2 with ⟨_, e2⟩ | ⟨_, _, hrb, _, hsr⟩
        · subst e2; exact absurd h2.2 (by simp [grownOnPoint])
        · have i1 := ihr _ _ _ pos hsr hrb h2.2
          have i2 := slotKept_count h2.1
          omega
theorem grownOnRange_count (a : Node V T) : ∀ (b : Node V T) (L R l r : Int),
    Shaped a → a.bounds? = some (L, R) → L ≤ l → l ≤ r → r ≤ R → grownOnRange b a l r →
    nodeCount a ≤ max 1 (nodeCount b) + createdBound L R l r := by
  induction a with
  | null => intro b L R l r h; exact absurd h (by simp [Shaped])
  | node L0 R0 cl cr val tag ihl ihr =>
    intro b L R l r hs hb hl hlr hr h
    simp only [Node.bounds?, Option.some.injEq, Prod.mk.injEq] at hb
    obtain ⟨rfl, rfl⟩ := hb
    obtain ⟨_, h2⟩ := h
    rw [kids_count b]
    simp only [nodeCount]
    by_cases hex : L0 = l ∧ R0 = r
    · rw [if_pos hex] at h2
      rw [sameNodes_count h2.1, sameNodes_count h2.2]
      omega
    · rw [if_neg hex] at h2
      have hlt : L0 < R0 := by
        rcases not_and_or.mp hex with h | h <;> omega
      have hm := mid_bounds hlt
      have hcl := clog_left hlt
      have hcr := clog_right hlt
      by_cases hp : r ≤ mid L0 R0
      · rw [if_pos hp] at h2
        rcases hs.2 with ⟨e1, _⟩ | ⟨_, hlb, _, hsl, _⟩
        · subst e1; exact absurd h2.1 (by simp [grownOnRange])
        · have i1 := ihl _ _ _ l r hsl hlb hl hlr hp h2.1
          have i2 := slotKept_count h2.2
          unfold createdBound at i1 ⊢
          split_ifs at i1 ⊢ <;> omega
      · rw [if_neg hp] at h2
        by_cases hq : l > mid L0 R0
        · rw [if_pos hq] at h2
          rcases hs.2 with ⟨_, e2⟩ | ⟨_, _, hrb, _, hsr⟩
          · subst e2; exact absurd h2.2 (by simp [grownOnRange])
          · have i1 := ihr _ _ _ l r hsr hrb (by omega) hlr hr h2.2
            have i2 := slotKept_count h2.1
            unfold createdBound at i1 ⊢
            split_ifs at i1 ⊢ <;> omega
        · rw [if_neg hq] at h2
          rcases hs.2 with ⟨e1, _⟩ | ⟨_, hlb, hrb, hsl, hsr⟩
          · subst e1; exact absurd h2.1 (by simp [grownOnRange])
          · have i1 := ihl _ _ _ l (mid L0 R0) hsl hlb hl (by omega) (le_refl _) h2.1
            have i2 := ihr _ _ _ (mid L0 R0 + 1) r hsr hrb (le_refl _) (by omega) hr h2.2
            unfold createdBound at i1 i2 ⊢
            split_ifs at i1 i2 ⊢ <;> omega

theorem grownOnPoint_visit (a : Node V T) : ∀ (b : Node V T) (L R pos : Int),
    Shaped a → a.bounds? = some (L, R) → L ≤ pos → pos ≤ R → grownOnPoint b a pos →
    visitPoint (fun n p => argsInNode n p p) a pos := by
  induction a with
  | null => intro b L R pos h; exact absurd h (by simp [Shaped])
  | node L0 R0 cl cr val tag ihl ihr =>
    intro b L R pos hs hb hl hr h
    simp only [Node.bounds?, Option.some.injEq, Prod.mk.injEq] at hb
    obtain ⟨rfl, rfl⟩ := hb
    obtain ⟨_, h2⟩ := h
    refine ⟨⟨hl, le_refl _, hr, fun e => ?_⟩, fun hLR => ?_⟩
    · rcases hs.2 with h3 | ⟨hlt, _⟩
      · exact h3
      · omega
    · rw [if_neg hLR] at h2
      have hlt : L0 < R0 := lt_of_le_of_ne hs.1 hLR
      have hm := mid_bounds hlt
      by_cases hp : pos ≤ mid L0 R0
      · rw [if_pos hp] at h2 ⊢
        rcases hs.2 with ⟨e1, _⟩ | ⟨_, hlb, _, hsl, _⟩
        · subst e1; exact absurd h2.1 (by simp [grownOnPoint])
        · exact ihl _ _ _ pos hsl hlb hl hp h2.1
      · rw [if_neg hp] at h2 ⊢
        rcases hs.2 with ⟨_, e2⟩ | ⟨_, _, hrb, _, hsr⟩
        · subst e2; exact absurd h2.2 (by simp [grownOnPoint])
        · exact ihr _ _ _ pos hsr hrb (by omega) hr h2.2

theorem grownOnRange_visit (a : Node V T) : ∀ (b : Node V T) (L R l r : Int),
    Shaped a → a.bounds? = some (L, R) → L ≤ l → l ≤ r → r ≤ R → grownOnRange b a l r →
    visitRange argsInNode a l r := by
  induction a with
  | null => intro b L R l r h; exact absurd h (by simp [Shaped])
  | node L0 R0 cl cr val tag ihl ihr =>
    intro b L R l r hs hb hl hlr hr h
    simp only [Node.bounds?, Option.some.injEq, Prod.mk.injEq] at hb
    obtain ⟨rfl, rfl⟩ := hb
    obtain ⟨_, h2⟩ := h
    refine ⟨⟨hl, hlr, hr, fun e => ?_⟩, fun hex => ?_⟩
    · rcases hs.2 with h3 | ⟨hlt, _⟩
      · exact h3
      · omega
    · rw [if_neg hex] at h2
      have hlt : L0 < R0 := by
        rcases not_and_or.mp hex with h | h <;> omega
      have hm := mid_bounds hlt
      by_cases hp : r ≤ mid L0 R0
      · rw [if_pos hp] at h2 ⊢
        rcases hs.2 with ⟨e1, _⟩ | ⟨_, hlb, _, hsl, _⟩
        · subst e1; exact absurd h2.1 (by simp [grownOnRange])
        · exact ihl _ _ _ l r hsl hlb hl hlr hp h2.1
      · rw [if_neg hp] at h2 ⊢
        by_cases hq : l > mid L0 R0
        · rw [if_pos hq] at h2 ⊢
          rcases hs.2 with ⟨_, e2⟩ | ⟨_, _, hrb, _, hsr⟩
          · subst e2; exact absurd h2.2 (by simp [grownOnRange])
          · exact ihr _ _ _ l r hsr hrb (by omega) hlr hr h2.2
        · rw [if_neg hq] at h2 ⊢
          rcases hs.2 with ⟨e1, _⟩ | ⟨_, hlb, hrb, hsl, hsr⟩
          · subst e1; exact absurd h2.1 (by simp [grownOnRange])
          · exact ⟨ihl _ _ _ l (mid L0 R0) hsl hlb hl (by omega) (le_refl _) h2.1,
              ihr _ _ _ (mid L0 R0 + 1) r hsr hrb (le_refl _) (by omega) hr h2.2⟩

/-- A well-shaped tree over `[L, R]` has at most `ceil(log2(R - L + 1)) + 1` levels. -/
theorem shaped_height (n : Node V T) : ∀ (L R : Int), Shaped n → n.bounds? = some (L, R) →
    height n ≤ Nat.clog 2 (R - L + 1).toNat + 1 := by
  induction n with
  | null => intro L R h; exact absurd h (by simp [Shaped])
  | node L0 R0 l r val tag ihl ihr =>
    intro L R hs hb
    simp only [Node.bounds?, Option.some.injEq, Prod.mk.injEq] at hb
    obtain ⟨rfl, rfl⟩ := hb
    simp only [height]
    rcases hs.2 with ⟨e1, e2⟩ | ⟨hlt, hlb, hrb, hsl, hsr⟩
    · subst e1 e2
      simp only [height]
      omega
    · have i1 := ihl _ _ hsl hlb
      have i2 := ihr _ _ hsr hrb
      have hcl := clog_left hlt
      have hcr := clog_right hlt
      omega

theorem replaceAux_fuel_le (P : Policy V T) {fuel fuel1 : Nat} (hle : fuel ≤ fuel1)
    {n n1 : Node V T} {pos : Int} {v : V} (h : replaceAux P fuel n pos v = some n1) :
    replaceAux P fuel1 n pos v = some n1 := by
  induction hle with
  | refl => exact h
  | step _ ih => exact replaceAux_fuel_mono P _ _ _ _ _ ih

theorem modifyAux_fuel_le (P : Policy V T) {fuel fuel1 : Nat} (hle : fuel ≤ fuel1)
    {n n1 : Node V T} {ml mr : Int} {t : T} (h : modifyAux P fuel n ml mr t = some n1) :
    modifyAux P fuel1 n ml mr t = some n1 := by
  induction hle with
  | refl => exact h
  | step _ ih => exact modifyAux_fuel_mono P _ _ _ _ _ _ ih

theorem queryAux_fuel_le (P : Policy V T) {fuel fuel1 : Nat} (hle : fuel ≤ fuel1)
    {n : Node V T} {ql qr : Int} {res : V × Node V T}
    (h : queryAux P fuel n ql qr = some res) : queryAux P fuel1 n ql qr = some res := by
  induction hle with
  | refl => exact h
  | step _ ih => exact queryAux_fuel_mono P _ _ _ _ _ ih
/-! ## Nodes on the path of a call are pushed down (default tree) -/

theorem grownOnPoint_ne_null {b a : Node V T} {pos : Int} (h : grownOnPoint b a pos) :
    a ≠ .null := by
  intro e
  subst e
  exact absurd h (by simp [grownOnPoint])

theorem grownOnRange_ne_null {b a : Node V T} {l r : Int} (h : grownOnRange b a l r) :
    a ≠ .null := by
  intro e
  subst e
  exact absurd h (by simp [grownOnRange])

theorem replaceAux_cleared (fuel : Nat) : ∀ (n n1 : Node Int addTag) (pos v : Int),
    replaceAux defaultPolicy fuel n pos v = some n1 →
    visitPoint (fun m _ => ¬ m.isLeaf → TagCleared m) n1 pos := by
  induction fuel with
  | zero => intro n n1 pos v h; exact absurd h (by simp [replaceAux])
  | succ fuel ih =>
    intro n n1 pos v h
    cases n with
    | null => exact absurd h (by simp [replaceAux])
    | node L R l r val tag =>
      rw [replaceAux] at h
      by_cases hLR : L = R
      · simp only [if_pos hLR, Option.some.injEq] at h
        subst h
        exact ⟨fun hn => absurd hLR hn, fun hn => absurd hLR hn⟩
      · simp only [if_neg hLR] at h
        obtain ⟨k1, _, _, k4, _, _⟩ :=
          descend_kids defaultPolicy tag l r L (mid L R) (mid L R + 1) R
        have k0 : (pushdownStep defaultPolicy tag (check defaultPolicy l L (mid L R))
          (check defaultPolicy r (mid L R + 1) R)).1.sum = 0 := rfl
        generalize pushdownStep defaultPolicy tag (check defaultPolicy l L (mid L R))
          (check defaultPolicy r (mid L R + 1) R) = p at h k0 k1 k4
        by_cases hp : pos ≤ mid L R
        · simp only [if_pos hp] at h
          cases e : replaceAux defaultPolicy fuel p.2.1 pos v with
          | none => rw [e] at h; exact absurd h (by simp)
          | some l3 =>
            rw [e] at h
            obtain ⟨w, rfl⟩ := rebuild_inv h
            refine ⟨fun _ => ⟨k0, grownOnPoint_ne_null (replaceAux_grown _ _ _ _ _ _ e), k4⟩,
              fun _ => ?_⟩
            rw [if_pos hp]
            exact ih _ _ _ _ e
        · simp only [if_neg hp] at h
          cases e : replaceAux defaultPolicy fuel p.2.2 pos v with
          | none => rw [e] at h; exact absurd h (by simp)
          | some r3 =>
            rw [e] at h
            obtain ⟨w, rfl⟩ := rebuild_inv h
            refine ⟨fun _ => ⟨k0, k1, grownOnPoint_ne_null (replaceAux_grown _ _ _ _ _ _ e)⟩,
              fun _ => ?_⟩
            rw [if_neg hp]
            exact ih _ _ _ _ e

theorem modifyAux_cleared (fuel : Nat) : ∀ (n n1 : Node Int addTag) (ml mr : Int)
    (t : addTag), modifyAux defaultPolicy fuel n ml mr t = some n1 →
    visitRange (fun m l r => ¬ m.spans l r → TagCleared m) n1 ml mr := by
  induction fuel with
  | zero => intro n n1 ml mr t h; exact absurd h (by simp [modifyAux])
  | succ fuel ih =>
    intro n n1 ml mr t h
    cases n with
    | null => exact absurd h (by simp [modifyAux])
    | node L R l r val tag =>
      rw [modifyAux] at h
      by_cases hex : L = ml ∧ R = mr
      · simp only [if_pos hex, Option.some.injEq] at h
        subst h
        exact ⟨fun hn => absurd hex hn, fun hn => absurd hex hn⟩
      · simp only [if_neg hex] at h
        obtain ⟨k1, _, _, k4, _, _⟩ :=
          descend_kids defaultPolicy tag l r L (mid L R) (mid L R + 1) R
        have k0 : (pushdownStep defaultPolicy tag (check defaultPolicy l L (mid L R))
          (check defaultPolicy r (mid L R + 1) R)).1.sum = 0 := rfl
        generalize pushdownStep defaultPolicy tag (check defaultPolicy l L (mid L R))
          (check defaultPolicy r (mid L R + 1) R) = p at h k0 k1 k4
        by_cases hp : mr ≤ mid L R
        · simp only [if_pos hp] at h
          cases e : modifyAux defaultPolicy fuel p.2.1 ml mr t with
          | none => rw [e] at h; exact absurd h (by simp)
          | some l3 =>
            rw [e] at h
            obtain ⟨w, rfl⟩ := rebuild_inv h
            refine ⟨fun _ => ⟨k0, grownOnRange_ne_null (modifyAux_grown _ _ _ _ _ _ _ e), k4⟩,
              fun _ => ?_⟩
            rw [if_pos hp]
            exact ih _ _ _ _ _ e
        · simp only [if_neg hp] at h
          by_cases hq : ml > mid L R
          · simp only [if_pos hq] at h
            cases e : modifyAux defaultPolicy fuel p.2.2 ml mr t with
            | none => rw [e] at h; exact absurd h (by simp)
            | some r3 =>
              rw [e] at h
              obtain ⟨w, rfl⟩ := rebuild_inv h
              refine ⟨fun _ =>
                ⟨k0, k1, grownOnRange_ne_null (modifyAux_grown _ _ _ _ _ _ _ e)⟩, fun _ => ?_⟩
              rw [if_neg hp, if_pos hq]
              exact ih _ _ _ _ _ e
          · simp only [if_neg hq] at h
            cases e1 : modifyAux defaultPolicy fuel p.2.1 ml (mid L R) t with
            | none => rw [e1] at h; exact absurd h (by simp)
            | some l3 =>
              cases e2 : modifyAux defaultPolicy fuel p.2.2 (mid L R + 1) mr t with
              | none => rw [e1, e2] at h; exact absurd h (by simp)
              | some r3 =>
                rw [e1, e2] at h
                obtain ⟨w, rfl⟩ := rebuild_inv h
                refine ⟨fun _ =>
                  ⟨k0, grownOnRange_ne_null (modifyAux_grown _ _ _ _ _ _ _ e1),
                    grownOnRange_ne_null (modifyAux_grown _ _ _ _ _ _ _ e2)⟩, fun _ => ?_⟩
                rw [if_neg hp, if_neg hq]
                exact ⟨ih _ _ _ _ _ e1, ih _ _ _ _ _ e2⟩

theorem queryAux_cleared (fuel : Nat) : ∀ (n n1 : Node Int addTag) (ql qr x : Int),
    queryAux defaultPolicy fuel n ql qr = some (x, n1) →
    visitRange (fun m l r => ¬ m.spans l r → TagCleared m) n1 ql qr := by
  induction fuel with
  | zero => intro n n1 ql qr x h; exact absurd h (by simp [queryAux])
  | succ fuel ih =>
    intro n n1 ql qr x h
    cases n with
    | null => exact absurd h (by simp [queryAux])
    | node L R l r val tag =>
      rw [queryAux] at h
      by_cases hex : L = ql ∧ R = qr
      · simp only [if_pos hex, Option.some.injEq, Prod.mk.injEq] at h
        obtain ⟨_, rfl⟩ := h
        exact ⟨fun hn => absurd hex hn, fun hn => absurd hex hn⟩
      · simp only [if_neg hex] at h
        obtain ⟨k1, _, _, k4, _, _⟩ :=
          descend_kids defaultPolicy tag l r L (mid L R) (mid L R + 1) R
        have k0 : (pushdownStep defaultPolicy tag (check defaultPolicy l L (mid L R))
          (check defaultPolicy r (mid L R + 1) R)).1.sum = 0 := rfl
        generalize pushdownStep defaultPolicy tag (check defaultPolicy l L (mid L R))
          (check defaultPolicy r (mid L R + 1) R) = p at h k0 k1 k4
        by_cases hp : qr ≤ mid L R
        · simp only [if_pos hp] at h
          cases e : queryAux defaultPolicy fuel p.2.1 ql qr with
          | none => rw [e] at h; exact absurd h (by simp)
          | some res =>
            obtain ⟨y, l3⟩ := res
            rw [e] at h
            simp only [Option.some.injEq, Prod.mk.injEq] at h
            obtain ⟨_, rfl⟩ := h
            refine ⟨fun _ => ⟨k0, grownOnRange_ne_null (queryAux_grown _ _ _ _ _ _ _ e), k4⟩,
              fun _ => ?_⟩
            rw [if_pos hp]
            exact ih _ _ _ _ _ e
        · simp only [if_neg hp] at h
          by_cases hq : ql > mid L R
          · simp only [if_pos hq] at h
            cases e : queryAux defaultPolicy fuel p.2.2 ql qr with
            | none => rw [e] at h; exact absurd h (by simp)
            | some res =>
              obtain ⟨y, r3⟩ := res
              rw [e] at h
              simp only [Option.some.injEq, Prod.mk.injEq] at h
              obtain ⟨_, rfl⟩ := h
              refine ⟨fun _ =>
                ⟨k0, k1, grownOnRange_ne_null (queryAux_grown _ _ _ _ _ _ _ e)⟩, fun _ => ?_⟩
              rw [if_neg hp, if_pos hq]
              exact ih _ _ _ _ _ e
          · simp only [if_neg hq] at h
            cases e1 : queryAux defaultPolicy fuel p.2.1 ql (mid L R) with
            | none => rw [e1] at h; exact absurd h (by simp)
            | some res1 =>
              cases e2 : queryAux defaultPolicy fuel p.2.2 (mid L R + 1) qr with
              | none => rw [e1, e2] at h; exact absurd h (by simp)
              | some res2 =>
                obtain ⟨y1, l3⟩ := res1
                obtain ⟨y2, r3⟩ := res2
                rw [e1, e2] at h
                simp only [Option.some.injEq, Prod.mk.injEq] at h
                obtain ⟨_, rfl⟩ := h
                refine ⟨fun _ =>
                  ⟨k0, grownOnRange_ne_null (queryAux_grown _ _ _ _ _ _ _ e1),
                    grownOnRange_ne_null (queryAux_grown _ _ _ _ _ _ _ e2)⟩, fun _ => ?_⟩
                rw [if_neg hp, if_neg hq]
                exact ⟨ih _ _ _ _ _ e1, ih _ _ _ _ _ e2⟩

/-- In a tree that represents an array, a node with cleared tag and both children holds the
sum of its children's values. -/
theorem Rep_pushedDown {a : Int → Int} {n : Node Int addTag} (h : Rep a n)
    (hc : TagCleared n) : PushedDown n := by
  cases n with
  | null => exact absurd h (by simp [Rep])
  | node L R l r val tag =>
    obtain ⟨h0, hl, hr⟩ := hc
    obtain ⟨_, hval, hk⟩ := h
    rcases hk with ⟨e1, _⟩ | ⟨hlt, hlb, hrb, hrl, hrr⟩
    · exact absurd e1 hl
    · have hm := mid_bounds hlt
      have v1 := Rep_val hrl hlb
      have v2 := Rep_val hrr hrb
      have c1 : rangeSum (fun i => a i - tag.sum) L (mid L R) = rangeSum a L (mid L R) :=
        rangeSum_congr (fun i _ _ => by simp [h0])
      have c2 : rangeSum (fun i => a i - tag.sum) (mid L R + 1) R
          = rangeSum a (mid L R + 1) R :=
        rangeSum_congr (fun i _ _ => by simp [h0])
      rw [c1] at v1
      rw [c2] at v2
      have hs := rangeSum_split a hm.1 (le_of_lt hm.2)
      exact ⟨_, _, v1, v2, h0, by rw [hval, hs]; rfl, by rw [hval, hs]⟩

theorem visitPoint_pushedDown (n : Node Int addTag) : ∀ (a : Int → Int) (pos : Int),
    Rep a n → visitPoint (fun m _ => ¬ m.isLeaf → TagCleared m) n pos →
    visitPoint (fun m _ => ¬ m.isLeaf → PushedDown m) n pos := by
  induction n with
  | null => intro a pos _ h; exact h
  | node L R l r val tag ihl ihr =>
    intro a pos hrep h
    obtain ⟨h1, h2⟩ := h
    refine ⟨fun hn => Rep_pushedDown hrep (h1 hn), fun hLR => ?_⟩
    have h3 := h2 hLR
    rcases hrep.2.2 with ⟨e1, e2, _⟩ | ⟨_, _, _, hrl, hrr⟩
    · subst e1 e2
      by_cases hp : pos ≤ mid L R
      · rw [if_pos hp] at h3 ⊢; exact h3
      · rw [if_neg hp] at h3 ⊢; exact h3
    · by_cases hp : pos ≤ mid L R
      · rw [if_pos hp] at h3 ⊢; exact ihl _ _ hrl h3
      · rw [if_neg hp] at h3 ⊢; exact ihr _ _ hrr h3

theorem visitRange_pushedDown (n : Node Int addTag) : ∀ (a : Int → Int) (l r : Int),
    Rep a n → visitRange (fun m l r => ¬ m.spans l r → TagCleared m) n l r →
    visitRange (fun m l r => ¬ m.spans l r → PushedDown m) n l r := by
  induction n with
  | null => intro a l r _ h; exact h
  | node L R cl cr val tag ihl ihr =>
    intro a l r hrep h
    obtain ⟨h1, h2⟩ := h
    refine ⟨fun hn => Rep_pushedDown hrep (h1 hn), fun hex => ?_⟩
    have h3 := h2 hex
    rcases hrep.2.2 with ⟨e1, e2, _⟩ | ⟨_, _, _, hrl, hrr⟩
    · subst e1 e2
      by_cases hp : r ≤ mid L R
      · rw [if_pos hp] at h3 ⊢; exact h3
      · rw [if_neg hp] at h3 ⊢
        by_cases hq : l > mid L R
        · rw [if_pos hq] at h3 ⊢; exact h3
        · rw [if_neg hq] at h3 ⊢; exact absurd h3.1 (by simp [visitRange])
    · by_cases hp : r ≤ mid L R
      · rw [if_pos hp] at h3 ⊢; exact ihl _ _ _ hrl h3
      · rw [if_neg hp] at h3 ⊢
        by_cases hq : l > mid L R
        · rw [if_pos hq] at h3 ⊢; exact ihr _ _ _ hrr h3
        · rw [if_neg hq] at h3 ⊢; exact ⟨ihl _ _ _ hrl h3.1, ihr _ _ _ hrr h3.2⟩

/-! ## From a returning public call to the helper call -/

theorem replace_ok_aux {P : Policy V T} {t t1 : segmentTree V T} {pos : Int} {v : V}
    (h : t.replace P pos v = .ok t1) :
    ∃ fuel, replaceAux P fuel t.root pos v = some t1.root := by
  obtain ⟨root⟩ := t
  cases root with
  | null => simp [segmentTree.replace] at h
  | node L R l r val tag =>
    simp only [segmentTree.replace] at h
    split at h
    · exact absurd h (by simp)
    · cases e : replaceAux P (fuelFor L R) (.node L R l r val tag) pos v with
      | none => rw [e] at h; exact absurd h (by simp)
      | some n =>
        rw [e] at h
        simp only [Result.ok.injEq] at h
        subst h
        exact ⟨_, e⟩

theorem modify_ok_aux {P : Policy V T} {t t1 : segmentTree V T} {l r : Int} {tag : T}
    (h : t.modify P l r tag = .ok t1) (hlr : l ≤ r) :
    ∃ fuel, modifyAux P fuel t.root l r tag = some t1.root := by
  obtain ⟨root⟩ := t
  unfold segmentTree.modify at h
  rw [if_neg (by omega), if_neg (by omega)] at h
  cases root with
  | null => simp at h
  | node L R cl cr val tg =>
    simp only at h
    split at h
    · exact absurd h (by simp)
    · cases e : modifyAux P (fuelFor L R) (.node L R cl cr val tg) l r tag with
      | none => rw [e] at h; exact absurd h (by simp)
      | some n =>
        rw [e] at h
        simp only [Result.ok.injEq] at h
        subst h
        exact ⟨_, e⟩

theorem query_ok_aux {P : Policy V T} {t t1 : segmentTree V T} {l r : Int} {x : V}
    (h : t.query P l r = .ok (x, t1)) :
    ∃ fuel, queryAux P fuel t.root l r = some (x, t1.root) := by
  obtain ⟨root⟩ := t
  unfold segmentTree.query at h
  split at h
  · exact absurd h (by simp)
  · cases root with
    | null => simp at h
    | node L R cl cr val tg =>
      simp only at h
      split at h
      · exact absurd h (by simp)
      · cases e : queryAux P (fuelFor L R) (.node L R cl cr val tg) l r with
        | none => rw [e] at h; exact absurd h (by simp)
        | some res =>
          obtain ⟨y, n⟩ := res
          rw [e] at h
          simp only [Result.ok.injEq, Prod.mk.injEq] at h
          obtain ⟨rfl, rfl⟩ := h
          exact ⟨_, e⟩

theorem grown_root_bounds {b a : Node V T} {L R : Int} (hb : b.bounds? = some (L, R))
    (h : (b = .null ∨ b.bounds? = a.bounds?)) : a.bounds? = some (L, R) := by
  rcases h with h | h
  · subst h; simp [Node.bounds?] at hb
  · rw [← h]; exact hb

theorem grownOnPoint_bounds {b a : Node V T} {pos : Int} (h : grownOnPoint b a pos) :
    b = .null ∨ b.bounds? = a.bounds? := by
  cases a with
  | null => exact absurd h (by simp [grownOnPoint])
  | node L R cl cr _ _ => exact h.1

theorem grownOnRange_bounds {b a : Node V T} {l r : Int} (h : grownOnRange b a l r) :
    b = .null ∨ b.bounds? = a.bounds? := by
  cases a with
  | null => exact absurd h (by simp [grownOnRange])
  | node L R cl cr _ _ => exact h.1

theorem grownOnRange_exact {b a : Node V T} {L R : Int} (hb : b.bounds? = some (L, R))
    (h : grownOnRange b a L R) : sameNodes b a := by
  cases a with
  | null => exact absurd h (by simp [grownOnRange])
  | node L1 R1 cl cr _ _ =>
    cases b with
    | null => simp [Node.bounds?] at hb
    | node Lb Rb bl br _ _ =>
      obtain ⟨h1, h2⟩ := h
      simp only [Node.bounds?, Option.some.injEq, Prod.mk.injEq] at hb
      obtain ⟨rfl, rfl⟩ := hb
      rcases h1 with h1 | h1
      · exact absurd h1 (by simp)
      · simp only [Node.bounds?, Option.some.injEq, Prod.mk.injEq] at h1
        obtain ⟨rfl, rfl⟩ := h1
        rw [if_pos ⟨rfl, rfl⟩] at h2
        exact ⟨rfl, rfl, h2.1, h2.2⟩

theorem createdBound_le (L R l r : Int) :
    createdBound L R l r ≤ 4 * Nat.clog 2 (R - L + 1).toNat := by
  unfold createdBound
  split_ifs <;> omega

/-! ## The model with unbounded integers

The theorems of this section are about the helpers with the unbounded midpoint `mid`: they say
what the public operations do as long as no `int` computation of the code overflows. -/

/-- With unbounded integers: on the tree
`segmentTree<myData2, myTag, myUpdate, noPushDown>` constructed over `[L, R]`, every finite
sequence of in-range `replace(pos, v)`, point `modify(pos, t)` and
`query(l, r)` calls runs without error, and the `maxval` field of every query answer is the
maximum of `a[i] + ... + a[j]` over the non-empty sub-ranges `[i, j]` of `[l, r]`, for the
reference array `a` that starts all zero. -/
theorem dp_agreement (L R : Int) (t : segmentTree myData2 myTag) (ops : List DPOp)
    (hc : construct myPolicy L R = .ok t) (hin : ∀ op ∈ ops, op.inRange L R) :
    ∃ xs, runDP t ops = some xs ∧ AnswersDP (fun _ => 0) ops xs :=
  runDP_answers ops t _ L R (construct_repN myPolicy myUpdate_dval hc).1
    (construct_repN myPolicy myUpdate_dval hc).2 hin

theorem dp_agreement_witness :
    ∃ xs, runDP ⟨.node 1 10 .null .null (myData2.ofInt 0) ⟨0⟩⟩
        [.modifyAt 1 4, .replace 2 (-5), .modifyAt 3 3, .modifyAt 4 (-1), .modifyAt 5 3,
          .replace 6 (-1), .query 1 10, .query 1 3] = some xs ∧
      AnswersDP (fun _ => 0)
        [.modifyAt 1 4, .replace 2 (-5), .modifyAt 3 3, .modifyAt 4 (-1), .modifyAt 5 3,
          .replace 6 (-1), .query 1 10, .query 1 3] xs :=
  dp_agreement 1 10 _ _ (by decide) (by
    intro op hop
    simp only [List.mem_cons, List.mem_singleton, List.not_mem_nil, or_false] at hop
    rcases hop with rfl | rfl | rfl | rfl | rfl | rfl | rfl | rfl <;> simp [DPOp.inRange])

/-- With unbounded integers: for every value type with default `d` and every associative merge with
`merge(d, d) = d`, on a tree over `[L, R]` with the no-op pushdown: after any finite sequence of
in-range `replace` calls from construction (and of `query` calls in between), `query(l, r)` for
in-range `l ≤ r` returns the merge of `a[l], ..., a[r]` in increasing index order, where `a[i]`
is the value of the last `replace` at `i`, or `d` if there was none. -/
theorem query_eq_rangeFold (P : Policy V T) (L R : Int) (t : segmentTree V T)
    (ops : List (ROp V)) (l r : Int)
    (hP : P.pushdown = .noPushDown)
    (hassoc : ∀ x y z, P.update (P.update x y) z = P.update x (P.update y z))
    (hdd : P.update P.dval P.dval = P.dval)
    (hc : construct P L R = .ok t) (hin : ∀ op ∈ ops, op.inRange L R)
    (hl : L ≤ l) (hlr : l ≤ r) (hr : r ≤ R) :
    ∃ t1 t2, runROps P t ops = .ok t1 ∧
      t1.query P l r = .ok (rangeFold P.update (arrayAfter (fun _ => P.dval) ops) l r, t2) := by
  obtain ⟨h0, b0⟩ := construct_repN P hdd hc
  obtain ⟨t1, e1, b1, r1⟩ := runROps_repN hP hassoc hdd ops t _ L R h0 b0 hin
  obtain ⟨t2, e2, _⟩ := query_repN hP hassoc hdd l r r1 b1 hl hlr hr
  exact ⟨t1, t2, e1, e2⟩

theorem query_eq_rangeFold_witness :
    ∃ t1 t2, runROps myPolicy ⟨.node 1 10 .null .null (myData2.ofInt 0) ⟨0⟩⟩
        [.replace 2 (myData2.ofInt 4), .query 1 5, .replace 7 (myData2.ofInt (-3)),
          .replace 2 (myData2.ofInt 5)] = .ok t1 ∧
      t1.query myPolicy 2 8 = .ok (rangeFold myPolicy.update
        (arrayAfter (fun _ => myPolicy.dval)
          [.replace 2 (myData2.ofInt 4), .query 1 5, .replace 7 (myData2.ofInt (-3)),
            .replace 2 (myData2.ofInt 5)]) 2 8, t2) :=
  query_eq_rangeFold myPolicy 1 10 ⟨.node 1 10 .null .null (myData2.ofInt 0) ⟨0⟩⟩
    [.replace 2 (myData2.ofInt 4), .query 1 5, .replace 7 (myData2.ofInt (-3)),
      .replace 2 (myData2.ofInt 5)] 2 8
    rfl myUpdate_assoc myUpdate_dval (by decide) (by
      intro op hop
      simp only [List.mem_cons, List.mem_singleton, List.not_mem_nil, or_false] at hop
      rcases hop with rfl | rfl | rfl | rfl <;> simp [ROp.inRange])
    (by decide) (by decide) (by decide)

/-- With unbounded integers: in every state of the default sum tree reachable by `replace`/`modify`/`query`, for
in-range `l ≤ m < r`, `query(l, r) = query(l, m) + query(m+1, r)`, whichever of the states
produced by earlier queries each of the three queries is evaluated in. -/
theorem query_split (t t1 t2 t3 : segmentTree Int addTag) (L R l m r : Int)
    (hreach : Reachable defaultPolicy t) (hb : t.root.bounds? = some (L, R))
    (h1 : AfterQueries defaultPolicy t t1) (h2 : AfterQueries defaultPolicy t t2)
    (h3 : AfterQueries defaultPolicy t t3)
    (hl : L ≤ l) (hlm : l ≤ m) (hmr : m < r) (hr : r ≤ R) :
    ∃ x y z s1 s2 s3, t1.query defaultPolicy l r = .ok (x, s1) ∧
      t2.query defaultPolicy l m = .ok (y, s2) ∧
      t3.query defaultPolicy (m + 1) r = .ok (z, s3) ∧
      x = defaultPolicy.update y z ∧ x = y + z := by
  obtain ⟨a, L1, R1, hrep, hb1⟩ := reachable_rep hreach
  rw [hb] at hb1
  simp only [Option.some.injEq, Prod.mk.injEq] at hb1
  obtain ⟨rfl, rfl⟩ := hb1
  have k1 := afterQueries_rep hrep hb h1
  have k2 := afterQueries_rep hrep hb h2
  have k3 := afterQueries_rep hrep hb h3
  obtain ⟨s1, e1, _⟩ := query_rep l r k1.1 k1.2 hl (by omega) hr
  obtain ⟨s2, e2, _⟩ := query_rep l m k2.1 k2.2 hl hlm (by omega)
  obtain ⟨s3, e3, _⟩ := query_rep (m + 1) r k3.1 k3.2 (by omega) (by omega) hr
  exact ⟨_, _, _, s1, s2, s3, e1, e2, e3, rangeSum_split a hlm (by omega),
    rangeSum_split a hlm (by omega)⟩

theorem query_split_witness :
    ∃ x y z s1 s2 s3,
      (⟨.node 0 10 .null .null 0 ⟨0⟩⟩ : segmentTree Int addTag).query defaultPolicy 2 9
        = .ok (x, s1) ∧
      (⟨.node 0 10 .null .null 0 ⟨0⟩⟩ : segmentTree Int addTag).query defaultPolicy 2 4
        = .ok (y, s2) ∧
      (⟨.node 0 10 .null .null 0 ⟨0⟩⟩ : segmentTree Int addTag).query defaultPolicy (4 + 1) 9
        = .ok (z, s3) ∧
      x = defaultPolicy.update y z ∧ x = y + z :=
  query_split ⟨.node 0 10 .null .null 0 ⟨0⟩⟩ _ _ _ 0 10 2 4 9
    (@Reachable.init _ _ defaultPolicy 0 10 _ (by decide)) rfl
    AfterQueries.refl AfterQueries.refl AfterQueries.refl
    (by decide) (by decide) (by decide) (by decide)

/-- With unbounded integers: in every state of the default sum tree reachable by `replace`/`modify`/`query`, for
every tag and in-range `l ≤ m < r`, `query(l, r)` after `modify(l, r, t)` equals `query(l, r)`
after `modify(l, m, t); modify(m+1, r, t)` started from the same state. -/
theorem modify_split (t : segmentTree Int addTag) (L R l m r : Int) (tag : addTag)
    (hreach : Reachable defaultPolicy t) (hb : t.root.bounds? = some (L, R))
    (hl : L ≤ l) (hlm : l ≤ m) (hmr : m < r) (hr : r ≤ R) :
    ∃ x ta sa tb tc sc, t.modify defaultPolicy l r tag = .ok ta ∧
      ta.query defaultPolicy l r = .ok (x, sa) ∧
      t.modify defaultPolicy l m tag = .ok tb ∧
      tb.modify defaultPolicy (m + 1) r tag = .ok tc ∧
      tc.query defaultPolicy l r = .ok (x, sc) := by
  obtain ⟨a, L1, R1, hrep, hb1⟩ := reachable_rep hreach
  rw [hb] at hb1
  simp only [Option.some.injEq, Prod.mk.injEq] at hb1
  obtain ⟨rfl, rfl⟩ := hb1
  obtain ⟨ta, ea, ba, ra⟩ := modify_rep l r tag hrep hb hl (by omega) hr
  obtain ⟨sa, qa, _⟩ := query_rep l r ra ba hl (by omega) hr
  obtain ⟨tb, eb, bb, rb⟩ := modify_rep l m tag hrep hb hl hlm (by omega)
  obtain ⟨tc, ec, bc, rc⟩ := modify_rep (m + 1) r tag rb bb (by omega) (by omega) hr
  obtain ⟨sc, qc, _⟩ := query_rep l r rc bc hl (by omega) hr
  refine ⟨_, ta, sa, tb, tc, sc, ea, qa, eb, ec, ?_⟩
  rw [qc]
  have : rangeSum (addOn (addOn a l m tag.sum) (m + 1) r tag.sum) l r =
      rangeSum (addOn a l r tag.sum) l r := by
    apply rangeSum_congr
    intro i h1 h2
    simp only [addOn]
    by_cases hi : i ≤ m
    · rw [if_neg (by omega), if_pos ⟨h1, hi⟩, if_pos ⟨h1, h2⟩]
    · rw [if_pos ⟨by omega, h2⟩, if_neg (by omega), if_pos ⟨h1, h2⟩]
  rw [this]

theorem modify_split_witness :
    ∃ x ta sa tb tc sc,
      (⟨.node 0 10 .null .null 0 ⟨0⟩⟩ : segmentTree Int addTag).modify defaultPolicy 2 9 ⟨3⟩
        = .ok ta ∧
      ta.query defaultPolicy 2 9 = .ok (x, sa) ∧
      (⟨.node 0 10 .null .null 0 ⟨0⟩⟩ : segmentTree Int addTag).modify defaultPolicy 2 4 ⟨3⟩
        = .ok tb ∧
      tb.modify defaultPolicy (4 + 1) 9 ⟨3⟩ = .ok tc ∧
      tc.query defaultPolicy 2 9 = .ok (x, sc) :=
  modify_split ⟨.node 0 10 .null .null 0 ⟨0⟩⟩ 0 10 2 4 9 ⟨3⟩
    (@Reachable.init _ _ defaultPolicy 0 10 _ (by decide)) rfl
    (by decide) (by decide) (by decide) (by decide)

/-- With unbounded integers, `replace` is an overwrite. In every state of the default sum tree reachable by the
public operations (`replace`, `modify`, `query`, `clear`), for `pos` in `[L, R]`,
`replace(pos, v)` returns and the `query(pos)` issued right after it returns exactly `v`. -/
theorem replace_then_query (t : segmentTree Int addTag) (L R pos v : Int)
    (hreach : ReachableC defaultPolicy t) (hb : t.root.bounds? = some (L, R))
    (h1 : L ≤ pos) (h2 : pos ≤ R) :
    ∃ t1 t2, t.replace defaultPolicy pos v = .ok t1 ∧
      t1.queryAt defaultPolicy pos = .ok (v, t2) := by
  obtain ⟨a, L1, R1, w, hr, hb1⟩ := reachableC_rep hreach
  rw [hb] at hb1
  simp only [Option.some.injEq, Prod.mk.injEq] at hb1
  obtain ⟨rfl, rfl⟩ := hb1
  obtain ⟨t1, e1, b1, r1⟩ := replace_rep (t := ⟨t.root.setVal w⟩) pos v hr
    (by rw [setVal_bounds]; exact hb) h1 h2
  rw [replace_setVal] at e1
  obtain ⟨t2, e2, _⟩ := query_rep pos pos r1 b1 h1 (le_refl _) h2
  rw [rangeSum_single] at e2
  refine ⟨t1, t2, e1, ?_⟩
  simp only [segmentTree.queryAt, e2, setAt, if_true]

theorem replace_then_query_witness :
    ∃ t1 t2, (⟨.node 0 10 .null .null 55 ⟨5⟩⟩ : segmentTree Int addTag).replace defaultPolicy
        3 42 = .ok t1 ∧
      t1.queryAt defaultPolicy 3 = .ok (42, t2) :=
  replace_then_query ⟨.node 0 10 .null .null 55 ⟨5⟩⟩ 0 10 3 42
    (@ReachableC.modify _ _ defaultPolicy ⟨.node 0 10 .null .null 0 ⟨0⟩⟩ _ 0 10 ⟨5⟩
      (@ReachableC.init _ _ defaultPolicy 0 10 _ (by decide)) (by decide))
    rfl (by decide) (by decide)

/-- With unbounded integers: on every reachable tree over `[L, R]`, `replace(pos, v)` fails with `OutOfRange` iff
`pos < L` or `pos > R`; for `l ≤ r`, `modify(l, r, tag)` and `query(l, r)` fail with
`OutOfRange` iff `l < L` or `r > R`; otherwise each of them returns normally. -/
theorem out_of_range_iff (P : Policy V T) (t : segmentTree V T) (L R : Int)
    (hreach : ReachableC P t) (hb : t.root.bounds? = some (L, R)) :
    (∀ pos v, (t.replace P pos v = .out_of_range ↔ (pos < L ∨ pos > R)) ∧
      (¬ (pos < L ∨ pos > R) → ∃ t1, t.replace P pos v = .ok t1)) ∧
    (∀ l r tag, l ≤ r → (t.modify P l r tag = .out_of_range ↔ (l < L ∨ r > R)) ∧
      (¬ (l < L ∨ r > R) → ∃ t1, t.modify P l r tag = .ok t1)) ∧
    (∀ l r, l ≤ r → (t.query P l r = .out_of_range ↔ (l < L ∨ r > R)) ∧
      (¬ (l < L ∨ r > R) → ∃ v t1, t.query P l r = .ok (v, t1))) := by
  obtain ⟨L1, R1, hs, hb1⟩ := reachableC_shaped hreach
  rw [hb] at hb1
  simp only [Option.some.injEq, Prod.mk.injEq] at hb1
  obtain ⟨rfl, rfl⟩ := hb1
  refine ⟨fun pos v => ?_, fun l r tag hlr => ?_, fun l r hlr => ?_⟩
  · have tot : ¬ (pos < L ∨ pos > R) → ∃ t1, t.replace P pos v = .ok t1 := fun hin => by
      obtain ⟨t1, e, _⟩ := replace_total P pos v hs hb (by omega) (by omega)
      exact ⟨t1, e⟩
    refine ⟨⟨fun h => ?_, fun h => ?_⟩, tot⟩
    · by_contra hin
      obtain ⟨t1, e⟩ := tot hin
      rw [e] at h
      exact absurd h (by simp)
    · obtain ⟨root⟩ := t
      cases root with
      | null => simp [Node.bounds?] at hb
      | node L0 R0 cl cr val tg =>
        simp only [Node.bounds?, Option.some.injEq, Prod.mk.injEq] at hb
        obtain ⟨rfl, rfl⟩ := hb
        simp only [segmentTree.replace, if_pos h]
  · have tot : ¬ (l < L ∨ r > R) → ∃ t1, t.modify P l r tag = .ok t1 := fun hin => by
      obtain ⟨t1, e, _⟩ := modify_total P l r tag hs hb (by omega) hlr (by omega)
      exact ⟨t1, e⟩
    refine ⟨⟨fun h => ?_, fun h => ?_⟩, tot⟩
    · by_contra hin
      obtain ⟨t1, e⟩ := tot hin
      rw [e] at h
      exact absurd h (by simp)
    · obtain ⟨root⟩ := t
      cases root with
      | null => simp [Node.bounds?] at hb
      | node L0 R0 cl cr val tg =>
        simp only [Node.bounds?, Option.some.injEq, Prod.mk.injEq] at hb
        obtain ⟨rfl, rfl⟩ := hb
        simp only [segmentTree.modify, if_pos h]
        rw [if_neg (by omega), if_neg (by omega)]
  · have tot : ¬ (l < L ∨ r > R) → ∃ v t1, t.query P l r = .ok (v, t1) := fun hin => by
      obtain ⟨v, t1, e, _⟩ := query_total P l r hs hb (by omega) hlr (by omega)
      exact ⟨v, t1, e⟩
    refine ⟨⟨fun h => ?_, fun h => ?_⟩, tot⟩
    · by_contra hin
      obtain ⟨v, t1, e⟩ := tot hin
      rw [e] at h
      exact absurd h (by simp)
    · obtain ⟨root⟩ := t
      cases root with
      | null => simp [Node.bounds?] at hb
      | node L0 R0 cl cr val tg =>
        simp only [Node.bounds?, Option.some.injEq, Prod.mk.injEq] at hb
        obtain ⟨rfl, rfl⟩ := hb
        simp only [segmentTree.query, if_pos h]
        rw [if_neg (by omega)]

theorem out_of_range_iff_witness :
    (∀ pos v, ((⟨.node 0 10 .null .null 0 ⟨0⟩⟩ : segmentTree Int addTag).replace defaultPolicy
        pos v = .out_of_range ↔ (pos < 0 ∨ pos > 10)) ∧
      (¬ (pos < 0 ∨ pos > 10) → ∃ t1, (⟨.node 0 10 .null .null 0 ⟨0⟩⟩ :
        segmentTree Int addTag).replace defaultPolicy pos v = .ok t1)) ∧
    (∀ l r tag, l ≤ r → ((⟨.node 0 10 .null .null 0 ⟨0⟩⟩ : segmentTree Int addTag).modify
        defaultPolicy l r tag = .out_of_range ↔ (l < 0 ∨ r > 10)) ∧
      (¬ (l < 0 ∨ r > 10) → ∃ t1, (⟨.node 0 10 .null .null 0 ⟨0⟩⟩ :
        segmentTree Int addTag).modify defaultPolicy l r tag = .ok t1)) ∧
    (∀ l r, l ≤ r → ((⟨.node 0 10 .null .null 0 ⟨0⟩⟩ : segmentTree Int addTag).query
        defaultPolicy l r = .out_of_range ↔ (l < 0 ∨ r > 10)) ∧
      (¬ (l < 0 ∨ r > 10) → ∃ v t1, (⟨.node 0 10 .null .null 0 ⟨0⟩⟩ :
        segmentTree Int addTag).query defaultPolicy l r = .ok (v, t1))) :=
  out_of_range_iff defaultPolicy ⟨.node 0 10 .null .null 0 ⟨0⟩⟩ 0 10
    (@ReachableC.init _ _ defaultPolicy 0 10 _ (by decide)) rfl

/-- With unbounded integers: node invariant under the default policy. In every tree reachable from construction by
`replace`/`modify`/`query`, every in-range `replace`, `modify` and `query` call returns, and
afterwards every node the call has descended through (a visited node that is not the leaf,
respectively exact-match, stopping point) has both children, the identity tag
(`tag.sum = 0`) and `val = leftChild.val + rightChild.val`. -/
theorem path_nodes_pushed_down (t : segmentTree Int addTag) (L R : Int)
    (hreach : Reachable defaultPolicy t) (hb : t.root.bounds? = some (L, R)) :
    (∀ pos v, L ≤ pos → pos ≤ R → ∃ t1, t.replace defaultPolicy pos v = .ok t1 ∧
      visitPoint (fun m _ => ¬ m.isLeaf → PushedDown m) t1.root pos) ∧
    (∀ l r tag, L ≤ l → l ≤ r → r ≤ R → ∃ t1, t.modify defaultPolicy l r tag = .ok t1 ∧
      visitRange (fun m l r => ¬ m.spans l r → PushedDown m) t1.root l r) ∧
    (∀ l r, L ≤ l → l ≤ r → r ≤ R → ∃ x t1, t.query defaultPolicy l r = .ok (x, t1) ∧
      visitRange (fun m l r => ¬ m.spans l r → PushedDown m) t1.root l r) := by
  obtain ⟨a, L1, R1, hrep, hb1⟩ := reachable_rep hreach
  rw [hb] at hb1
  simp only [Option.some.injEq, Prod.mk.injEq] at hb1
  obtain ⟨rfl, rfl⟩ := hb1
  refine ⟨fun pos v h1 h2 => ?_, fun l r tag h1 h2 h3 => ?_, fun l r h1 h2 h3 => ?_⟩
  · obtain ⟨t1, e, _, r1⟩ := replace_rep pos v hrep hb h1 h2
    obtain ⟨fuel, ef⟩ := replace_ok_aux e
    exact ⟨t1, e, visitPoint_pushedDown _ _ _ r1 (replaceAux_cleared _ _ _ _ _ ef)⟩
  · obtain ⟨t1, e, _, r1⟩ := modify_rep l r tag hrep hb h1 h2 h3
    obtain ⟨fuel, ef⟩ := modify_ok_aux e h2
    exact ⟨t1, e, visitRange_pushedDown _ _ _ _ r1 (modifyAux_cleared _ _ _ _ _ _ ef)⟩
  · obtain ⟨t1, e, _, r1⟩ := query_rep l r hrep hb h1 h2 h3
    obtain ⟨fuel, ef⟩ := query_ok_aux e
    exact ⟨_, t1, e, visitRange_pushedDown _ _ _ _ r1 (queryAux_cleared _ _ _ _ _ _ ef)⟩

theorem path_nodes_pushed_down_witness :
    (∀ pos v, 0 ≤ pos → pos ≤ 10 → ∃ t1,
      (⟨.node 0 10 .null .null 55 ⟨5⟩⟩ : segmentTree Int addTag).replace defaultPolicy pos v
        = .ok t1 ∧
      visitPoint (fun m _ => ¬ m.isLeaf → PushedDown m) t1.root pos) ∧
    (∀ l r tag, 0 ≤ l → l ≤ r → r ≤ 10 → ∃ t1,
      (⟨.node 0 10 .null .null 55 ⟨5⟩⟩ : segmentTree Int addTag).modify defaultPolicy l r tag
        = .ok t1 ∧
      visitRange (fun m l r => ¬ m.spans l r → PushedDown m) t1.root l r) ∧
    (∀ l r, 0 ≤ l → l ≤ r → r ≤ 10 → ∃ x t1,
      (⟨.node 0 10 .null .null 55 ⟨5⟩⟩ : segmentTree Int addTag).query defaultPolicy l r
        = .ok (x, t1) ∧
      visitRange (fun m l r => ¬ m.spans l r → PushedDown m) t1.root l r) :=
  path_nodes_pushed_down ⟨.node 0 10 .null .null 55 ⟨5⟩⟩ 0 10
    (@Reachable.modify _ _ defaultPolicy ⟨.node 0 10 .null .null 0 ⟨0⟩⟩ _ 0 10 ⟨5⟩
      (@Reachable.init _ _ defaultPolicy 0 10 _ (by decide)) (by decide)) rfl

/-- With unbounded integers, `query` is observationally read-only. In every state of the default sum tree reachable
by the public operations, for in-range queries `q1 = (l1, r1)` and `q2 = (l2, r2)`, the result
of `q2` evaluated after `q1` equals the result of `q2` evaluated on the state before `q1`. -/
theorem query_read_only (t : segmentTree Int addTag) (L R l1 r1 l2 r2 : Int)
    (hreach : ReachableC defaultPolicy t) (hb : t.root.bounds? = some (L, R))
    (h1 : L ≤ l1) (h2 : l1 ≤ r1) (h3 : r1 ≤ R) (h4 : L ≤ l2) (h5 : l2 ≤ r2) (h6 : r2 ≤ R) :
    ∃ x y t1 t2 t3, t.query defaultPolicy l1 r1 = .ok (x, t1) ∧
      t1.query defaultPolicy l2 r2 = .ok (y, t2) ∧
      t.query defaultPolicy l2 r2 = .ok (y, t3) := by
  obtain ⟨a, L1, R1, w, hr, hb1⟩ := reachableC_rep hreach
  rw [hb] at hb1
  simp only [Option.some.injEq, Prod.mk.injEq] at hb1
  obtain ⟨rfl, rfl⟩ := hb1
  obtain ⟨root⟩ := t
  cases root with
  | null => simp [Node.bounds?] at hb
  | node L0 R0 cl cr val tg =>
    simp only [Node.bounds?, Option.some.injEq, Prod.mk.injEq] at hb
    obtain ⟨rfl, rfl⟩ := hb
    simp only [Node.setVal] at hr
    obtain ⟨cl1, cr1, tg1, e1, hr1⟩ := query_stale w val l1 r1 hr h1 h2 h3
    obtain ⟨cl2, cr2, tg2, e2, _⟩ := query_stale w val l2 r2 hr1 h4 h5 h6
    obtain ⟨cl3, cr3, tg3, e3, _⟩ := query_stale w val l2 r2 hr h4 h5 h6
    exact ⟨_, _, _, _, _, e1, e2, e3⟩

theorem query_read_only_witness :
    ∃ x y t1 t2 t3,
      (⟨.node 0 10 .null .null 55 ⟨5⟩⟩ : segmentTree Int addTag).query defaultPolicy 2 7
        = .ok (x, t1) ∧
      t1.query defaultPolicy 4 9 = .ok (y, t2) ∧
      (⟨.node 0 10 .null .null 55 ⟨5⟩⟩ : segmentTree Int addTag).query defaultPolicy 4 9
        = .ok (y, t3) :=
  query_read_only ⟨.node 0 10 .null .null 55 ⟨5⟩⟩ 0 10 2 7 4 9
    (@ReachableC.modify _ _ defaultPolicy ⟨.node 0 10 .null .null 0 ⟨0⟩⟩ _ 0 10 ⟨5⟩
      (@ReachableC.init _ _ defaultPolicy 0 10 _ (by decide)) (by decide))
    rfl (by decide) (by decide) (by decide) (by decide) (by decide) (by decide)

/-- With unbounded integers: well-founded descent. For all integers `a < b` the midpoint is `floor((a + b) / 2)`
and satisfies `a ≤ mid < b`, so both child intervals are non-empty and strictly narrower. On
every reachable tree over `[L, R]` (any policy), every call with arguments accepted by the
public checks returns (the recursion terminates), and on every node the helper is called on
the arguments satisfy `l ≤ r` and lie in the node's interval, and a leaf has no children (with
its arguments inside `[L, L]` it is a stopping point). -/
theorem descent_well_founded (P : Policy V T) (t : segmentTree V T) (L R : Int)
    (hreach : ReachableC P t) (hb : t.root.bounds? = some (L, R)) :
    (∀ a b : Int, a < b → mid a b = Int.fdiv (a + b) 2 ∧ a ≤ mid a b ∧ mid a b + 1 ≤ b ∧
      mid a b - a < b - a ∧ b - (mid a b + 1) < b - a) ∧
    (∀ pos v, L ≤ pos → pos ≤ R → ∃ t1, t.replace P pos v = .ok t1 ∧
      visitPoint (fun n p => argsInNode n p p) t1.root pos) ∧
    (∀ l r tag, L ≤ l → l ≤ r → r ≤ R → ∃ t1, t.modify P l r tag = .ok t1 ∧
      visitRange argsInNode t1.root l r) ∧
    (∀ l r, L ≤ l → l ≤ r → r ≤ R → ∃ x t1, t.query P l r = .ok (x, t1) ∧
      visitRange argsInNode t1.root l r) := by
  obtain ⟨L1, R1, hs, hb1⟩ := reachableC_shaped hreach
  rw [hb] at hb1
  simp only [Option.some.injEq, Prod.mk.injEq] at hb1
  obtain ⟨rfl, rfl⟩ := hb1
  refine ⟨fun a b hab => ?_, fun pos v h1 h2 => ?_, fun l r tag h1 h2 h3 => ?_,
    fun l r h1 h2 h3 => ?_⟩
  · have hm := mid_bounds hab
    refine ⟨?_, hm.1, by omega, by omega, by omega⟩
    rw [Int.fdiv_eq_ediv _ (by decide), mid_eq]
  · obtain ⟨t1, e, b1, s1⟩ := replace_total P pos v hs hb h1 h2
    obtain ⟨fuel, ef⟩ := replace_ok_aux e
    exact ⟨t1, e, grownOnPoint_visit _ _ _ _ _ s1 b1 h1 h2 (replaceAux_grown _ _ _ _ _ _ ef)⟩
  · obtain ⟨t1, e, b1, s1⟩ := modify_total P l r tag hs hb h1 h2 h3
    obtain ⟨fuel, ef⟩ := modify_ok_aux e h2
    exact ⟨t1, e,
      grownOnRange_visit _ _ _ _ _ _ s1 b1 h1 h2 h3 (modifyAux_grown _ _ _ _ _ _ _ ef)⟩
  · obtain ⟨x, t1, e, b1, s1⟩ := query_total P l r hs hb h1 h2 h3
    obtain ⟨fuel, ef⟩ := query_ok_aux e
    exact ⟨x, t1, e,
      grownOnRange_visit _ _ _ _ _ _ s1 b1 h1 h2 h3 (queryAux_grown _ _ _ _ _ _ _ ef)⟩

theorem descent_well_founded_witness :
    (∀ a b : Int, a < b → mid a b = Int.fdiv (a + b) 2 ∧ a ≤ mid a b ∧ mid a b + 1 ≤ b ∧
      mid a b - a < b - a ∧ b - (mid a b + 1) < b - a) ∧
    (∀ pos v, -3 ≤ pos → pos ≤ 10 → ∃ t1,
      (⟨.node (-3) 10 .null .null 0 ⟨0⟩⟩ : segmentTree Int addTag).replace defaultPolicy pos v
        = .ok t1 ∧
      visitPoint (fun n p => argsInNode n p p) t1.root pos) ∧
    (∀ l r tag, -3 ≤ l → l ≤ r → r ≤ 10 → ∃ t1,
      (⟨.node (-3) 10 .null .null 0 ⟨0⟩⟩ : segmentTree Int addTag).modify defaultPolicy l r tag
        = .ok t1 ∧
      visitRange argsInNode t1.root l r) ∧
    (∀ l r, -3 ≤ l → l ≤ r → r ≤ 10 → ∃ x t1,
      (⟨.node (-3) 10 .null .null 0 ⟨0⟩⟩ : segmentTree Int addTag).query defaultPolicy l r
        = .ok (x, t1) ∧
      visitRange argsInNode t1.root l r) :=
  descent_well_founded defaultPolicy ⟨.node (-3) 10 .null .null 0 ⟨0⟩⟩ (-3) 10
    (@ReachableC.init _ _ defaultPolicy (-3) 10 _ (by decide)) rfl

/-- For 32-bit `L < R` whose sum `L + R` is representable as a 32-bit signed
int, the midpoint computed in 32-bit arithmetic equals `floor((L + R) / 2)`, agrees with the
midpoint of the unbounded model, and satisfies `L ≤ mid < R`. -/
theorem mid32_correct (L R : Int) (hlt : L < R)
    (hlo : -2147483648 ≤ L + R) (hhi : L + R ≤ 2147483647) :
    mid32 L R = (L + R) / 2 ∧ mid32 L R = mid L R ∧ L ≤ mid32 L R ∧ mid32 L R < R := by
  have hw : wrap32 (L + R) = L + R := by
    unfold wrap32
    omega
  have h1 : mid32 L R = mid L R := by
    unfold mid32 mid
    rw [hw]
  have h2 := mid_bounds hlt
  rw [h1, mid_eq]
  rw [mid_eq] at h2
  exact ⟨rfl, rfl, h2.1, h2.2⟩

theorem mid32_correct_witness :
    mid32 (-100000000) 100000000 = (-100000000 + 100000000) / 2 ∧
      mid32 (-100000000) 100000000 = mid (-100000000) 100000000 ∧
      -100000000 ≤ mid32 (-100000000) 100000000 ∧ mid32 (-100000000) 100000000 < 100000000 :=
  mid32_correct (-100000000) 100000000 (by decide) (by decide) (by decide)

/-- With unbounded integers: sparse materialization. On a reachable tree over `[L, R]` (any policy), every in-range
call returns; a `replace` adds at most `2 * ceil(log2(R - L + 1))` nodes and a `modify` or
`query` at most `4 * ceil(log2(R - L + 1))`; no node is removed; nodes are created only as
children of nodes the call descends through; and a `modify` or `query` whose range is the root
interval creates no node. -/
theorem sparse_materialization (P : Policy V T) (t : segmentTree V T) (L R : Int)
    (hreach : ReachableC P t) (hb : t.root.bounds? = some (L, R)) :
    (∀ pos v, L ≤ pos → pos ≤ R → ∃ t1, t.replace P pos v = .ok t1 ∧
      nodeCount t1.root ≤ nodeCount t.root + 2 * Nat.clog 2 (R - L + 1).toNat ∧
      keepsNodes t.root t1.root ∧ grownOnPoint t.root t1.root pos) ∧
    (∀ l r tag, L ≤ l → l ≤ r → r ≤ R → ∃ t1, t.modify P l r tag = .ok t1 ∧
      nodeCount t1.root ≤ nodeCount t.root + 4 * Nat.clog 2 (R - L + 1).toNat ∧
      keepsNodes t.root t1.root ∧ grownOnRange t.root t1.root l r ∧
      (l = L ∧ r = R → sameNodes t.root t1.root ∧ nodeCount t1.root = nodeCount t.root)) ∧
    (∀ l r, L ≤ l → l ≤ r → r ≤ R → ∃ x t1, t.query P l r = .ok (x, t1) ∧
      nodeCount t1.root ≤ nodeCount t.root + 4 * Nat.clog 2 (R - L + 1).toNat ∧
      keepsNodes t.root t1.root ∧ grownOnRange t.root t1.root l r ∧
      (l = L ∧ r = R → sameNodes t.root t1.root ∧ nodeCount t1.root = nodeCount t.root)) := by
  obtain ⟨L1, R1, hs, hb1⟩ := reachableC_shaped hreach
  rw [hb] at hb1
  simp only [Option.some.injEq, Prod.mk.injEq] at hb1
  obtain ⟨rfl, rfl⟩ := hb1
  have hpos : 1 ≤ nodeCount t.root := by
    cases ht : t.root with
    | null => rw [ht] at hb; simp [Node.bounds?] at hb
    | node _ _ _ _ _ _ => simp only [nodeCount]; omega
  refine ⟨fun pos v h1 h2 => ?_, fun l r tag h1 h2 h3 => ?_, fun l r h1 h2 h3 => ?_⟩
  · obtain ⟨t1, e, b1, s1⟩ := replace_total P pos v hs hb h1 h2
    obtain ⟨fuel, ef⟩ := replace_ok_aux e
    have hg := replaceAux_grown _ _ _ _ _ _ ef
    have hc := grownOnPoint_count _ _ _ _ _ s1 b1 hg
    exact ⟨t1, e, by omega, grownOnPoint_keeps _ _ _ hg, hg⟩
  · obtain ⟨t1, e, b1, s1⟩ := modify_total P l r tag hs hb h1 h2 h3
    obtain ⟨fuel, ef⟩ := modify_ok_aux e h2
    have hg := modifyAux_grown _ _ _ _ _ _ _ ef
    have hc := grownOnRange_count _ _ _ _ _ _ s1 b1 h1 h2 h3 hg
    have hle := createdBound_le L R l r
    refine ⟨t1, e, by omega, grownOnRange_keeps _ _ _ _ hg, hg, fun he => ?_⟩
    obtain ⟨rfl, rfl⟩ := he
    have hsn := grownOnRange_exact hb hg
    exact ⟨hsn, sameNodes_count hsn⟩
  · obtain ⟨x, t1, e, b1, s1⟩ := query_total P l r hs hb h1 h2 h3
    obtain ⟨fuel, ef⟩ := query_ok_aux e
    have hg := queryAux_grown _ _ _ _ _ _ _ ef
    have hc := grownOnRange_count _ _ _ _ _ _ s1 b1 h1 h2 h3 hg
    have hle := createdBound_le L R l r
    refine ⟨x, t1, e, by omega, grownOnRange_keeps _ _ _ _ hg, hg, fun he => ?_⟩
    obtain ⟨rfl, rfl⟩ := he
    have hsn := grownOnRange_exact hb hg
    exact ⟨hsn, sameNodes_count hsn⟩

theorem sparse_materialization_witness :
    (∀ pos v, 0 ≤ pos → pos ≤ 10 → ∃ t1,
      (⟨.node 0 10 .null .null 0 ⟨0⟩⟩ : segmentTree Int addTag).replace
        defaultPolicy pos v = .ok t1 ∧
      nodeCount t1.root ≤
        nodeCount (⟨.node 0 10 .null .null 0 ⟨0⟩⟩ : segmentTree Int addTag).root
        + 2 * Nat.clog 2 ((10 : Int) - 0 + 1).toNat ∧
      keepsNodes (⟨.node 0 10 .null .null 0 ⟨0⟩⟩ : segmentTree Int addTag).root t1.root ∧
      grownOnPoint (⟨.node 0 10 .null .null 0 ⟨0⟩⟩ : segmentTree Int addTag).root
        t1.root pos) ∧
    (∀ l r tag, 0 ≤ l → l ≤ r → r ≤ 10 → ∃ t1,
      (⟨.node 0 10 .null .null 0 ⟨0⟩⟩ : segmentTree Int addTag).modify
        defaultPolicy l r tag = .ok t1 ∧
      nodeCount t1.root ≤
        nodeCount (⟨.node 0 10 .null .null 0 ⟨0⟩⟩ : segmentTree Int addTag).root
        + 4 * Nat.clog 2 ((10 : Int) - 0 + 1).toNat ∧
      keepsNodes (⟨.node 0 10 .null .null 0 ⟨0⟩⟩ : segmentTree Int addTag).root t1.root ∧
      grownOnRange (⟨.node 0 10 .null .null 0 ⟨0⟩⟩ : segmentTree Int addTag).root
        t1.root l r ∧
      (l = 0 ∧ r = 10 →
        sameNodes (⟨.node 0 10 .null .null 0 ⟨0⟩⟩ : segmentTree Int addTag).root t1.root ∧
        nodeCount t1.root
          = nodeCount (⟨.node 0 10 .null .null 0 ⟨0⟩⟩ : segmentTree Int addTag).root)) ∧
    (∀ l r, 0 ≤ l → l ≤ r → r ≤ 10 → ∃ x t1,
      (⟨.node 0 10 .null .null 0 ⟨0⟩⟩ : segmentTree Int addTag).query
        defaultPolicy l r = .ok (x, t1) ∧
      nodeCount t1.root ≤
        nodeCount (⟨.node 0 10 .null .null 0 ⟨0⟩⟩ : segmentTree Int addTag).root
        + 4 * Nat.clog 2 ((10 : Int) - 0 + 1).toNat ∧
      keepsNodes (⟨.node 0 10 .null .null 0 ⟨0⟩⟩ : segmentTree Int addTag).root t1.root ∧
      grownOnRange (⟨.node 0 10 .null .null 0 ⟨0⟩⟩ : segmentTree Int addTag).root
        t1.root l r ∧
      (l = 0 ∧ r = 10 →
        sameNodes (⟨.node 0 10 .null .null 0 ⟨0⟩⟩ : segmentTree Int addTag).root t1.root ∧
        nodeCount t1.root
          = nodeCount (⟨.node 0 10 .null .null 0 ⟨0⟩⟩ : segmentTree Int addTag).root)) :=
  sparse_materialization defaultPolicy ⟨.node 0 10 .null .null 0 ⟨0⟩⟩ 0 10
    (@ReachableC.init _ _ defaultPolicy 0 10 _ (by decide)) rfl

/-! ## The helpers in 32-bit arithmetic -/

theorem mid32_eq (L R : Int) : mid32 L R = wrap32 (L + R) / 2 := by
  unfold mid32
  rw [Int.shiftRight_eq_div_pow]
  norm_num

theorem mid32_range (L R : Int) : -1073741824 ≤ mid32 L R ∧ mid32 L R ≤ 1073741823 := by
  rw [mid32_eq]
  unfold wrap32
  omega

theorem wrap32_of_fits {x : Int} (h : FitsInt x) : wrap32 x = x := by
  obtain ⟨h1, h2⟩ := h
  unfold wrap32
  omega

theorem wrap32_mid32_succ (L R : Int) : wrap32 (mid32 L R + 1) = mid32 L R + 1 := by
  have h := mid32_range L R
  unfold wrap32
  omega

/-- The right child prepared by a descent from a node without children is a node without
children over `[a, R]`. -/
theorem descend_fresh_right (P : Policy V T) (tag : T) (L m a R : Int) :
    ∃ val2 tag2, (pushdownStep P tag (check P .null L m) (check P .null a R)).2.2 =
      .node a R .null .null val2 tag2 := by
  unfold pushdownStep
  cases P.pushdown
  · exact ⟨_, _, rfl⟩
  · exact ⟨_, _, rfl⟩

/-- Helper `replace` in 32-bit arithmetic never reaches a position above `2^30` from a node
without children whose left end is at most `2^30`: the left end of the right child,
`mid32 + 1`, is at most `2^30` again. -/
theorem replaceAux32_diverges (P : Policy V T) (fuel : Nat) :
    ∀ (a b : Int) (val : V) (tag : T) (pos : Int) (v : V),
      a ≤ 1073741824 → 1073741824 < pos → pos ≤ b →
      replaceAux32 P fuel (.node a b .null .null val tag) pos v = none := by
  induction fuel with
  | zero => intro a b val tag pos v _ _ _; rfl
  | succ fuel ih =>
    intro a b val tag pos v ha hp hb
    have hm := mid32_range a b
    unfold replaceAux32
    rw [if_neg (by omega)]
    simp only []
    rw [if_neg (by omega)]
    obtain ⟨val2, tag2, e⟩ := descend_fresh_right P tag a (mid32 a b) (wrap32 (mid32 a b + 1)) b
    rw [e, ih _ b val2 tag2 pos v (by rw [wrap32_mid32_succ]; omega) hp hb]

/-- Helper `modify` in 32-bit arithmetic never returns on a range that starts above `2^30`,
started at a node without children whose left end is at most `2^30`. -/
theorem modifyAux32_diverges (P : Policy V T) (fuel : Nat) :
    ∀ (a b : Int) (val : V) (tag : T) (l r : Int) (t : T),
      a ≤ 1073741824 → 1073741824 < l → l ≤ r →
      modifyAux32 P fuel (.node a b .null .null val tag) l r t = none := by
  induction fuel with
  | zero => intro a b val tag l r t _ _ _; rfl
  | succ fuel ih =>
    intro a b val tag l r t ha hl hr
    have hm := mid32_range a b
    unfold modifyAux32
    rw [if_neg (by omega)]
    simp only []
    rw [if_neg (by omega), if_pos (by omega)]
    obtain ⟨val2, tag2, e⟩ := descend_fresh_right P tag a (mid32 a b) (wrap32 (mid32 a b + 1)) b
    rw [e, ih _ b val2 tag2 l r t (by rw [wrap32_mid32_succ]; omega) hl hr]

/-- Helper `query` in 32-bit arithmetic never returns on a range that starts above `2^30`,
started at a node without children whose left end is at most `2^30`. -/
theorem queryAux32_diverges (P : Policy V T) (fuel : Nat) :
    ∀ (a b : Int) (val : V) (tag : T) (l r : Int),
      a ≤ 1073741824 → 1073741824 < l → l ≤ r →
      queryAux32 P fuel (.node a b .null .null val tag) l r = none := by
  induction fuel with
  | zero => intro a b val tag l r _ _ _; rfl
  | succ fuel ih =>
    intro a b val tag l r ha hl hr
    have hm := mid32_range a b
    unfold queryAux32
    rw [if_neg (by omega)]
    simp only []
    rw [if_neg (by omega), if_pos (by omega)]
    obtain ⟨val2, tag2, e⟩ := descend_fresh_right P tag a (mid32 a b) (wrap32 (mid32 a b + 1)) b
    rw [e, ih _ b val2 tag2 l r (by rw [wrap32_mid32_succ]; omega) hl hr]

/-- Public `replace` in 32-bit arithmetic does not return for a position above `2^30` on a tree
whose root has no children and starts at or below `2^30`. -/
theorem replace32_stuck (P : Policy V T) (fuel : Nat) (a b : Int) (val : V) (tag : T)
    (pos : Int) (v : V) (ha : a ≤ 1073741824) (hp : 1073741824 < pos) (hb : pos ≤ b) :
    (⟨.node a b .null .null val tag⟩ : segmentTree V T).replace32 P fuel pos v = .stuck := by
  unfold segmentTree.replace32
  simp only []
  rw [if_neg (by omega), replaceAux32_diverges P fuel a b val tag pos v ha hp hb]

/-- Public `modify` in 32-bit arithmetic does not return for a range starting above `2^30` on a
tree whose root has no children and starts at or below `2^30` (`r` is an `int`). -/
theorem modify32_stuck (P : Policy V T) (fuel : Nat) (a b : Int) (val : V) (tag : T)
    (l r : Int) (t : T) (ha : a ≤ 1073741824) (hl : 1073741824 < l) (hr : l ≤ r)
    (hb : r ≤ b) (hint : r ≤ 2147483647) :
    (⟨.node a b .null .null val tag⟩ : segmentTree V T).modify32 P fuel l r t = .stuck := by
  unfold segmentTree.modify32
  have hw : ¬ l = wrap32 (r + 1) := by
    unfold wrap32
    omega
  rw [if_neg hw, if_neg (by omega)]
  simp only []
  rw [if_neg (by omega), modifyAux32_diverges P fuel a b val tag l r t ha hl hr]

/-- Public `query` in 32-bit arithmetic does not return for a range starting above `2^30` on a
tree whose root has no children and starts at or below `2^30`. -/
theorem query32_stuck (P : Policy V T) (fuel : Nat) (a b : Int) (val : V) (tag : T)
    (l r : Int) (ha : a ≤ 1073741824) (hl : 1073741824 < l) (hr : l ≤ r) (hb : r ≤ b) :
    (⟨.node a b .null .null val tag⟩ : segmentTree V T).query32 P fuel l r = .stuck := by
  unfold segmentTree.query32
  rw [if_neg (by omega)]
  simp only []
  rw [if_neg (by omega), queryAux32_diverges P fuel a b val tag l r ha hl hr]

theorem clog_int_max : Nat.clog 2 2147483647 = 31 := by
  have h1 : Nat.clog 2 2147483647 ≤ 31 :=
    (Nat.le_pow_iff_clog_le (by decide)).mp (by norm_num)
  have h2 : 30 < Nat.clog 2 2147483647 :=
    (Nat.pow_lt_iff_lt_clog (by decide)).mp (by norm_num)
  omega

/-! ## Node invariant of the default tree in 32-bit arithmetic -/

theorem wrap32_cast (a : Int) :
    ((wrap32 a : Int) : ZMod 4294967296) = (a : ZMod 4294967296) := by
  have h : wrap32 a = a - 4294967296 * ((a + 2147483648) / 4294967296) := by
    unfold wrap32
    omega
  rw [h]
  push_cast
  have z : (4294967296 : ZMod 4294967296) = 0 := by
    exact_mod_cast ZMod.natCast_self 4294967296
  rw [z]
  ring

theorem wrap32_congr {a b : Int}
    (h : ((a : Int) : ZMod 4294967296) = ((b : Int) : ZMod 4294967296)) :
    wrap32 a = wrap32 b := by
  have h1 := (ZMod.intCast_eq_intCast_iff a b 4294967296).mp h
  have h2 : a % 4294967296 = b % 4294967296 := h1
  unfold wrap32
  omega

theorem Inv32_fresh (a b : Int) : Inv32 (.node a b .null .null 0 ⟨0⟩) :=
  ⟨trivial, trivial, Or.inl ⟨rfl, rfl, fun _ => by simp [wrap32]⟩⟩

/-- The call `tag(t, data)` of the default policy keeps the invariant. -/
theorem applyTag32_inv (t : addTag) (a b : Int) (x y : Node Int addTag) (nv : Int)
    (nt : addTag) (h : Inv32 (.node a b x y nv nt)) :
    Inv32 (.node a b x y (wrap32 (nv + wrap32 (t.sum * wrap32 (wrap32 (b - a) + 1))))
      ⟨wrap32 (nt.sum + t.sum)⟩) := by
  obtain ⟨hx, hy, hk⟩ := h
  refine ⟨hx, hy, ?_⟩
  rcases hk with ⟨e1, e2, hv⟩ | ⟨hne, hb1, hb2, lv, rv, hl, hr, hv⟩
  · refine Or.inl ⟨e1, e2, fun hne => ?_⟩
    rw [hv hne]
    apply wrap32_congr
    push_cast [wrap32_cast]
    ring
  · refine Or.inr ⟨hne, hb1, hb2, lv, rv, hl, hr, ?_⟩
    rw [hv]
    apply wrap32_congr
    push_cast [wrap32_cast]
    ring

/-- After `check`, `check` and `pushdown` on a node that is not a leaf: the tag is cleared, both
children exist over `[L, mid]` and `[mid+1, R]`, they satisfy the invariant, and the value of
the node is the wrapped sum of their values. -/
theorem descend32_inv {L R : Int} {l r : Node Int addTag} {val : Int} {tag : addTag}
    (h : Inv32 (.node L R l r val tag)) (hne : L ≠ R) :
    ∃ la lb lv lt ra rb rv rt,
      pushdownStep defaultPolicy32 tag (check defaultPolicy32 l L (mid32 L R))
          (check defaultPolicy32 r (wrap32 (mid32 L R + 1)) R)
        = (⟨0⟩, .node L (mid32 L R) la lb lv lt, .node (mid32 L R + 1) R ra rb rv rt) ∧
      Inv32 (.node L (mid32 L R) la lb lv lt) ∧
      Inv32 (.node (mid32 L R + 1) R ra rb rv rt) ∧
      val = wrap32 (lv + rv) := by
  rw [wrap32_mid32_succ]
  obtain ⟨hl, hr, hk⟩ := h
  rcases hk with ⟨rfl, rfl, hv⟩ | ⟨_, hbl, hbr, lv, rv, hlv, hrv, hv⟩
  · refine ⟨.null, .null, _, _, .null, .null, _, _, rfl,
      applyTag32_inv tag _ _ _ _ _ _ (Inv32_fresh _ _),
      applyTag32_inv tag _ _ _ _ _ _ (Inv32_fresh _ _), ?_⟩
    rw [hv hne]
    simp only [defaultPolicy32, addTag.apply32]
    apply wrap32_congr
    push_cast [wrap32_cast]
    ring
  · cases l with
    | null => exact absurd hbl (by simp [Node.bounds?])
    | node a b la lb lv0 lt =>
      cases r with
      | null => exact absurd hbr (by simp [Node.bounds?])
      | node c d ra rb rv0 rt =>
        simp only [Node.bounds?, Option.some.injEq, Prod.mk.injEq] at hbl hbr
        obtain ⟨rfl, rfl⟩ := hbl
        obtain ⟨rfl, rfl⟩ := hbr
        simp only [Node.val?, Option.some.injEq] at hlv hrv
        subst hlv hrv
        refine ⟨la, lb, _, _, ra, rb, _, _, rfl,
          applyTag32_inv tag _ _ _ _ _ _ hl, applyTag32_inv tag _ _ _ _ _ _ hr, ?_⟩
        rw [hv]
        simp only [defaultPolicy32, addTag.apply32]
        apply wrap32_congr
        push_cast [wrap32_cast]
        ring

theorem replaceAux32_inv (fuel : Nat) : ∀ (n n1 : Node Int addTag) (pos v : Int),
    Inv32 n → replaceAux32 defaultPolicy32 fuel n pos v = some n1 →
    Inv32 n1 ∧ n1.bounds? = n.bounds? ∧
      visitPoint32 (fun m _ => ¬ m.isLeaf → PushedDown32 m) n1 pos := by
  induction fuel with
  | zero => intro n n1 pos v _ h; exact absurd h (by simp [replaceAux32])
  | succ fuel ih =>
    intro n n1 pos v hinv h
    cases n with
    | null => exact absurd h (by simp [replaceAux32])
    | node L R l r val tag =>
      rw [replaceAux32] at h
      by_cases hLR : L = R
      · simp only [if_pos hLR, Option.some.injEq] at h
        subst h
        obtain ⟨hl, hr, hk⟩ := hinv
        refine ⟨⟨hl, hr, ?_⟩, rfl, fun hn => absurd hLR hn, fun hn => absurd hLR hn⟩
        rcases hk with ⟨e1, e2, _⟩ | ⟨hne, _⟩
        · exact Or.inl ⟨e1, e2, fun hne => absurd hLR hne⟩
        · exact absurd hLR hne
      · simp only [if_neg hLR] at h
        obtain ⟨la, lb, lv, lt, ra, rb, rv, rt, ep, il, ir, hv⟩ := descend32_inv hinv hLR
        rw [ep] at h
        simp only [] at h
        by_cases hp : pos ≤ mid32 L R
        · simp only [if_pos hp] at h
          cases e : replaceAux32 defaultPolicy32 fuel (.node L (mid32 L R) la lb lv lt) pos v with
          | none => rw [e] at h; exact absurd h (by simp)
          | some l3 =>
            rw [e] at h
            obtain ⟨i3, b3, v3⟩ := ih _ _ _ _ il e
            cases l3 with
            | null => exact absurd b3 (by simp [Node.bounds?])
            | node a b x y w s =>
              simp only [Node.bounds?, Option.some.injEq, Prod.mk.injEq] at b3
              obtain ⟨rfl, rfl⟩ := b3
              simp only [rebuild, Node.val?, Option.some.injEq] at h
              subst h
              refine ⟨⟨i3, ir, Or.inr ⟨hLR, rfl, rfl, w, rv, rfl, rfl, ?_⟩⟩, rfl,
                fun _ => ⟨w, rv, rfl, rfl, rfl, rfl, fun h => wrap32_of_fits h⟩, fun _ => ?_⟩
              · simp [defaultPolicy32, addUpdate32]
              · rw [if_pos hp]
                exact v3
        · simp only [if_neg hp] at h
          cases e : replaceAux32 defaultPolicy32 fuel (.node (mid32 L R + 1) R ra rb rv rt)
            pos v with
          | none => rw [e] at h; exact absurd h (by simp)
          | some r3 =>
            rw [e] at h
            obtain ⟨i3, b3, v3⟩ := ih _ _ _ _ ir e
            cases r3 with
            | null => exact absurd b3 (by simp [Node.bounds?])
            | node a b x y w s =>
              simp only [Node.bounds?, Option.some.injEq, Prod.mk.injEq] at b3
              obtain ⟨rfl, rfl⟩ := b3
              simp only [rebuild, Node.val?, Option.some.injEq] at h
              subst h
              refine ⟨⟨il, i3, Or.inr ⟨hLR, rfl, rfl, lv, w, rfl, rfl, ?_⟩⟩, rfl,
                fun _ => ⟨lv, w, rfl, rfl, rfl, rfl, fun h => wrap32_of_fits h⟩, fun _ => ?_⟩
              · simp [defaultPolicy32, addUpdate32]
              · rw [if_neg hp]
                exact v3

theorem modifyAux32_inv (fuel : Nat) : ∀ (n n1 : Node Int addTag) (L R ml mr : Int)
    (t : addTag), Inv32 n → n.bounds? = some (L, R) → L ≤ ml → ml ≤ mr → mr ≤ R →
    modifyAux32 defaultPolicy32 fuel n ml mr t = some n1 →
    Inv32 n1 ∧ n1.bounds? = some (L, R) ∧
      visitRange32 (fun m l r => ¬ m.spans l r → PushedDown32 m) n1 ml mr := by
  induction fuel with
  | zero => intro n n1 L R ml mr t _ _ _ _ _ h; exact absurd h (by simp [modifyAux32])
  | succ fuel ih =>
    intro n n1 L R ml mr t hinv hb h1 h2 h3 h
    cases n with
    | null => exact absurd h (by simp [modifyAux32])
    | node L0 R0 l r val tag =>
      simp only [Node.bounds?, Option.some.injEq, Prod.mk.injEq] at hb
      obtain ⟨rfl, rfl⟩ := hb
      rw [modifyAux32] at h
      by_cases hex : L0 = ml ∧ R0 = mr
      · simp only [if_pos hex, Option.some.injEq] at h
        subst h
        exact ⟨applyTag32_inv t _ _ _ _ _ _ hinv, rfl, fun hn => absurd hex hn,
          fun hn => absurd hex hn⟩
      · simp only [if_neg hex] at h
        have hLR : L0 ≠ R0 := by
          intro e
          exact hex ⟨by omega, by omega⟩
        obtain ⟨la, lb, lv, lt, ra, rb, rv, rt, ep, il, ir, hv⟩ := descend32_inv hinv hLR
        rw [ep] at h
        simp only [wrap32_mid32_succ] at h
        by_cases hp : mr ≤ mid32 L0 R0
        · simp only [if_pos hp] at h
          cases e : modifyAux32 defaultPolicy32 fuel (.node L0 (mid32 L0 R0) la lb lv lt)
            ml mr t with
          | none => rw [e] at h; exact absurd h (by simp)
          | some l3 =>
            rw [e] at h
            obtain ⟨i3, b3, v3⟩ := ih _ _ _ _ _ _ _ il rfl h1 h2 hp e
            cases l3 with
            | null => exact absurd b3 (by simp [Node.bounds?])
            | node a b x y w s =>
              simp only [Node.bounds?, Option.some.injEq, Prod.mk.injEq] at b3
              obtain ⟨rfl, rfl⟩ := b3
              simp only [rebuild, Node.val?, Option.some.injEq] at h
              subst h
              refine ⟨⟨i3, ir, Or.inr ⟨hLR, rfl, rfl, w, rv, rfl, rfl, ?_⟩⟩, rfl,
                fun _ => ⟨w, rv, rfl, rfl, rfl, rfl, fun h => wrap32_of_fits h⟩, fun _ => ?_⟩
              · simp [defaultPolicy32, addUpdate32]
              · rw [if_pos hp]
                exact v3
        · simp only [if_neg hp] at h
          by_cases hq : ml > mid32 L0 R0
          · simp only [if_pos hq] at h
            cases e : modifyAux32 defaultPolicy32 fuel
              (.node (mid32 L0 R0 + 1) R0 ra rb rv rt) ml mr t with
            | none => rw [e] at h; exact absurd h (by simp)
            | some r3 =>
              rw [e] at h
              obtain ⟨i3, b3, v3⟩ := ih _ _ _ _ _ _ _ ir rfl (by omega) h2 h3 e
              cases r3 with
              | null => exact absurd b3 (by simp [Node.bounds?])
              | node a b x y w s =>
                simp only [Node.bounds?, Option.some.injEq, Prod.mk.injEq] at b3
                obtain ⟨rfl, rfl⟩ := b3
                simp only [rebuild, Node.val?, Option.some.injEq] at h
                subst h
                refine ⟨⟨il, i3, Or.inr ⟨hLR, rfl, rfl, lv, w, rfl, rfl, ?_⟩⟩, rfl,
                  fun _ => ⟨lv, w, rfl, rfl, rfl, rfl, fun h => wrap32_of_fits h⟩, fun _ => ?_⟩
                · simp [defaultPolicy32, addUpdate32]
                · rw [if_neg hp, if_pos hq]
                  exact v3
          · simp only [if_neg hq] at h
            cases e1 : modifyAux32 defaultPolicy32 fuel (.node L0 (mid32 L0 R0) la lb lv lt)
              ml (mid32 L0 R0) t with
            | none => rw [e1] at h; exact absurd h (by simp)
            | some l3 =>
              cases e2 : modifyAux32 defaultPolicy32 fuel
                (.node (mid32 L0 R0 + 1) R0 ra rb rv rt) (mid32 L0 R0 + 1) mr t with
              | none => rw [e1, e2] at h; exact absurd h (by simp)
              | some r3 =>
                rw [e1, e2] at h
                obtain ⟨i3, b3, v3⟩ := ih _ _ _ _ _ _ _ il rfl h1 (by omega) (le_refl _) e1
                obtain ⟨i4, b4, v4⟩ := ih _ _ _ _ _ _ _ ir rfl (le_refl _) (by omega) h3 e2
                cases l3 with
                | null => exact absurd b3 (by simp [Node.bounds?])
                | node a b x y w s =>
                  cases r3 with
                  | null => exact absurd b4 (by simp [Node.bounds?])
                  | node a1 b1 x1 y1 w1 s1 =>
                    simp only [Node.bounds?, Option.some.injEq, Prod.mk.injEq] at b3 b4
                    obtain ⟨rfl, rfl⟩ := b3
                    obtain ⟨rfl, rfl⟩ := b4
                    simp only [rebuild, Node.val?, Option.some.injEq] at h
                    subst h
                    refine ⟨⟨i3, i4, Or.inr ⟨hLR, rfl, rfl, w, w1, rfl, rfl, ?_⟩⟩, rfl,
                      fun _ => ⟨w, w1, rfl, rfl, rfl, rfl, fun h => wrap32_of_fits h⟩, fun _ => ?_⟩
                    · simp [defaultPolicy32, addUpdate32]
                    · rw [if_neg hp, if_neg hq, wrap32_mid32_succ]
                      exact ⟨v3, v4⟩

theorem queryAux32_inv (fuel : Nat) : ∀ (n n1 : Node Int addTag) (L R ql qr x : Int),
    Inv32 n → n.bounds? = some (L, R) → L ≤ ql → ql ≤ qr → qr ≤ R →
    queryAux32 defaultPolicy32 fuel n ql qr = some (x, n1) →
    Inv32 n1 ∧ n1.bounds? = some (L, R) ∧ n1.val? = n.val? ∧
      visitRange32 (fun m l r => ¬ m.spans l r → PushedDown32 m) n1 ql qr := by
  induction fuel with
  | zero => intro n n1 L R ql qr x _ _ _ _ _ h; exact absurd h (by simp [queryAux32])
  | succ fuel ih =>
    intro n n1 L R ql qr x hinv hb h1 h2 h3 h
    cases n with
    | null => exact absurd h (by simp [queryAux32])
    | node L0 R0 l r val tag =>
      simp only [Node.bounds?, Option.some.injEq, Prod.mk.injEq] at hb
      obtain ⟨rfl, rfl⟩ := hb
      rw [queryAux32] at h
      by_cases hex : L0 = ql ∧ R0 = qr
      · simp only [if_pos hex, Option.some.injEq, Prod.mk.injEq] at h
        obtain ⟨_, rfl⟩ := h
        exact ⟨hinv, rfl, rfl, fun hn => absurd hex hn, fun hn => absurd hex hn⟩
      · simp only [if_neg hex] at h
        have hLR : L0 ≠ R0 := by
          intro e
          exact hex ⟨by omega, by omega⟩
        obtain ⟨la, lb, lv, lt, ra, rb, rv, rt, ep, il, ir, hv⟩ := descend32_inv hinv hLR
        rw [ep] at h
        simp only [wrap32_mid32_succ] at h
        by_cases hp : qr ≤ mid32 L0 R0
        · simp only [if_pos hp] at h
          cases e : queryAux32 defaultPolicy32 fuel (.node L0 (mid32 L0 R0) la lb lv lt)
            ql qr with
          | none => rw [e] at h; exact absurd h (by simp)
          | some res =>
            obtain ⟨y, l3⟩ := res
            rw [e] at h
            obtain ⟨i3, b3, w3, v3⟩ := ih _ _ _ _ _ _ _ il rfl h1 h2 hp e
            cases l3 with
            | null => exact absurd b3 (by simp [Node.bounds?])
            | node a b x1 y1 w s =>
              simp only [Node.bounds?, Option.some.injEq, Prod.mk.injEq] at b3
              obtain ⟨rfl, rfl⟩ := b3
              simp only [Node.val?, Option.some.injEq] at w3
              subst w3
              simp only [Option.some.injEq, Prod.mk.injEq] at h
              obtain ⟨_, rfl⟩ := h
              refine ⟨⟨i3, ir, Or.inr ⟨hLR, rfl, rfl, w, rv, rfl, rfl, ?_⟩⟩, rfl, rfl,
                fun _ => ⟨w, rv, rfl, rfl, rfl, hv, fun h => hv.trans (wrap32_of_fits h)⟩, fun _ => ?_⟩
              · rw [hv]
                simp
              · rw [if_pos hp]
                exact v3
        · simp only [if_neg hp] at h
          by_cases hq : ql > mid32 L0 R0
          · simp only [if_pos hq] at h
            cases e : queryAux32 defaultPolicy32 fuel
              (.node (mid32 L0 R0 + 1) R0 ra rb rv rt) ql qr with
            | none => rw [e] at h; exact absurd h (by simp)
            | some res =>
              obtain ⟨y, r3⟩ := res
              rw [e] at h
              obtain ⟨i3, b3, w3, v3⟩ := ih _ _ _ _ _ _ _ ir rfl (by omega) h2 h3 e
              cases r3 with
              | null => exact absurd b3 (by simp [Node.bounds?])
              | node a b x1 y1 w s =>
                simp only [Node.bounds?, Option.some.injEq, Prod.mk.injEq] at b3
                obtain ⟨rfl, rfl⟩ := b3
                simp only [Node.val?, Option.some.injEq] at w3
                subst w3
                simp only [Option.some.injEq, Prod.mk.injEq] at h
                obtain ⟨_, rfl⟩ := h
                refine ⟨⟨il, i3, Or.inr ⟨hLR, rfl, rfl, lv, w, rfl, rfl, ?_⟩⟩, rfl, rfl,
                  fun _ => ⟨lv, w, rfl, rfl, rfl, hv, fun h => hv.trans (wrap32_of_fits h)⟩, fun _ => ?_⟩
                · rw [hv]
                  simp
                · rw [if_neg hp, if_pos hq]
                  exact v3
          · simp only [if_neg hq] at h
            cases e1 : queryAux32 defaultPolicy32 fuel (.node L0 (mid32 L0 R0) la lb lv lt)
              ql (mid32 L0 R0) with
            | none => rw [e1] at h; exact absurd h (by simp)
            | some res1 =>
              cases e2 : queryAux32 defaultPolicy32 fuel
                (.node (mid32 L0 R0 + 1) R0 ra rb rv rt) (mid32 L0 R0 + 1) qr with
              | none => rw [e1, e2] at h; exact absurd h (by simp)
              | some res2 =>
                obtain ⟨y1, l3⟩ := res1
                obtain ⟨y2, r3⟩ := res2
                rw [e1, e2] at h
                obtain ⟨i3, b3, w3, v3⟩ :=
                  ih _ _ _ _ _ _ _ il rfl h1 (by omega) (le_refl _) e1
                obtain ⟨i4, b4, w4, v4⟩ :=
                  ih _ _ _ _ _ _ _ ir rfl (le_refl _) (by omega) h3 e2
                cases l3 with
                | null => exact absurd b3 (by simp [Node.bounds?])
                | node a b x1 z1 w s =>
                  cases r3 with
                  | null => exact absurd b4 (by simp [Node.bounds?])
                  | node a1 b1 x2 z2 w1 s1 =>
                    simp only [Node.bounds?, Option.some.injEq, Prod.mk.injEq] at b3 b4
                    obtain ⟨rfl, rfl⟩ := b3
                    obtain ⟨rfl, rfl⟩ := b4
                    simp only [Node.val?, Option.some.injEq] at w3 w4
                    subst w3 w4
                    simp only [Option.some.injEq, Prod.mk.injEq] at h
                    obtain ⟨_, rfl⟩ := h
                    refine ⟨⟨i3, i4, Or.inr ⟨hLR, rfl, rfl, w, w1, rfl, rfl, ?_⟩⟩,
                      rfl, rfl, fun _ => ⟨w, w1, rfl, rfl, rfl, hv, fun h => hv.trans (wrap32_of_fits h)⟩, fun _ => ?_⟩
                    · rw [hv]
                      simp
                    · rw [if_neg hp, if_neg hq, wrap32_mid32_succ]
                      exact ⟨v3, v4⟩

theorem replace32_ok_inv {P : Policy V T} {fuel : Nat} {t t1 : segmentTree V T} {pos : Int}
    {v : V} (h : t.replace32 P fuel pos v = .ok t1) :
    ∃ L R, t.root.bounds? = some (L, R) ∧ L ≤ pos ∧ pos ≤ R ∧
      replaceAux32 P fuel t.root pos v = some t1.root := by
  obtain ⟨root⟩ := t
  cases root with
  | null => simp [segmentTree.replace32] at h
  | node L0 R0 l r val tag =>
    simp only [segmentTree.replace32] at h
    split at h
    · exact absurd h (by simp)
    · rename_i hr
      cases e : replaceAux32 P fuel (.node L0 R0 l r val tag) pos v with
      | none => rw [e] at h; exact absurd h (by simp)
      | some n =>
        rw [e] at h
        simp only [Result.ok.injEq] at h
        subst h
        exact ⟨L0, R0, rfl, by omega, by omega, rfl⟩

theorem modify32_ok_inv {P : Policy V T} {fuel : Nat} {t t1 : segmentTree V T} {l r : Int}
    {tag : T} (h : t.modify32 P fuel l r tag = .ok t1) :
    (l = wrap32 (r + 1) ∧ t1 = t) ∨
    (l ≠ wrap32 (r + 1) ∧ ∃ L R, t.root.bounds? = some (L, R) ∧ L ≤ l ∧ l ≤ r ∧ r ≤ R ∧
      modifyAux32 P fuel t.root l r tag = some t1.root) := by
  unfold segmentTree.modify32 at h
  split at h
  · rename_i he
    simp only [Result.ok.injEq] at h
    exact Or.inl ⟨he, h.symm⟩
  · rename_i he
    split at h
    · exact absurd h (by simp)
    · rename_i hlr
      right
      obtain ⟨root⟩ := t
      cases root with
      | null => simp at h
      | node L0 R0 cl cr val tg =>
        simp only [] at h
        split at h
        · exact absurd h (by simp)
        · rename_i hr
          cases e : modifyAux32 P fuel (.node L0 R0 cl cr val tg) l r tag with
          | none => rw [e] at h; exact absurd h (by simp)
          | some n =>
            rw [e] at h
            simp only [Result.ok.injEq] at h
            subst h
            exact ⟨he, L0, R0, rfl, by omega, by omega, by omega, rfl⟩

theorem query32_ok_inv {P : Policy V T} {fuel : Nat} {t t1 : segmentTree V T} {l r : Int}
    {x : V} (h : t.query32 P fuel l r = .ok (x, t1)) :
    ∃ L R, t.root.bounds? = some (L, R) ∧ L ≤ l ∧ l ≤ r ∧ r ≤ R ∧
      queryAux32 P fuel t.root l r = some (x, t1.root) := by
  unfold segmentTree.query32 at h
  split at h
  · exact absurd h (by simp)
  · rename_i hlr
    obtain ⟨root⟩ := t
    cases root with
    | null => simp at h
    | node L0 R0 cl cr val tg =>
      simp only [] at h
      split at h
      · exact absurd h (by simp)
      · rename_i hr
        cases e : queryAux32 P fuel (.node L0 R0 cl cr val tg) l r with
        | none => rw [e] at h; exact absurd h (by simp)
        | some res =>
          obtain ⟨y, n⟩ := res
          rw [e] at h
          simp only [Result.ok.injEq, Prod.mk.injEq] at h
          obtain ⟨rfl, rfl⟩ := h
          exact ⟨L0, R0, rfl, by omega, by omega, by omega, rfl⟩

/-- Every state of the default tree reachable in 32-bit arithmetic satisfies the invariant. -/
theorem reachable32_inv {t : segmentTree Int addTag} (h : Reachable32 defaultPolicy32 t) :
    Inv32 t.root := by
  induction h with
  | init hc =>
    unfold construct at hc
    split at hc
    · exact absurd hc (by simp)
    · simp only [Result.ok.injEq] at hc
      subst hc
      exact Inv32_fresh _ _
  | replace _ hop ih =>
    obtain ⟨L, R, _, _, _, e⟩ := replace32_ok_inv hop
    exact (replaceAux32_inv _ _ _ _ _ ih e).1
  | modify _ hop ih =>
    rcases modify32_ok_inv hop with ⟨_, rfl⟩ | ⟨_, L, R, hb, h1, h2, h3, e⟩
    · exact ih
    · exact (modifyAux32_inv _ _ _ _ _ _ _ _ ih hb h1 h2 h3 e).1
  | query _ hop ih =>
    obtain ⟨L, R, hb, h1, h2, h3, e⟩ := query32_ok_inv hop
    exact (queryAux32_inv _ _ _ _ _ _ _ _ ih hb h1 h2 h3 e).1

/-! ## The 32-bit helpers on trees inside `[-2^30, 2^30]` -/

theorem mid32_eq_mid {L R : Int} (h1 : -2147483648 ≤ L + R) (h2 : L + R ≤ 2147483647) :
    mid32 L R = mid L R := by
  have hw : wrap32 (L + R) = L + R := by
    unfold wrap32
    omega
  unfold mid32 mid
  rw [hw]

theorem rebuild_bounds {P : Policy V T} {L R : Int} {l r : Node V T} {tag : T} {n1 : Node V T}
    (h : rebuild P L R l r tag = some n1) : n1.bounds? = some (L, R) := by
  unfold rebuild at h
  split at h
  · simp only [Option.some.injEq] at h
    subst h
    rfl
  · exact absurd h (by simp)

theorem applyTag_bounds (P : Policy V T) (t : T) (n : Node V T) :
    (applyTag P t n).bounds? = n.bounds? := by
  cases n <;> rfl

theorem replaceAux32_bounds {P : Policy V T} {fuel : Nat} {n n1 : Node V T} {pos : Int} {v : V}
    (h : replaceAux32 P fuel n pos v = some n1) : n1.bounds? = n.bounds? := by
  cases fuel with
  | zero => exact absurd h (by simp [replaceAux32])
  | succ fuel =>
    cases n with
    | null => exact absurd h (by simp [replaceAux32])
    | node L R l r val tag =>
      rw [replaceAux32] at h
      split at h
      · simp only [Option.some.injEq] at h
        subst h
        rfl
      · simp only [] at h
        split at h
        · split at h
          · exact rebuild_bounds h
          · exact absurd h (by simp)
        · split at h
          · exact rebuild_bounds h
          · exact absurd h (by simp)

theorem modifyAux32_bounds {P : Policy V T} {fuel : Nat} {n n1 : Node V T} {ml mr : Int}
    {t : T} (h : modifyAux32 P fuel n ml mr t = some n1) : n1.bounds? = n.bounds? := by
  cases fuel with
  | zero => exact absurd h (by simp [modifyAux32])
  | succ fuel =>
    cases n with
    | null => exact absurd h (by simp [modifyAux32])
    | node L R l r val tag =>
      rw [modifyAux32] at h
      split at h
      · simp only [Option.some.injEq] at h
        subst h
        rfl
      · simp only [] at h
        split at h
        · split at h
          · exact rebuild_bounds h
          · exact absurd h (by simp)
        · split at h
          · split at h
            · exact rebuild_bounds h
            · exact absurd h (by simp)
          · split at h
            · exact rebuild_bounds h
            · exact absurd h (by simp)

theorem queryAux32_bounds {P : Policy V T} {fuel : Nat} {n n1 : Node V T} {ql qr : Int}
    {x : V} (h : queryAux32 P fuel n ql qr = some (x, n1)) : n1.bounds? = n.bounds? := by
  cases fuel with
  | zero => exact absurd h (by simp [queryAux32])
  | succ fuel =>
    cases n with
    | null => exact absurd h (by simp [queryAux32])
    | node L R l r val tag =>
      rw [queryAux32] at h
      split at h
      · simp only [Option.some.injEq, Prod.mk.injEq] at h
        obtain ⟨_, rfl⟩ := h
        rfl
      · simp only [] at h
        split at h
        · split at h
          · simp only [Option.some.injEq, Prod.mk.injEq] at h
            obtain ⟨_, rfl⟩ := h
            rfl
          · exact absurd h (by simp)
        · split at h
          · split at h
            · simp only [Option.some.injEq, Prod.mk.injEq] at h
              obtain ⟨_, rfl⟩ := h
              rfl
            · exact absurd h (by simp)
          · split at h
            · simp only [Option.some.injEq, Prod.mk.injEq] at h
              obtain ⟨_, rfl⟩ := h
              rfl
            · exact absurd h (by simp)

/-- On a well-shaped tree inside `[-2^30, 2^30]` no sum `L + R` overflows, and the helper
`replace` in 32-bit arithmetic is the helper with unbounded integers. -/
theorem replaceAux32_eq (P : Policy V T) (fuel : Nat) : ∀ (n : Node V T) (L R pos : Int)
    (v : V), Shaped n → n.bounds? = some (L, R) → -1073741824 ≤ L → R ≤ 1073741824 →
    replaceAux32 P fuel n pos v = replaceAux P fuel n pos v := by
  induction fuel with
  | zero => intro n L R pos v _ _ _ _; rfl
  | succ fuel ih =>
    intro n L R pos v hs hb hL hR
    cases n with
    | null => rfl
    | node L0 R0 l r val tag =>
      simp only [Node.bounds?, Option.some.injEq, Prod.mk.injEq] at hb
      obtain ⟨rfl, rfl⟩ := hb
      by_cases hLR : L0 = R0
      · simp only [replaceAux32, replaceAux, if_pos hLR]
      · have hlt : L0 < R0 := lt_of_le_of_ne hs.1 hLR
        have hm : mid32 L0 R0 = mid L0 R0 := mid32_eq_mid (by omega) (by omega)
        have hw : wrap32 (mid L0 R0 + 1) = mid L0 R0 + 1 := by
          rw [← hm]
          exact wrap32_mid32_succ L0 R0
        have hmb := mid_bounds hlt
        obtain ⟨s1, b1, s2, b2⟩ := descend_shaped P hs hlt
        simp only [replaceAux32, replaceAux, if_neg hLR, hm, hw]
        generalize pushdownStep P tag (check P l L0 (mid L0 R0))
          (check P r (mid L0 R0 + 1) R0) = p at s1 b1 s2 b2 ⊢
        rw [ih p.2.1 L0 (mid L0 R0) pos v s1 b1 hL (by omega),
          ih p.2.2 (mid L0 R0 + 1) R0 pos v s2 b2 (by omega) hR]

theorem modifyAux32_eq (P : Policy V T) (fuel : Nat) : ∀ (n : Node V T) (L R ml mr : Int)
    (t : T), Shaped n → n.bounds? = some (L, R) → -1073741824 ≤ L → R ≤ 1073741824 →
    L ≤ ml → ml ≤ mr → mr ≤ R →
    modifyAux32 P fuel n ml mr t = modifyAux P fuel n ml mr t := by
  induction fuel with
  | zero => intro n L R ml mr t _ _ _ _ _ _ _; rfl
  | succ fuel ih =>
    intro n L R ml mr t hs hb hL hR h1 h2 h3
    cases n with
    | null => rfl
    | node L0 R0 l r val tag =>
      simp only [Node.bounds?, Option.some.injEq, Prod.mk.injEq] at hb
      obtain ⟨rfl, rfl⟩ := hb
      by_cases hex : L0 = ml ∧ R0 = mr
      · simp only [modifyAux32, modifyAux, if_pos hex]
      · have hlt : L0 < R0 := by
          by_contra hn
          exact hex ⟨by omega, by omega⟩
        have hm : mid32 L0 R0 = mid L0 R0 := mid32_eq_mid (by omega) (by omega)
        have hw : wrap32 (mid L0 R0 + 1) = mid L0 R0 + 1 := by
          rw [← hm]
          exact wrap32_mid32_succ L0 R0
        have hmb := mid_bounds hlt
        obtain ⟨s1, b1, s2, b2⟩ := descend_shaped P hs hlt
        simp only [modifyAux32, modifyAux, if_neg hex, hm, hw]
        generalize pushdownStep P tag (check P l L0 (mid L0 R0))
          (check P r (mid L0 R0 + 1) R0) = p at s1 b1 s2 b2 ⊢
        by_cases hp : mr ≤ mid L0 R0
        · simp only [if_pos hp]
          rw [ih p.2.1 L0 (mid L0 R0) ml mr t s1 b1 hL (by omega) h1 h2 hp]
        · simp only [if_neg hp]
          by_cases hq : ml > mid L0 R0
          · simp only [if_pos hq]
            rw [ih p.2.2 (mid L0 R0 + 1) R0 ml mr t s2 b2 (by omega) hR (by omega) h2 h3]
          · simp only [if_neg hq]
            rw [ih p.2.1 L0 (mid L0 R0) ml (mid L0 R0) t s1 b1 hL (by omega) h1 (by omega)
                (le_refl _),
              ih p.2.2 (mid L0 R0 + 1) R0 (mid L0 R0 + 1) mr t s2 b2 (by omega) hR (le_refl _)
                (by omega) h3]

theorem queryAux32_eq (P : Policy V T) (fuel : Nat) : ∀ (n : Node V T) (L R ql qr : Int),
    Shaped n → n.bounds? = some (L, R) → -1073741824 ≤ L → R ≤ 1073741824 →
    L ≤ ql → ql ≤ qr → qr ≤ R →
    queryAux32 P fuel n ql qr = queryAux P fuel n ql qr := by
  induction fuel with
  | zero => intro n L R ql qr _ _ _ _ _ _ _; rfl
  | succ fuel ih =>
    intro n L R ql qr hs hb hL hR h1 h2 h3
    cases n with
    | null => rfl
    | node L0 R0 l r val tag =>
      simp only [Node.bounds?, Option.some.injEq, Prod.mk.injEq] at hb
      obtain ⟨rfl, rfl⟩ := hb
      by_cases hex : L0 = ql ∧ R0 = qr
      · simp only [queryAux32, queryAux, if_pos hex]
      · have hlt : L0 < R0 := by
          by_contra hn
          exact hex ⟨by omega, by omega⟩
        have hm : mid32 L0 R0 = mid L0 R0 := mid32_eq_mid (by omega) (by omega)
        have hw : wrap32 (mid L0 R0 + 1) = mid L0 R0 + 1 := by
          rw [← hm]
          exact wrap32_mid32_succ L0 R0
        have hmb := mid_bounds hlt
        obtain ⟨s1, b1, s2, b2⟩ := descend_shaped P hs hlt
        simp only [queryAux32, queryAux, if_neg hex, hm, hw]
        generalize pushdownStep P tag (check P l L0 (mid L0 R0))
          (check P r (mid L0 R0 + 1) R0) = p at s1 b1 s2 b2 ⊢
        by_cases hp : qr ≤ mid L0 R0
        · simp only [if_pos hp]
          rw [ih p.2.1 L0 (mid L0 R0) ql qr s1 b1 hL (by omega) h1 h2 hp]
        · simp only [if_neg hp]
          by_cases hq : ql > mid L0 R0
          · simp only [if_pos hq]
            rw [ih p.2.2 (mid L0 R0 + 1) R0 ql qr s2 b2 (by omega) hR (by omega) h2 h3]
          · simp only [if_neg hq]
            rw [ih p.2.1 L0 (mid L0 R0) ql (mid L0 R0) s1 b1 hL (by omega) h1 (by omega)
                (le_refl _),
              ih p.2.2 (mid L0 R0 + 1) R0 (mid L0 R0 + 1) qr s2 b2 (by omega) hR (le_refl _)
                (by omega) h3]

/-- On a well-shaped tree inside `[-2^30, 2^30]` the public operations in 32-bit arithmetic,
run with recursion depth `fuelFor L R`, are the public operations with unbounded integers, for
every policy. -/
theorem replace32_eq (P : Policy V T) {t : segmentTree V T} {L R : Int} (pos : Int) (v : V)
    (hs : Shaped t.root) (hb : t.root.bounds? = some (L, R)) (hL : -1073741824 ≤ L)
    (hR : R ≤ 1073741824) :
    t.replace32 P (fuelFor L R) pos v = t.replace P pos v := by
  obtain ⟨root⟩ := t
  cases root with
  | null => exact absurd hs (by simp [Shaped])
  | node L0 R0 l r val tag =>
    simp only [Node.bounds?, Option.some.injEq, Prod.mk.injEq] at hb
    obtain ⟨rfl, rfl⟩ := hb
    simp only [segmentTree.replace32, segmentTree.replace]
    rw [replaceAux32_eq P _ _ L0 R0 pos v hs rfl hL hR]

theorem modify32_eq (P : Policy V T) {t : segmentTree V T} {L R : Int} (l r : Int) (tag : T)
    (hs : Shaped t.root) (hb : t.root.bounds? = some (L, R)) (hL : -1073741824 ≤ L)
    (hR : R ≤ 1073741824) (hr : -2147483648 ≤ r) (hr2 : r < 2147483647) :
    t.modify32 P (fuelFor L R) l r tag = t.modify P l r tag := by
  obtain ⟨root⟩ := t
  cases root with
  | null => exact absurd hs (by simp [Shaped])
  | node L0 R0 cl cr val tg =>
    simp only [Node.bounds?, Option.some.injEq, Prod.mk.injEq] at hb
    obtain ⟨rfl, rfl⟩ := hb
    have hw : wrap32 (r + 1) = r + 1 := by
      unfold wrap32
      omega
    simp only [segmentTree.modify32, segmentTree.modify, hw]
    by_cases h1 : l = r + 1
    · simp only [if_pos h1]
    · by_cases h2 : l > r
      · simp only [if_neg h1, if_pos h2]
      · by_cases h3 : l < L0 ∨ r > R0
        · simp only [if_neg h1, if_neg h2, if_pos h3]
        · simp only [if_neg h1, if_neg h2, if_neg h3]
          rw [modifyAux32_eq P _ _ L0 R0 l r tag hs rfl hL hR (by omega) (by omega) (by omega)]

theorem query32_eq (P : Policy V T) {t : segmentTree V T} {L R : Int} (l r : Int)
    (hs : Shaped t.root) (hb : t.root.bounds? = some (L, R)) (hL : -1073741824 ≤ L)
    (hR : R ≤ 1073741824) :
    t.query32 P (fuelFor L R) l r = t.query P l r := by
  obtain ⟨root⟩ := t
  cases root with
  | null => exact absurd hs (by simp [Shaped])
  | node L0 R0 cl cr val tg =>
    simp only [Node.bounds?, Option.some.injEq, Prod.mk.injEq] at hb
    obtain ⟨rfl, rfl⟩ := hb
    simp only [segmentTree.query32, segmentTree.query]
    by_cases h2 : l > r
    · simp only [if_pos h2]
    · by_cases h3 : l < L0 ∨ r > R0
      · simp only [if_neg h2, if_pos h3]
      · simp only [if_neg h2, if_neg h3]
        rw [queryAux32_eq P _ _ L0 R0 l r hs rfl hL hR (by omega) (by omega) (by omega)]

/-- A tree inside `[-2^30, 2^30]` reachable in 32-bit arithmetic is well-shaped. -/
theorem reachable32_shaped {P : Policy V T} {t : segmentTree V T} (h : Reachable32 P t) :
    ∀ (L R : Int), t.root.bounds? = some (L, R) → -1073741824 ≤ L → R ≤ 1073741824 →
      Shaped t.root := by
  induction h with
  | init hc =>
    intro L R hb hL hR
    unfold construct at hc
    split at hc
    · exact absurd hc (by simp)
    · rename_i hlr
      simp only [Result.ok.injEq] at hc
      subst hc
      exact ⟨by omega, Or.inl ⟨rfl, rfl⟩⟩
  | @replace fuel t t1 pos v _ hop ih =>
    intro L R hb hL hR
    obtain ⟨L1, R1, hb1, h1, h2, e⟩ := replace32_ok_inv hop
    have hbb := replaceAux32_bounds e
    rw [hb, hb1] at hbb
    simp only [Option.some.injEq, Prod.mk.injEq] at hbb
    obtain ⟨rfl, rfl⟩ := hbb
    have hs := ih L R hb1 hL hR
    rw [replaceAux32_eq P fuel _ L R pos v hs hb1 hL hR] at e
    obtain ⟨n1, e1, _, s1⟩ := replaceAux_shaped P (fuel + fuelFor L R) _ L R pos v hs hb1 h1 h2
      (by simp only [fuelFor]; omega)
    rw [replaceAux_fuel_le P (Nat.le_add_right _ _) e] at e1
    simp only [Option.some.injEq] at e1
    rw [e1]
    exact s1
  | @modify fuel t t1 l r tag _ hop ih =>
    intro L R hb hL hR
    rcases modify32_ok_inv hop with ⟨_, rfl⟩ | ⟨_, L1, R1, hb1, h1, h2, h3, e⟩
    · exact ih L R hb hL hR
    · have hbb := modifyAux32_bounds e
      rw [hb, hb1] at hbb
      simp only [Option.some.injEq, Prod.mk.injEq] at hbb
      obtain ⟨rfl, rfl⟩ := hbb
      have hs := ih L R hb1 hL hR
      rw [modifyAux32_eq P fuel _ L R l r tag hs hb1 hL hR h1 h2 h3] at e
      obtain ⟨n1, e1, _, s1⟩ := modifyAux_shaped P (fuel + fuelFor L R) _ L R l r tag hs hb1
        h1 h2 h3 (by simp only [fuelFor]; omega)
      rw [modifyAux_fuel_le P (Nat.le_add_right _ _) e] at e1
      simp only [Option.some.injEq] at e1
      rw [e1]
      exact s1
  | @query fuel t t1 l r x _ hop ih =>
    intro L R hb hL hR
    obtain ⟨L1, R1, hb1, h1, h2, h3, e⟩ := query32_ok_inv hop
    have hbb := queryAux32_bounds e
    rw [hb, hb1] at hbb
    simp only [Option.some.injEq, Prod.mk.injEq] at hbb
    obtain ⟨rfl, rfl⟩ := hbb
    have hs := ih L R hb1 hL hR
    rw [queryAux32_eq P fuel _ L R l r hs hb1 hL hR h1 h2 h3] at e
    obtain ⟨y, n1, e1, _, s1⟩ := queryAux_shaped P (fuel + fuelFor L R) _ L R l r hs hb1
      h1 h2 h3 (by simp only [fuelFor]; omega)
    rw [queryAux_fuel_le P (Nat.le_add_right _ _) e] at e1
    simp only [Option.some.injEq, Prod.mk.injEq] at e1
    rw [e1.2]
    exact s1

/-- On a tree inside `[-2^30, 2^30]` reachable in 32-bit arithmetic every in-range
`replace` returns: the recursion depth `fuelFor L R` is enough. -/
theorem replace32_total {P : Policy V T} {t : segmentTree V T} {L R : Int}
    (h : Reachable32 P t) (hb : t.root.bounds? = some (L, R)) (hL : -1073741824 ≤ L)
    (hR : R ≤ 1073741824) (pos : Int) (v : V) (h1 : L ≤ pos) (h2 : pos ≤ R) :
    ∃ t1, t.replace32 P (fuelFor L R) pos v = .ok t1 := by
  have hs := reachable32_shaped h L R hb hL hR
  obtain ⟨root⟩ := t
  cases root with
  | null => exact absurd hs (by simp [Shaped])
  | node L0 R0 l r val tag =>
    simp only [Node.bounds?, Option.some.injEq, Prod.mk.injEq] at hb
    obtain ⟨rfl, rfl⟩ := hb
    obtain ⟨n, e, _, _⟩ := replaceAux_shaped P (fuelFor L0 R0) _ L0 R0 pos v hs rfl h1 h2
      (by simp [fuelFor])
    refine ⟨⟨n⟩, ?_⟩
    simp only [segmentTree.replace32]
    rw [if_neg (by omega), replaceAux32_eq P _ _ L0 R0 pos v hs rfl hL hR, e]

theorem modify32_total {P : Policy V T} {t : segmentTree V T} {L R : Int}
    (h : Reachable32 P t) (hb : t.root.bounds? = some (L, R)) (hL : -1073741824 ≤ L)
    (hR : R ≤ 1073741824) (l r : Int) (tag : T) (h1 : L ≤ l) (h2 : l ≤ r) (h3 : r ≤ R) :
    ∃ t1, t.modify32 P (fuelFor L R) l r tag = .ok t1 := by
  have hs := reachable32_shaped h L R hb hL hR
  obtain ⟨root⟩ := t
  cases root with
  | null => exact absurd hs (by simp [Shaped])
  | node L0 R0 cl cr val tg =>
    simp only [Node.bounds?, Option.some.injEq, Prod.mk.injEq] at hb
    obtain ⟨rfl, rfl⟩ := hb
    obtain ⟨n, e, _, _⟩ := modifyAux_shaped P (fuelFor L0 R0) _ L0 R0 l r tag hs rfl h1 h2 h3
      (by simp [fuelFor])
    refine ⟨⟨n⟩, ?_⟩
    have hw : ¬ l = wrap32 (r + 1) := by
      unfold wrap32
      omega
    simp only [segmentTree.modify32]
    rw [if_neg hw, if_neg (by omega), if_neg (by omega),
      modifyAux32_eq P _ _ L0 R0 l r tag hs rfl hL hR h1 h2 h3, e]

theorem query32_total {P : Policy V T} {t : segmentTree V T} {L R : Int}
    (h : Reachable32 P t) (hb : t.root.bounds? = some (L, R)) (hL : -1073741824 ≤ L)
    (hR : R ≤ 1073741824) (l r : Int) (h1 : L ≤ l) (h2 : l ≤ r) (h3 : r ≤ R) :
    ∃ x t1, t.query32 P (fuelFor L R) l r = .ok (x, t1) := by
  have hs := reachable32_shaped h L R hb hL hR
  obtain ⟨root⟩ := t
  cases root with
  | null => exact absurd hs (by simp [Shaped])
  | node L0 R0 cl cr val tg =>
    simp only [Node.bounds?, Option.some.injEq, Prod.mk.injEq] at hb
    obtain ⟨rfl, rfl⟩ := hb
    obtain ⟨x, n, e, _, _⟩ := queryAux_shaped P (fuelFor L0 R0) _ L0 R0 l r hs rfl h1 h2 h3
      (by simp [fuelFor])
    refine ⟨x, ⟨n⟩, ?_⟩
    simp only [segmentTree.query32]
    rw [if_neg (by omega), if_neg (by omega),
      queryAux32_eq P _ _ L0 R0 l r hs rfl hL hR h1 h2 h3, e]
/-! ## More recursion depth never changes a result of the 32-bit helpers -/

theorem replaceAux32_fuel_mono (P : Policy V T) (fuel : Nat) : ∀ (n n1 : Node V T) (pos : Int)
    (v : V), replaceAux32 P fuel n pos v = some n1 → replaceAux32 P (fuel + 1) n pos v = some n1 := by
  induction fuel with
  | zero => intro n n1 pos v h; exact absurd h (by simp [replaceAux32])
  | succ fuel ih =>
    intro n n1 pos v h
    cases n with
    | null => exact absurd h (by simp [replaceAux32])
    | node L R l r val tag =>
      rw [replaceAux32] at h ⊢
      by_cases hLR : L = R
      · simpa only [if_pos hLR] using h
      · simp only [if_neg hLR] at h ⊢
        by_cases hp : pos ≤ mid32 L R
        · simp only [if_pos hp] at h ⊢
          cases e : replaceAux32 P fuel _ pos v with
          | none => rw [e] at h; exact absurd h (by simp)
          | some l3 => rw [e] at h; rw [ih _ _ _ _ e]; exact h
        · simp only [if_neg hp] at h ⊢
          cases e : replaceAux32 P fuel _ pos v with
          | none => rw [e] at h; exact absurd h (by simp)
          | some r3 => rw [e] at h; rw [ih _ _ _ _ e]; exact h

theorem modifyAux32_fuel_mono (P : Policy V T) (fuel : Nat) : ∀ (n n1 : Node V T) (ml mr : Int)
    (t : T), modifyAux32 P fuel n ml mr t = some n1 → modifyAux32 P (fuel + 1) n ml mr t = some n1 := by
  induction fuel with
  | zero => intro n n1 ml mr t h; exact absurd h (by simp [modifyAux32])
  | succ fuel ih =>
    intro n n1 ml mr t h
    cases n with
    | null => exact absurd h (by simp [modifyAux32])
    | node L R l r val tag =>
      rw [modifyAux32] at h ⊢
      by_cases hex : L = ml ∧ R = mr
      · simpa only [if_pos hex] using h
      · simp only [if_neg hex] at h ⊢
        by_cases hp : mr ≤ mid32 L R
        · simp only [if_pos hp] at h ⊢
          cases e : modifyAux32 P fuel _ ml mr t with
          | none => rw [e] at h; exact absurd h (by simp)
          | some l3 => rw [e] at h; rw [ih _ _ _ _ _ e]; exact h
        · simp only [if_neg hp] at h ⊢
          by_cases hq : ml > mid32 L R
          · simp only [if_pos hq] at h ⊢
            cases e : modifyAux32 P fuel _ ml mr t with
            | none => rw [e] at h; exact absurd h (by simp)
            | some r3 => rw [e] at h; rw [ih _ _ _ _ _ e]; exact h
          · simp only [if_neg hq] at h ⊢
            cases e1 : modifyAux32 P fuel _ ml (mid32 L R) t with
            | none => rw [e1] at h; exact absurd h (by simp)
            | some l3 =>
              cases e2 : modifyAux32 P fuel _ (wrap32 (mid32 L R + 1)) mr t with
              | none => rw [e1, e2] at h; exact absurd h (by simp)
              | some r3 =>
                rw [e1, e2] at h
                rw [ih _ _ _ _ _ e1, ih _ _ _ _ _ e2]
                exact h

theorem queryAux32_fuel_mono (P : Policy V T) (fuel : Nat) : ∀ (n : Node V T) (ql qr : Int)
    (res : V × Node V T),
    queryAux32 P fuel n ql qr = some res → queryAux32 P (fuel + 1) n ql qr = some res := by
  induction fuel with
  | zero => intro n ql qr res h; exact absurd h (by simp [queryAux32])
  | succ fuel ih =>
    intro n ql qr res h
    cases n with
    | null => exact absurd h (by simp [queryAux32])
    | node L R l r val tag =>
      rw [queryAux32] at h ⊢
      by_cases hex : L = ql ∧ R = qr
      · simpa only [if_pos hex] using h
      · simp only [if_neg hex] at h ⊢
        by_cases hp : qr ≤ mid32 L R
        · simp only [if_pos hp] at h ⊢
          cases e : queryAux32 P fuel _ ql qr with
          | none => rw [e] at h; exact absurd h (by simp)
          | some x => rw [e] at h; rw [ih _ _ _ _ e]; exact h
        · simp only [if_neg hp] at h ⊢
          by_cases hq : ql > mid32 L R
          · simp only [if_pos hq] at h ⊢
            cases e : queryAux32 P fuel _ ql qr with
            | none => rw [e] at h; exact absurd h (by simp)
            | some x => rw [e] at h; rw [ih _ _ _ _ e]; exact h
          · simp only [if_neg hq] at h ⊢
            cases e1 : queryAux32 P fuel _ ql (mid32 L R) with
            | none => rw [e1] at h; exact absurd h (by simp)
            | some x =>
              cases e2 : queryAux32 P fuel _ (wrap32 (mid32 L R + 1)) qr with
              | none => rw [e1, e2] at h; exact absurd h (by simp)
              | some y =>
                rw [e1, e2] at h
                rw [ih _ _ _ _ e1, ih _ _ _ _ e2]
                exact h

theorem replaceAux32_fuel_le (P : Policy V T) {fuel fuel1 : Nat} (hle : fuel ≤ fuel1)
    {n n1 : Node V T} {pos : Int} {v : V} (h : replaceAux32 P fuel n pos v = some n1) :
    replaceAux32 P fuel1 n pos v = some n1 := by
  induction hle with
  | refl => exact h
  | step _ ih => exact replaceAux32_fuel_mono P _ _ _ _ _ ih

theorem modifyAux32_fuel_le (P : Policy V T) {fuel fuel1 : Nat} (hle : fuel ≤ fuel1)
    {n n1 : Node V T} {ml mr : Int} {t : T} (h : modifyAux32 P fuel n ml mr t = some n1) :
    modifyAux32 P fuel1 n ml mr t = some n1 := by
  induction hle with
  | refl => exact h
  | step _ ih => exact modifyAux32_fuel_mono P _ _ _ _ _ _ ih

theorem queryAux32_fuel_le (P : Policy V T) {fuel fuel1 : Nat} (hle : fuel ≤ fuel1)
    {n : Node V T} {ql qr : Int} {res : V × Node V T}
    (h : queryAux32 P fuel n ql qr = some res) : queryAux32 P fuel1 n ql qr = some res := by
  induction hle with
  | refl => exact h
  | step _ ih => exact queryAux32_fuel_mono P _ _ _ _ _ ih

/-! ## The maximum-subarray tree in 32-bit arithmetic, without overflow -/

theorem SumsFit_mono {a : Int → Int} {L R L1 R1 : Int} (h : SumsFit a L R) (h1 : L ≤ L1)
    (h2 : R1 ≤ R) : SumsFit a L1 R1 :=
  fun i j hi hij hj => h i j (by omega) hij (by omega)

/-- The field `maxr` of the merge of single elements is the sum of a suffix. -/
theorem foldFrom_maxr (a : Int → Int) (n : Nat) : ∀ l : Int, ∃ k : Nat, k ≤ n ∧
    (foldFrom myUpdate (fun i => myData2.ofInt (a i)) l n).maxr
      = sumFrom a (l + k) (n - k + 1) := by
  induction n with
  | zero =>
    intro l
    exact ⟨0, le_refl _, by simp [foldFrom, myData2.ofInt, sumFrom]⟩
  | succ n ih =>
    intro l
    obtain ⟨k, hk, e⟩ := ih (l + 1)
    have hs := (foldFrom_myUpdate a n (l + 1)).1
    have hstep : sumFrom a l (n + 1 + 1) = a l + sumFrom a (l + 1) (n + 1) := rfl
    have hf : (foldFrom myUpdate (fun i => myData2.ofInt (a i)) l (n + 1)).maxr
        = max (foldFrom myUpdate (fun i => myData2.ofInt (a i)) (l + 1) n).maxr
          (a l + (foldFrom myUpdate (fun i => myData2.ofInt (a i)) (l + 1) n).sum) := rfl
    rw [hf]
    by_cases hc : a l + (foldFrom myUpdate (fun i => myData2.ofInt (a i)) (l + 1) n).sum
        ≤ (foldFrom myUpdate (fun i => myData2.ofInt (a i)) (l + 1) n).maxr
    · refine ⟨k + 1, by omega, ?_⟩
      have h1 : l + ((k + 1 : Nat) : Int) = l + 1 + (k : Int) := by push_cast; ring
      have h2 : n + 1 - (k + 1) + 1 = n - k + 1 := by omega
      rw [h1, h2, ← e, max_eq_left hc]
    · refine ⟨0, by omega, ?_⟩
      have h1 : l + ((0 : Nat) : Int) = l := by simp
      have h2 : n + 1 - 0 + 1 = n + 1 + 1 := by omega
      rw [h1, h2, hstep, ← hs, max_eq_right (by omega)]

/-- The fields `sum`, `maxl` and `maxr` of the merge of `a[l..r]` are the sum of the range, of
a prefix and of a suffix. -/
theorem rangeFold_fields (a : Int → Int) {l r : Int} (hlr : l ≤ r) :
    (rangeFold myUpdate (fun i => myData2.ofInt (a i)) l r).sum = rangeSum a l r ∧
    (∃ j, l ≤ j ∧ j ≤ r ∧
      (rangeFold myUpdate (fun i => myData2.ofInt (a i)) l r).maxl = rangeSum a l j) ∧
    (∃ i, l ≤ i ∧ i ≤ r ∧
      (rangeFold myUpdate (fun i => myData2.ofInt (a i)) l r).maxr = rangeSum a i r) := by
  obtain ⟨hs, ⟨⟨k, hk, ek⟩, _⟩, _⟩ := foldFrom_myUpdate a (r - l).toNat l
  obtain ⟨k2, hk2, ek2⟩ := foldFrom_maxr a (r - l).toNat l
  unfold rangeFold
  refine ⟨?_, ⟨l + k, by omega, by omega, ?_⟩, ⟨l + k2, by omega, by omega, ?_⟩⟩
  · rw [hs]
    unfold rangeSum
    have : (r + 1 - l).toNat = (r - l).toNat + 1 := by omega
    rw [this]
  · rw [← ek]
    unfold rangeSum
    have : (l + (k : Int) + 1 - l).toNat = k + 1 := by omega
    rw [this]
  · rw [ek2]
    unfold rangeSum
    have : (r + 1 - (l + (k2 : Int))).toNat = (r - l).toNat - k2 + 1 := by omega
    rw [this]

/-- Merging the aggregates of two adjacent ranges overflows nowhere when the sums of all
contiguous sub-ranges fit: `myUpdate` in 32-bit arithmetic is `myUpdate`. -/
theorem myUpdate32_rangeFold (a : Int → Int) {l m r : Int} (h1 : l ≤ m) (h2 : m < r)
    (hfit : SumsFit a l r) :
    myUpdate32 (rangeFold myUpdate (fun i => myData2.ofInt (a i)) l m)
        (rangeFold myUpdate (fun i => myData2.ofInt (a i)) (m + 1) r)
      = myUpdate (rangeFold myUpdate (fun i => myData2.ofInt (a i)) l m)
        (rangeFold myUpdate (fun i => myData2.ofInt (a i)) (m + 1) r) := by
  obtain ⟨xs, _, ⟨i, hi1, hi2, xr⟩⟩ := rangeFold_fields a h1
  obtain ⟨ys, ⟨j, hj1, hj2, yl⟩, _⟩ := rangeFold_fields a (show m + 1 ≤ r by omega)
  have f1 : FitsInt (rangeSum a l j) := hfit l j (le_refl _) (by omega) hj2
  have f2 : FitsInt (rangeSum a i r) := hfit i r hi1 (by omega) (le_refl _)
  have f3 : FitsInt (rangeSum a l r) := hfit l r (le_refl _) (by omega) (le_refl _)
  have f4 : FitsInt (rangeSum a i j) := hfit i j hi1 (by omega) hj2
  rw [rangeSum_split a (show l ≤ m by omega) (show m ≤ j by omega)] at f1
  rw [rangeSum_split a hi2 (show m ≤ r by omega)] at f2
  rw [rangeSum_split a h1 (show m ≤ r by omega)] at f3
  rw [rangeSum_split a hi2 (show m ≤ j by omega)] at f4
  rw [← xs, ← yl] at f1
  rw [← xr, ← ys] at f2
  rw [← xs, ← ys] at f3
  rw [← xr, ← yl] at f4
  generalize rangeFold myUpdate (fun i => myData2.ofInt (a i)) l m = x at f1 f2 f3 f4
  generalize rangeFold myUpdate (fun i => myData2.ofInt (a i)) (m + 1) r = y at f1 f2 f3 f4
  unfold myUpdate32 myUpdate
  rw [wrap32_of_fits f1, wrap32_of_fits f2, wrap32_of_fits f3, wrap32_of_fits f4]

theorem check_policy32 (n : Node myData2 myTag) (a b : Int) :
    check myPolicy32 n a b = check myPolicy n a b := by
  cases n <;> rfl

theorem pushdownStep_policy32 (tag : myTag) (l r : Node myData2 myTag) :
    pushdownStep myPolicy32 tag l r = pushdownStep myPolicy tag l r := rfl

theorem RepN_shaped {P : Policy V T} {a : Int → V} (n : Node V T) (h : RepN P a n) :
    Shaped n := by
  induction n with
  | null => exact h
  | node L R l r val tag ihl ihr =>
    obtain ⟨hle, _, hk⟩ := h
    refine ⟨hle, ?_⟩
    rcases hk with ⟨h1, h2, _⟩ | ⟨hlt, hlb, hrb, hl, hr⟩
    · exact Or.inl ⟨h1, h2⟩
    · exact Or.inr ⟨hlt, hlb, hrb, ihl hl, ihr hr⟩

/-- Recomputing the value of a node from children that represent an array whose sub-range
sums fit overflows nowhere. -/
theorem rebuild_policy32 {a : Int → Int} {L R : Int} {l r : Node myData2 myTag} (tag : myTag)
    (hlt : L < R) (hl : RepN myPolicy (fun i => myData2.ofInt (a i)) l)
    (hlb : l.bounds? = some (L, mid L R))
    (hr : RepN myPolicy (fun i => myData2.ofInt (a i)) r)
    (hrb : r.bounds? = some (mid L R + 1, R)) (hfit : SumsFit a L R) :
    rebuild myPolicy32 L R l r tag = rebuild myPolicy L R l r tag := by
  have hm := mid_bounds hlt
  simp only [rebuild, RepN_val hl hlb, RepN_val hr hrb]
  exact congrArg (fun d => some (Node.node L R l r d tag))
    (myUpdate32_rangeFold a hm.1 hm.2 hfit)

theorem setAt_ofInt (a : Int → Int) (pos v : Int) (i : Int) :
    setAt (fun i => myData2.ofInt (a i)) pos (myData2.ofInt v) i
      = myData2.ofInt (setAt a pos v i) := by
  simp only [setAt]
  split <;> rfl

/-- Without overflow the helper `replace` with the 32-bit policy is the helper with the
unbounded policy. -/
theorem replaceAux_policy32 (fuel : Nat) : ∀ (n : Node myData2 myTag) (a : Int → Int)
    (L R pos v : Int), RepN myPolicy (fun i => myData2.ofInt (a i)) n →
    n.bounds? = some (L, R) → L ≤ pos → pos ≤ R → (R - L).toNat < fuel →
    SumsFit (setAt a pos v) L R →
    replaceAux myPolicy32 fuel n pos (myData2.ofInt v)
      = replaceAux myPolicy fuel n pos (myData2.ofInt v) := by
  induction fuel with
  | zero => intro n a L R pos v _ _ _ _ hf; omega
  | succ fuel ih =>
    intro n a L R pos v hrep hb hl hr hf hfit
    cases n with
    | null => rfl
    | node L0 R0 l r val tag =>
      simp only [Node.bounds?, Option.some.injEq, Prod.mk.injEq] at hb
      obtain ⟨rfl, rfl⟩ := hb
      by_cases hLR : L0 = R0
      · simp only [replaceAux, if_pos hLR]
      · have hlt : L0 < R0 := lt_of_le_of_ne (by omega) hLR
        obtain ⟨hl1, hlb, hr1, hrb⟩ := descend_repN rfl myUpdate_dval hrep hlt
        have hm := mid_bounds hlt
        simp only [replaceAux, if_neg hLR, check_policy32, pushdownStep_policy32]
        generalize pushdownStep myPolicy tag (check myPolicy l L0 (mid L0 R0))
          (check myPolicy r (mid L0 R0 + 1) R0) = p at hl1 hlb hr1 hrb ⊢
        by_cases hp : pos ≤ mid L0 R0
        · simp only [if_pos hp]
          rw [ih p.2.1 a L0 (mid L0 R0) pos v hl1 hlb hl hp (by omega)
            (SumsFit_mono hfit (le_refl _) (by omega))]
          obtain ⟨l3, e3, b3, r3⟩ := replaceAux_repN (P := myPolicy) rfl myUpdate_assoc
            myUpdate_dval fuel p.2.1 _ L0 (mid L0 R0) pos (myData2.ofInt v) hl1 hlb hl hp
            (by omega)
          rw [e3]
          exact rebuild_policy32 (a := setAt a pos v) p.1 hlt
            (RepN_congr myPolicy _ _ _ b3 (fun i _ _ => setAt_ofInt a pos v i) r3) b3
            (RepN_congr myPolicy _ _ _ hrb
              (fun i h1 _ => by simp only [setAt]; rw [if_neg (by omega)]) hr1) hrb hfit
        · simp only [if_neg hp]
          rw [ih p.2.2 a (mid L0 R0 + 1) R0 pos v hr1 hrb (by omega) hr (by omega)
            (SumsFit_mono hfit (by omega) (le_refl _))]
          obtain ⟨r3, e3, b3, rr3⟩ := replaceAux_repN (P := myPolicy) rfl myUpdate_assoc
            myUpdate_dval fuel p.2.2 _ (mid L0 R0 + 1) R0 pos (myData2.ofInt v) hr1 hrb
            (by omega) hr (by omega)
          rw [e3]
          exact rebuild_policy32 (a := setAt a pos v) p.1 hlt
            (RepN_congr myPolicy _ _ _ hlb
              (fun i _ h2 => by simp only [setAt]; rw [if_neg (by omega)]) hl1) hlb
            (RepN_congr myPolicy _ _ _ b3 (fun i _ _ => setAt_ofInt a pos v i) rr3) b3 hfit

theorem addAll_ofInt (x t : Int) : (myData2.ofInt x).addAll t = myData2.ofInt (x + t) := rfl

/-- Without overflow the helper `modify` for a single position with the 32-bit policy is the
helper with the unbounded policy. -/
theorem modifyAux_policy32 (fuel : Nat) : ∀ (n : Node myData2 myTag) (a : Int → Int)
    (L R pos x : Int), RepN myPolicy (fun i => myData2.ofInt (a i)) n →
    n.bounds? = some (L, R) → L ≤ pos → pos ≤ R → (R - L).toNat < fuel →
    SumsFit (setAt a pos (a pos + x)) L R →
    modifyAux myPolicy32 fuel n pos pos ⟨x⟩ = modifyAux myPolicy fuel n pos pos ⟨x⟩ := by
  induction fuel with
  | zero => intro n a L R pos x _ _ _ _ hf; omega
  | succ fuel ih =>
    intro n a L R pos x hrep hb hl hr hf hfit
    cases n with
    | null => rfl
    | node L0 R0 l r val tag =>
      simp only [Node.bounds?, Option.some.injEq, Prod.mk.injEq] at hb
      obtain ⟨rfl, rfl⟩ := hb
      by_cases hex : L0 = pos ∧ R0 = pos
      · obtain ⟨rfl, rfl⟩ := hex
        simp only [modifyAux, true_and, if_true]
        have hval := hrep.2.1
        rw [rangeFold_single] at hval
        subst hval
        have hf1 : FitsInt (a R0 + x) := by
          have h := hfit R0 R0 (le_refl _) (le_refl _) (le_refl _)
          rw [rangeSum_single] at h
          simpa [setAt] using h
        simp only [applyTag, myPolicy32, myPolicy, myTag.apply32, myTag.apply, myData2.ofInt,
          wrap32_of_fits hf1]
      · have hlt : L0 < R0 := by
          rcases not_and_or.mp hex with h | h <;> omega
        obtain ⟨hl1, hlb, hr1, hrb⟩ := descend_repN rfl myUpdate_dval hrep hlt
        have hm := mid_bounds hlt
        have hcong : ∀ i, setAt (fun i => myData2.ofInt (a i)) pos
            ((myData2.ofInt (a pos)).addAll x) i
              = myData2.ofInt (setAt a pos (a pos + x) i) := by
          intro i
          rw [addAll_ofInt]
          exact setAt_ofInt a pos (a pos + x) i
        simp only [modifyAux, if_neg hex, check_policy32, pushdownStep_policy32]
        generalize pushdownStep myPolicy tag (check myPolicy l L0 (mid L0 R0))
          (check myPolicy r (mid L0 R0 + 1) R0) = p at hl1 hlb hr1 hrb ⊢
        by_cases hp : pos ≤ mid L0 R0
        · simp only [if_pos hp]
          rw [ih p.2.1 a L0 (mid L0 R0) pos x hl1 hlb hl hp (by omega)
            (SumsFit_mono hfit (le_refl _) (by omega))]
          obtain ⟨l3, e3, b3, r3⟩ := modifyAux_point fuel p.2.1 _ L0 (mid L0 R0) pos ⟨x⟩
            hl1 hlb hl hp (by omega)
          rw [e3]
          exact rebuild_policy32 (a := setAt a pos (a pos + x)) p.1 hlt
            (RepN_congr myPolicy _ _ _ b3 (fun i _ _ => hcong i) r3) b3
            (RepN_congr myPolicy _ _ _ hrb
              (fun i h1 _ => by simp only [setAt]; rw [if_neg (by omega)]) hr1) hrb hfit
        · have hq : pos > mid L0 R0 := by omega
          simp only [if_neg hp, if_pos hq]
          rw [ih p.2.2 a (mid L0 R0 + 1) R0 pos x hr1 hrb (by omega) hr (by omega)
            (SumsFit_mono hfit (by omega) (le_refl _))]
          obtain ⟨r3, e3, b3, rr3⟩ := modifyAux_point fuel p.2.2 _ (mid L0 R0 + 1) R0 pos ⟨x⟩
            hr1 hrb (by omega) hr (by omega)
          rw [e3]
          exact rebuild_policy32 (a := setAt a pos (a pos + x)) p.1 hlt
            (RepN_congr myPolicy _ _ _ hlb
              (fun i _ h2 => by simp only [setAt]; rw [if_neg (by omega)]) hl1) hlb
            (RepN_congr myPolicy _ _ _ b3 (fun i _ _ => hcong i) rr3) b3 hfit

/-- Without overflow the helper `query` with the 32-bit policy is the helper with the unbounded
policy. -/
theorem queryAux_policy32 (fuel : Nat) : ∀ (n : Node myData2 myTag) (a : Int → Int)
    (L R ql qr : Int), RepN myPolicy (fun i => myData2.ofInt (a i)) n →
    n.bounds? = some (L, R) → L ≤ ql → ql ≤ qr → qr ≤ R → (R - L).toNat < fuel →
    SumsFit a L R →
    queryAux myPolicy32 fuel n ql qr = queryAux myPolicy fuel n ql qr := by
  induction fuel with
  | zero => intro n a L R ql qr _ _ _ _ _ hf; omega
  | succ fuel ih =>
    intro n a L R ql qr hrep hb hl hlr hr hf hfit
    cases n with
    | null => rfl
    | node L0 R0 l r val tag =>
      simp only [Node.bounds?, Option.some.injEq, Prod.mk.injEq] at hb
      obtain ⟨rfl, rfl⟩ := hb
      by_cases hex : L0 = ql ∧ R0 = qr
      · simp only [queryAux, if_pos hex]
      · have hlt : L0 < R0 := by
          rcases not_and_or.mp hex with h | h <;> omega
        obtain ⟨hl1, hlb, hr1, hrb⟩ := descend_repN rfl myUpdate_dval hrep hlt
        have hm := mid_bounds hlt
        simp only [queryAux, if_neg hex, check_policy32, pushdownStep_policy32]
        generalize pushdownStep myPolicy tag (check myPolicy l L0 (mid L0 R0))
          (check myPolicy r (mid L0 R0 + 1) R0) = p at hl1 hlb hr1 hrb ⊢
        by_cases hp : qr ≤ mid L0 R0
        · simp only [if_pos hp]
          rw [ih p.2.1 a L0 (mid L0 R0) ql qr hl1 hlb hl hlr hp (by omega)
            (SumsFit_mono hfit (le_refl _) (by omega))]
        · simp only [if_neg hp]
          by_cases hq : ql > mid L0 R0
          · simp only [if_pos hq]
            rw [ih p.2.2 a (mid L0 R0 + 1) R0 ql qr hr1 hrb (by omega) hlr hr (by omega)
              (SumsFit_mono hfit (by omega) (le_refl _))]
          · simp only [if_neg hq]
            rw [ih p.2.1 a L0 (mid L0 R0) ql (mid L0 R0) hl1 hlb hl (by omega) (le_refl _)
                (by omega) (SumsFit_mono hfit (le_refl _) (by omega)),
              ih p.2.2 a (mid L0 R0 + 1) R0 (mid L0 R0 + 1) qr hr1 hrb (le_refl _) (by omega)
                hr (by omega) (SumsFit_mono hfit (by omega) (le_refl _))]
            obtain ⟨l3, e3, _, _⟩ := queryAux_repN (P := myPolicy) rfl myUpdate_assoc
              myUpdate_dval fuel p.2.1 _ L0 (mid L0 R0) ql (mid L0 R0) hl1 hlb hl (by omega)
              (le_refl _) (by omega)
            obtain ⟨r3, e4, _, _⟩ := queryAux_repN (P := myPolicy) rfl myUpdate_assoc
              myUpdate_dval fuel p.2.2 _ (mid L0 R0 + 1) R0 (mid L0 R0 + 1) qr hr1 hrb
              (le_refl _) (by omega) hr (by omega)
            rw [e3, e4]
            exact congrArg (fun d => some (d, Node.node L0 R0 l3 r3 val p.1))
              (myUpdate32_rangeFold a (show ql ≤ mid L0 R0 by omega)
                (show mid L0 R0 < qr by omega) (SumsFit_mono hfit hl hr))

/-- On a tree inside `[-2^30, 2^30]` that represents `a`, the public `replace` in 32-bit
arithmetic is the public `replace` with unbounded integers, provided the sub-range sums of the
new array fit. -/
theorem replace32_dp {a : Int → Int} {t : segmentTree myData2 myTag} {L R : Int}
    (pos v : Int) (h : RepN myPolicy (fun i => myData2.ofInt (a i)) t.root)
    (hb : t.root.bounds? = some (L, R)) (hL : -1073741824 ≤ L) (hR : R ≤ 1073741824)
    (h1 : L ≤ pos) (h2 : pos ≤ R) (hfit : SumsFit (setAt a pos v) L R) :
    t.replace32 myPolicy32 (fuelFor L R) pos (myData2.ofInt v)
      = t.replace myPolicy pos (myData2.ofInt v) := by
  have hs := RepN_shaped _ h
  obtain ⟨root⟩ := t
  cases root with
  | null => exact absurd h (by simp [RepN])
  | node L0 R0 l r val tag =>
    simp only [Node.bounds?, Option.some.injEq, Prod.mk.injEq] at hb
    obtain ⟨rfl, rfl⟩ := hb
    simp only [segmentTree.replace32, segmentTree.replace]
    rw [replaceAux32_eq myPolicy32 _ _ L0 R0 pos _ hs rfl hL hR,
      replaceAux_policy32 _ _ a L0 R0 pos v h rfl h1 h2 (by simp [fuelFor]) hfit]

theorem modifyAt32_dp {a : Int → Int} {t : segmentTree myData2 myTag} {L R : Int}
    (pos x : Int) (h : RepN myPolicy (fun i => myData2.ofInt (a i)) t.root)
    (hb : t.root.bounds? = some (L, R)) (hL : -1073741824 ≤ L) (hR : R ≤ 1073741824)
    (h1 : L ≤ pos) (h2 : pos ≤ R) (hfit : SumsFit (setAt a pos (a pos + x)) L R) :
    t.modify32 myPolicy32 (fuelFor L R) pos pos ⟨x⟩ = t.modifyAt myPolicy pos ⟨x⟩ := by
  have hs := RepN_shaped _ h
  obtain ⟨root⟩ := t
  cases root with
  | null => exact absurd h (by simp [RepN])
  | node L0 R0 l r val tag =>
    simp only [Node.bounds?, Option.some.injEq, Prod.mk.injEq] at hb
    obtain ⟨rfl, rfl⟩ := hb
    have hw : wrap32 (pos + 1) = pos + 1 := by
      unfold wrap32
      omega
    simp only [segmentTree.modify32, segmentTree.modifyAt, segmentTree.modify, hw]
    rw [modifyAux32_eq myPolicy32 _ _ L0 R0 pos pos _ hs rfl hL hR h1 (le_refl _) h2,
      modifyAux_policy32 _ _ a L0 R0 pos x h rfl h1 h2 (by simp [fuelFor]) hfit]

theorem query32_dp {a : Int → Int} {t : segmentTree myData2 myTag} {L R : Int}
    (l r : Int) (h : RepN myPolicy (fun i => myData2.ofInt (a i)) t.root)
    (hb : t.root.bounds? = some (L, R)) (hL : -1073741824 ≤ L) (hR : R ≤ 1073741824)
    (h1 : L ≤ l) (h2 : l ≤ r) (h3 : r ≤ R) (hfit : SumsFit a L R) :
    t.query32 myPolicy32 (fuelFor L R) l r = t.query myPolicy l r := by
  have hs := RepN_shaped _ h
  obtain ⟨root⟩ := t
  cases root with
  | null => exact absurd h (by simp [RepN])
  | node L0 R0 cl cr val tag =>
    simp only [Node.bounds?, Option.some.injEq, Prod.mk.injEq] at hb
    obtain ⟨rfl, rfl⟩ := hb
    simp only [segmentTree.query32, segmentTree.query]
    rw [queryAux32_eq myPolicy32 _ _ L0 R0 l r hs rfl hL hR h1 h2 h3,
      queryAux_policy32 _ _ a L0 R0 l r h rfl h1 h2 h3 (by simp [fuelFor]) hfit]

/-- On a tree inside `[-2^30, 2^30]`, a run of `DPtest` operations during which the sub-range
sums of the reference array fit in `int` gives in 32-bit arithmetic the answers it gives with
unbounded integers. -/
theorem runDP32_eq (ops : List DPOp) : ∀ (t : segmentTree myData2 myTag) (a : Int → Int)
    (L R : Int), RepN myPolicy (fun i => myData2.ofInt (a i)) t.root →
    t.root.bounds? = some (L, R) → -1073741824 ≤ L → R ≤ 1073741824 →
    (∀ op ∈ ops, op.inRange L R) → SumsFit a L R → DPFits L R a ops →
    runDP32 (fuelFor L R) t ops = runDP t ops := by
  induction ops with
  | nil => intro t a L R _ _ _ _ _ _ _; rfl
  | cons op ops ih =>
    intro t a L R hr hb hL hR hin hfa hfit
    have hop := hin op (List.mem_cons_self _ _)
    have hrest : ∀ o ∈ ops, o.inRange L R := fun o ho => hin o (List.mem_cons_of_mem _ ho)
    cases op with
    | replace pos v =>
      obtain ⟨hf1, hf2⟩ := hfit
      obtain ⟨t1, e, b1, r1⟩ := replace_repN (P := myPolicy) rfl myUpdate_assoc myUpdate_dval
        pos (myData2.ofInt v) hr hb hop.1 hop.2
      have r2 : RepN myPolicy (fun i => myData2.ofInt (setAt a pos v i)) t1.root :=
        RepN_congr myPolicy _ _ _ b1 (fun i _ _ => setAt_ofInt a pos v i) r1
      simp only [runDP32, runDP, replace32_dp pos v hr hb hL hR hop.1 hop.2 hf1, e]
      exact ih t1 _ L R r2 b1 hL hR hrest hf1 hf2
    | modifyAt pos x =>
      obtain ⟨hf1, hf2⟩ := hfit
      obtain ⟨t1, e, b1, r1⟩ := modifyAt_point pos ⟨x⟩ hr hb hop.1 hop.2
      have r2 : RepN myPolicy (fun i => myData2.ofInt (setAt a pos (a pos + x) i)) t1.root :=
        RepN_congr myPolicy _ _ _ b1 (fun i _ _ => by
          rw [addAll_ofInt]
          exact setAt_ofInt a pos (a pos + x) i) r1
      simp only [runDP32, runDP, modifyAt32_dp pos x hr hb hL hR hop.1 hop.2 hf1, e]
      exact ih t1 _ L R r2 b1 hL hR hrest hf1 hf2
    | query l r =>
      obtain ⟨t1, e, b1, r1⟩ := query_repN (P := myPolicy) rfl myUpdate_assoc myUpdate_dval
        l r hr hb hop.1 hop.2.1 hop.2.2
      simp only [runDP32, runDP, query32_dp l r hr hb hL hR hop.1 hop.2.1 hop.2.2 hfa, e]
      rw [ih t1 a L R r1 b1 hL hR hrest hfa hfit]

theorem sumFrom_small (a : Int → Int) (n : Nat) : ∀ l : Int,
    (∀ k : Nat, k < n → -1000 ≤ a (l + k) ∧ a (l + k) ≤ 1000) →
    -1000 * (n : Int) ≤ sumFrom a l n ∧ sumFrom a l n ≤ 1000 * (n : Int) := by
  induction n with
  | zero => intro l _; simp [sumFrom]
  | succ n ih =>
    intro l h
    have h0 := h 0 (by omega)
    simp only [Nat.cast_zero, add_zero] at h0
    have h1 := ih (l + 1) (fun k hk => by
      have := h (k + 1) (by omega)
      have e : l + ((k + 1 : Nat) : Int) = l + 1 + (k : Int) := by push_cast; ring
      rw [e] at this
      exact this)
    simp only [sumFrom]
    push_cast
    omega

/-- Values between `-1000` and `1000` on at most `10^6` positions: every sub-range sum fits. -/
theorem sumsFit_of_small {a : Int → Int} {L R : Int}
    (h : ∀ i, L ≤ i → i ≤ R → -1000 ≤ a i ∧ a i ≤ 1000) (hw : R - L < 1000000) :
    SumsFit a L R := by
  intro i j hi hij hj
  have hs := sumFrom_small a (j + 1 - i).toNat i (fun k hk => h (i + k) (by omega) (by omega))
  unfold rangeSum FitsInt
  omega

/-! ## The claims -/

/-- C1: on the default sum tree constructed over `[L, R]`, every finite sequence of in-range
`replace`, range `modify`, point `modify` and `query` calls runs without error and every query
returns the brute-force sum over the reference array that starts all zero. -/
theorem bruteForce_agreement (L R : Int) (t : segmentTree Int addTag) (ops : List Op)
    (hc : construct defaultPolicy L R = .ok t) (hin : ∀ op ∈ ops, op.inRange L R) :
    runTree t ops = some (runRef (fun _ => 0) ops) :=
  runTree_eq_runRef ops t _ L R (construct_rep hc).1 (construct_rep hc).2 hin

theorem bruteForce_agreement_witness :
    runTree ⟨.node (-2) 5 .null .null 0 ⟨0⟩⟩
        [.modify (-1) 4 3, .replace 2 7, .modifyAt 5 (-4), .query (-2) 5, .query 2 2] =
      some (runRef (fun _ => 0)
        [.modify (-1) 4 3, .replace 2 7, .modifyAt 5 (-4), .query (-2) 5, .query 2 2]) :=
  bruteForce_agreement (-2) 5 _ _ (by decide) (by
    intro op hop
    simp only [List.mem_cons, List.mem_singleton, List.not_mem_nil, or_false] at hop
    rcases hop with rfl | rfl | rfl | rfl | rfl <;> simp [Op.inRange])

/-- C2 (counterexample): on the tree `segmentTree<myData2, myTag, myUpdate, noPushDown>` over
`[1, 10]`, after `replace(1, 2147483647); replace(2, 1)` the call `query(1, 2)` computes
`maxval = 2147483647` in 32-bit arithmetic, which is not the maximum subarray sum of
`a[1..2]`: that is `a[1] + a[2] = 2147483648`. -/
theorem dp_value_overflow :
    runDP32 10 ⟨.node 1 10 .null .null (myData2.ofInt 0) ⟨0⟩⟩
        [.replace 1 2147483647, .replace 2 1, .query 1 2] = some [2147483647] ∧
      ¬ AnswersDP (fun _ => 0) [.replace 1 2147483647, .replace 2 1, .query 1 2]
        [2147483647] := by
  refine ⟨by decide, ?_⟩
  simp only [AnswersDP]
  rintro ⟨x, rest, e, ⟨_, hmax⟩, _⟩
  simp only [List.cons.injEq] at e
  have h := hmax 1 2 (by decide) (by decide) (by decide)
  rw [← e.1] at h
  revert h
  decide

/-- C2 (amended): on the tree `segmentTree<myData2, myTag, myUpdate, noPushDown>` in 32-bit
arithmetic, constructed over `[L, R]` inside `[-2^30, 2^30]`: every finite sequence of in-range
`replace(pos, v)`, point `modify(pos, t)` and `query(l, r)` calls during which the sums of all
contiguous sub-ranges of the reference array fit in a 32-bit signed `int` runs without error,
and the `maxval` field of every query answer is the maximum of `a[i] + ... + a[j]` over the
non-empty sub-ranges `[i, j]` of `[l, r]`, for the reference array `a` that starts all zero. -/
theorem dp_agreement32 (L R : Int) (t : segmentTree myData2 myTag) (ops : List DPOp)
    (hc : construct myPolicy32 L R = .ok t) (hL : -1073741824 ≤ L) (hR : R ≤ 1073741824)
    (hin : ∀ op ∈ ops, op.inRange L R) (hfit : DPFits L R (fun _ => 0) ops) :
    ∃ xs, runDP32 (fuelFor L R) t ops = some xs ∧ AnswersDP (fun _ => 0) ops xs := by
  have hc1 : construct myPolicy L R = .ok t := hc
  obtain ⟨hr, hb⟩ := construct_repN myPolicy myUpdate_dval hc1
  have h0 : SumsFit (fun _ => 0) L R := by
    intro i j _ _ _
    unfold rangeSum
    rw [sumFrom_zero]
    exact ⟨by decide, by decide⟩
  rw [runDP32_eq ops t (fun _ => 0) L R hr hb hL hR hin h0 hfit]
  exact runDP_answers ops t _ L R hr hb hin

theorem dp_agreement32_witness :
    ∃ xs, runDP32 (fuelFor 1 10) ⟨.node 1 10 .null .null (myData2.ofInt 0) ⟨0⟩⟩
        [.modifyAt 1 4, .replace 2 (-5), .modifyAt 3 3, .modifyAt 4 (-1), .modifyAt 5 3,
          .replace 6 (-1), .query 1 10, .query 1 3] = some xs ∧
      AnswersDP (fun _ => 0)
        [.modifyAt 1 4, .replace 2 (-5), .modifyAt 3 3, .modifyAt 4 (-1), .modifyAt 5 3,
          .replace 6 (-1), .query 1 10, .query 1 3] xs :=
  dp_agreement32 1 10 _ _ (by decide) (by decide) (by decide) (by
    intro op hop
    simp only [List.mem_cons, List.mem_singleton, List.not_mem_nil, or_false] at hop
    rcases hop with rfl | rfl | rfl | rfl | rfl | rfl | rfl | rfl <;> simp [DPOp.inRange])
    (by
      simp only [DPFits, and_true]
      refine ⟨?_, ?_, ?_, ?_, ?_, ?_⟩ <;>
        refine sumsFit_of_small (fun i _ _ => ?_) (by decide) <;>
        simp only [setAt] <;> split_ifs <;> omega)

/-- C3 (failing input): on a tree over `[0, 2^31 - 1]`, with any policy (so also with the no-op
pushdown and any merge), the in-range call `replace(2^31 - 1, v)` issued right after
construction does not return with any recursion depth: the midpoint computed in 32-bit
arithmetic sends the descent to a right child that never narrows to the leaf. -/
theorem replace32_never_returns (P : Policy V T) (fuel : Nat) (v : V) :
    (construct P 0 2147483647).bind (fun t => t.replace32 P fuel 2147483647 v) = .stuck := by
  have h : construct P 0 2147483647 = .ok ⟨.node 0 2147483647 .null .null P.dval P.dtag⟩ := by
    unfold construct
    rw [if_neg (by decide)]
  rw [h]
  exact replace32_stuck P fuel 0 2147483647 P.dval P.dtag 2147483647 v (by decide) (by decide)
    (by decide)

/-- C4 (failing input): after `Construct(0, 10); replace(3, 5); clear()`, the root still holds
the old sum, so `query(0, 10)` returns 5 where an all-default range has aggregate 0. -/
theorem clear_keeps_root_value :
    Result.value (((construct defaultPolicy 0 10).bind
      (fun t => t.replace defaultPolicy 3 5)).bind
      (fun t => t.clear.bind (fun t => t.query defaultPolicy 0 10))) = .ok 5 := by
  decide

/-- C5 (failing input): after `Construct(0, 10); modify(0, 10, 5); clear()`, the root still
holds the pending tag 5, which the next descent pushes to the new children, so `query(3)`
returns 5 instead of the default 0. -/
theorem clear_keeps_root_tag :
    Result.value (((construct defaultPolicy 0 10).bind
      (fun t => t.modify defaultPolicy 0 10 ⟨5⟩)).bind
      (fun t => t.clear.bind (fun t => t.queryAt defaultPolicy 3))) = .ok 5 := by
  decide

/-- C6 (failing input): on the default sum tree over `[0, 2^31 - 1]` right after construction,
none of the three queries `query(l, r)`, `query(l, m)`, `query(m+1, r)` for
`l = m = 2^31 - 2`, `r = 2^31 - 1` returns, with any recursion depth. -/
theorem query32_split_never_returns (fuel : Nat) :
    (⟨.node 0 2147483647 .null .null 0 ⟨0⟩⟩ : segmentTree Int addTag).query32 defaultPolicy32
        fuel 2147483646 2147483647 = .stuck ∧
    (⟨.node 0 2147483647 .null .null 0 ⟨0⟩⟩ : segmentTree Int addTag).query32 defaultPolicy32
        fuel 2147483646 2147483646 = .stuck ∧
    (⟨.node 0 2147483647 .null .null 0 ⟨0⟩⟩ : segmentTree Int addTag).query32 defaultPolicy32
        fuel 2147483647 2147483647 = .stuck :=
  ⟨query32_stuck _ _ _ _ _ _ _ _ (by decide) (by decide) (by decide) (by decide),
    query32_stuck _ _ _ _ _ _ _ _ (by decide) (by decide) (by decide) (by decide),
    query32_stuck _ _ _ _ _ _ _ _ (by decide) (by decide) (by decide) (by decide)⟩

/-- C7 (failing input): on the default sum tree over `[0, 2^31 - 1]` right after construction,
neither `modify(l, r, t)` nor `modify(l, m, t)` returns for `l = m = 2^31 - 2`,
`r = 2^31 - 1` and any tag `t`, with any recursion depth. -/
theorem modify32_never_returns (fuel : Nat) (t : addTag) :
    (⟨.node 0 2147483647 .null .null 0 ⟨0⟩⟩ : segmentTree Int addTag).modify32 defaultPolicy32
        fuel 2147483646 2147483647 t = .stuck ∧
    (⟨.node 0 2147483647 .null .null 0 ⟨0⟩⟩ : segmentTree Int addTag).modify32 defaultPolicy32
        fuel 2147483646 2147483646 t = .stuck :=
  ⟨modify32_stuck _ _ _ _ _ _ _ _ _ (by decide) (by decide) (by decide) (by decide) (by decide),
    modify32_stuck _ _ _ _ _ _ _ _ _ (by decide) (by decide) (by decide) (by decide)
      (by decide)⟩

/-- C8 (failing input): on the default sum tree over `[1, 2^31 - 1]`, `modify(1, 2^31 - 1, 1)`
returns and leaves the tag `1` pending on the root (no `int` computation overflows); the
in-range call `replace(2^31 - 1, v)` issued in that state does not return, with any recursion
depth, so the `query(2^31 - 1)` after it is never reached. -/
theorem replace32_pending_never_returns (fuel : Nat) (v : Int) :
    (⟨.node 1 2147483647 .null .null 0 ⟨0⟩⟩ : segmentTree Int addTag).modify32 defaultPolicy32
        1 1 2147483647 ⟨1⟩ = .ok ⟨.node 1 2147483647 .null .null 2147483647 ⟨1⟩⟩ ∧
    (⟨.node 1 2147483647 .null .null 2147483647 ⟨1⟩⟩ : segmentTree Int addTag).replace32
        defaultPolicy32 fuel 2147483647 v = .stuck :=
  ⟨by decide, replace32_stuck _ _ _ _ _ _ _ _ (by decide) (by decide) (by decide)⟩

/-- C9: `RangeError` is raised exactly for inverted intervals: by the constructor iff `l > r`,
by `query(l, r)` iff `l > r` (whatever the tree and its span), by `modify(l, r, tag)` iff
`l > r + 1`. -/
theorem range_error_iff (P : Policy V T) (t : segmentTree V T) (l r : Int) (tag : T) :
    (construct P l r = .range_error ↔ l > r) ∧
    (t.query P l r = .range_error ↔ l > r) ∧
    (t.modify P l r tag = .range_error ↔ l > r + 1) := by
  refine ⟨?_, ?_, ?_⟩
  · unfold construct
    by_cases h : l > r
    · simp [h]
    · simp [h]
  · by_cases h : l > r
    · simp [segmentTree.query, h]
    · refine ⟨fun e => ?_, fun h2 => absurd h2 h⟩
      exfalso
      obtain ⟨root⟩ := t
      cases root with
      | null => simp [segmentTree.query, h] at e
      | node L0 R0 cl cr val tg =>
        simp only [segmentTree.query, if_neg h] at e
        split at e
        · exact absurd e (by simp)
        · split at e <;> exact absurd e (by simp)
  · by_cases h1 : l = r + 1
    · simp only [segmentTree.modify, if_pos h1]
      exact ⟨fun h => absurd h (by simp), fun h => by omega⟩
    · by_cases h : l > r
      · simp only [segmentTree.modify, if_neg h1, if_pos h, true_iff]
        omega
      · refine ⟨fun e => ?_, fun h2 => by omega⟩
        exfalso
        obtain ⟨root⟩ := t
        cases root with
        | null => simp [segmentTree.modify, h, h1] at e
        | node L0 R0 cl cr val tg =>
          simp only [segmentTree.modify, if_neg h, if_neg h1] at e
          split at e
          · exact absurd e (by simp)
          · split at e <;> exact absurd e (by simp)

/-- C10 (failing input): in 32-bit arithmetic `modify(-2^31, 2^31 - 1, tag)` returns normally
and leaves the tree unchanged, on every tree and with every policy, although `l ≤ r` and, on a
tree over `[0, 10]`, `l < L`: the sum `r + 1` of the empty-range test wraps to `-2^31 = l`. -/
theorem modify32_full_int_range (P : Policy V T) (fuel : Nat) (t : segmentTree V T) (tag : T) :
    t.modify32 P fuel (-2147483648) 2147483647 tag = .ok t := by
  unfold segmentTree.modify32
  rw [if_pos (by decide)]

/-- C11: for every tree and every `l`, `r` with `l = r + 1`, inside the span or not,
`modify(l, r, tag)` returns normally, raises no exception, and leaves the tree unchanged. -/
theorem modify_empty_range (P : Policy V T) (t : segmentTree V T) (l r : Int) (tag : T)
    (h : l = r + 1) :
    t.modify P l r tag = .ok t ∧ t.modifyE P l r tag = .ret () t := by
  simp [segmentTree.modify, segmentTree.modifyE, h]

theorem modify_empty_range_witness :
    (⟨.node 1 10 .null .null 0 ⟨0⟩⟩ : segmentTree Int addTag).modify defaultPolicy 28 27 ⟨3⟩
        = .ok ⟨.node 1 10 .null .null 0 ⟨0⟩⟩ ∧
      (⟨.node 1 10 .null .null 0 ⟨0⟩⟩ : segmentTree Int addTag).modifyE defaultPolicy 28 27 ⟨3⟩
        = .ret () ⟨.node 1 10 .null .null 0 ⟨0⟩⟩ :=
  modify_empty_range defaultPolicy ⟨.node 1 10 .null .null 0 ⟨0⟩⟩ 28 27 ⟨3⟩ (by decide)

/-- C12: whenever `replace`, `modify` or `query` fails with `RangeError` or `OutOfRange`, the
tree left behind by the failed call is the tree before the call. -/
theorem error_leaves_tree (P : Policy V T) (t s : segmentTree V T) (pos l r : Int) (v : V)
    (tag : T)
    (h : t.replaceE P pos v = .throw_range s ∨ t.replaceE P pos v = .throw_oor s ∨
      t.modifyE P l r tag = .throw_range s ∨ t.modifyE P l r tag = .throw_oor s ∨
      t.queryE P l r = .throw_range s ∨ t.queryE P l r = .throw_oor s) :
    s = t := by
  rcases h with h | h | h | h | h | h
  · unfold segmentTree.replaceE at h
    split at h
    · exact absurd h (by simp)
    · split at h
      · exact absurd h (by simp)
      · split at h <;> exact absurd h (by simp)
  · unfold segmentTree.replaceE at h
    split at h
    · exact absurd h (by simp)
    · split at h
      · simp only [Exec.throw_oor.injEq] at h; exact h.symm
      · split at h <;> exact absurd h (by simp)
  · unfold segmentTree.modifyE at h
    split at h
    · exact absurd h (by simp)
    · split at h
      · simp only [Exec.throw_range.injEq] at h; exact h.symm
      · split at h
        · exact absurd h (by simp)
        · split at h
          · exact absurd h (by simp)
          · split at h <;> exact absurd h (by simp)
  · unfold segmentTree.modifyE at h
    split at h
    · exact absurd h (by simp)
    · split at h
      · exact absurd h (by simp)
      · split at h
        · exact absurd h (by simp)
        · split at h
          · simp only [Exec.throw_oor.injEq] at h; exact h.symm
          · split at h <;> exact absurd h (by simp)
  · unfold segmentTree.queryE at h
    split at h
    · simp only [Exec.throw_range.injEq] at h; exact h.symm
    · split at h
      · exact absurd h (by simp)
      · split at h
        · exact absurd h (by simp)
        · split at h <;> exact absurd h (by simp)
  · unfold segmentTree.queryE at h
    split at h
    · exact absurd h (by simp)
    · split at h
      · exact absurd h (by simp)
      · split at h
        · simp only [Exec.throw_oor.injEq] at h; exact h.symm
        · split at h <;> exact absurd h (by simp)

theorem error_leaves_tree_witness :
    (⟨.node 1 10 .null .null 0 ⟨0⟩⟩ : segmentTree Int addTag).replaceE defaultPolicy 0 42
        = .throw_oor ⟨.node 1 10 .null .null 0 ⟨0⟩⟩ ∧
      (⟨.node 1 10 .null .null 0 ⟨0⟩⟩ : segmentTree Int addTag)
        = ⟨.node 1 10 .null .null 0 ⟨0⟩⟩ :=
  ⟨by decide,
    error_leaves_tree defaultPolicy ⟨.node 1 10 .null .null 0 ⟨0⟩⟩
      ⟨.node 1 10 .null .null 0 ⟨0⟩⟩ 0 0 (-1) 42 ⟨1⟩ (Or.inr (Or.inl (by decide)))⟩

/-- C13 (failing input): the scenario of the copy test on the tree
`segmentTree<myData2, myTag, myUpdate, noPushDown>`: `A(1, 10)` is filled with
`[4, -5, 3, -1, 3, -1]` and `B` is copy-constructed from `A`. `A.query(1, 10).maxval` is 5; but
after `B.modify(2, 4)` it is 8: the copy shares the nodes of `A`. -/
theorem copy_shares_nodes :
    ((TreeObj.construct myPolicy (fun _ => .null) 0 1 10).bind
      (fun s => (s.1.replace myPolicy s.2 1 (myData2.ofInt 4)).bind
      (fun h => (s.1.replace myPolicy h 2 (myData2.ofInt (-5))).bind
      (fun h => (s.1.replace myPolicy h 3 (myData2.ofInt 3)).bind
      (fun h => (s.1.replace myPolicy h 4 (myData2.ofInt (-1))).bind
      (fun h => (s.1.replace myPolicy h 5 (myData2.ofInt 3)).bind
      (fun h => (s.1.replace myPolicy h 6 (myData2.ofInt (-1))).bind
      (fun h => (s.1.query myPolicy h 1 10).bind
      (fun q1 => ((s.1.copy).modify myPolicy q1.2 2 2 ⟨4⟩).bind
      (fun h => (s.1.query myPolicy h 1 10).bind
      (fun q2 => .ok (q1.1.maxval, q2.1.maxval))))))))))))
    = .ok (5, 8) := by
  decide

/-- C14: the concrete scenario on the default sum tree: `Construct(0, 10); modify(1, 9, 1)`,
then `query(3, 10) = 7`; `replace(6, 10)`, then `query(5, 10) = 14`; point `modify(0, -1)`, then
`query(1) = 1` and `query(0, 1) = 0`; `clear(); modify(2, 5, -1)`, then `query(0, 5) = -4`. -/
theorem functionality_scenario :
    (construct defaultPolicy 0 10).bind (fun t =>
      (t.modify defaultPolicy 1 9 ⟨1⟩).bind (fun t =>
      (t.query defaultPolicy 3 10).bind (fun q1 =>
      (q1.2.replace defaultPolicy 6 10).bind (fun t =>
      (t.query defaultPolicy 5 10).bind (fun q2 =>
      (q2.2.modifyAt defaultPolicy 0 ⟨-1⟩).bind (fun t =>
      (t.queryAt defaultPolicy 1).bind (fun q3 =>
      (q3.2.query defaultPolicy 0 1).bind (fun q4 =>
      (q4.2.clear).bind (fun t =>
      (t.modify defaultPolicy 2 5 ⟨-1⟩).bind (fun t =>
      (t.query defaultPolicy 0 5).bind (fun q5 =>
      .ok [q1.1, q2.1, q3.1, q4.1, q5.1])))))))))))
    = .ok [7, 14, 1, 0, -4] := by
  decide

/-- C15: node invariant under the default policy, with the `int` arithmetic of the code (32-bit
wrap-around). In every tree reachable from construction by `replace`/`modify`/`query`, after
any `replace`, `modify` or `query` call that returns (for `modify`, one that is not the
empty-range call `l == r+1`, which touches no node), every node the call has descended
through (a visited node that is not the leaf, respectively exact-match, stopping point) has
both children, the identity tag (`tag.sum = 0`) and `val = addUpdate(leftChild.val,
rightChild.val)`, the `int` sum `leftChild.val + rightChild.val`. On a tree over `[L, R]` inside
`[-2^30, 2^30]` every in-range call does return. -/
theorem path_nodes_pushed_down32 (t : segmentTree Int addTag)
    (hreach : Reachable32 defaultPolicy32 t) :
    (∀ fuel pos v t1, t.replace32 defaultPolicy32 fuel pos v = .ok t1 →
      visitPoint32 (fun m _ => ¬ m.isLeaf → PushedDown32 m) t1.root pos) ∧
    (∀ fuel l r tag t1, l ≠ wrap32 (r + 1) →
      t.modify32 defaultPolicy32 fuel l r tag = .ok t1 →
      visitRange32 (fun m l r => ¬ m.spans l r → PushedDown32 m) t1.root l r) ∧
    (∀ fuel l r x t1, t.query32 defaultPolicy32 fuel l r = .ok (x, t1) →
      visitRange32 (fun m l r => ¬ m.spans l r → PushedDown32 m) t1.root l r) ∧
    (∀ L R, t.root.bounds? = some (L, R) → -1073741824 ≤ L → R ≤ 1073741824 →
      (∀ pos v, L ≤ pos → pos ≤ R →
        ∃ t1, t.replace32 defaultPolicy32 (fuelFor L R) pos v = .ok t1) ∧
      (∀ l r tag, L ≤ l → l ≤ r → r ≤ R →
        ∃ t1, t.modify32 defaultPolicy32 (fuelFor L R) l r tag = .ok t1) ∧
      (∀ l r, L ≤ l → l ≤ r → r ≤ R →
        ∃ x t1, t.query32 defaultPolicy32 (fuelFor L R) l r = .ok (x, t1))) := by
  have hinv := reachable32_inv hreach
  refine ⟨fun fuel pos v t1 h => ?_, fun fuel l r tag t1 hne h => ?_,
    fun fuel l r x t1 h => ?_, fun L R hb hL hR => ⟨fun pos v h1 h2 => ?_,
      fun l r tag h1 h2 h3 => ?_, fun l r h1 h2 h3 => ?_⟩⟩
  · obtain ⟨_, _, _, _, _, e⟩ := replace32_ok_inv h
    exact (replaceAux32_inv _ _ _ _ _ hinv e).2.2
  · rcases modify32_ok_inv h with ⟨he, _⟩ | ⟨_, L, R, hb, h1, h2, h3, e⟩
    · exact absurd he hne
    · exact (modifyAux32_inv _ _ _ _ _ _ _ _ hinv hb h1 h2 h3 e).2.2
  · obtain ⟨L, R, hb, h1, h2, h3, e⟩ := query32_ok_inv h
    exact (queryAux32_inv _ _ _ _ _ _ _ _ hinv hb h1 h2 h3 e).2.2.2
  · exact replace32_total hreach hb hL hR pos v h1 h2
  · exact modify32_total hreach hb hL hR l r tag h1 h2 h3
  · exact query32_total hreach hb hL hR l r h1 h2 h3

theorem path_nodes_pushed_down32_witness :
    (∀ fuel pos v t1,
      (⟨.node 0 10 .null .null 55 ⟨5⟩⟩ : segmentTree Int addTag).replace32 defaultPolicy32
        fuel pos v = .ok t1 →
      visitPoint32 (fun m _ => ¬ m.isLeaf → PushedDown32 m) t1.root pos) ∧
    (∀ fuel l r tag t1, l ≠ wrap32 (r + 1) →
      (⟨.node 0 10 .null .null 55 ⟨5⟩⟩ : segmentTree Int addTag).modify32 defaultPolicy32
        fuel l r tag = .ok t1 →
      visitRange32 (fun m l r => ¬ m.spans l r → PushedDown32 m) t1.root l r) ∧
    (∀ fuel l r x t1,
      (⟨.node 0 10 .null .null 55 ⟨5⟩⟩ : segmentTree Int addTag).query32 defaultPolicy32
        fuel l r = .ok (x, t1) →
      visitRange32 (fun m l r => ¬ m.spans l r → PushedDown32 m) t1.root l r) ∧
    (∀ L R, (⟨.node 0 10 .null .null 55 ⟨5⟩⟩ : segmentTree Int addTag).root.bounds?
        = some (L, R) → -1073741824 ≤ L → R ≤ 1073741824 →
      (∀ pos v, L ≤ pos → pos ≤ R → ∃ t1,
        (⟨.node 0 10 .null .null 55 ⟨5⟩⟩ : segmentTree Int addTag).replace32 defaultPolicy32
          (fuelFor L R) pos v = .ok t1) ∧
      (∀ l r tag, L ≤ l → l ≤ r → r ≤ R → ∃ t1,
        (⟨.node 0 10 .null .null 55 ⟨5⟩⟩ : segmentTree Int addTag).modify32 defaultPolicy32
          (fuelFor L R) l r tag = .ok t1) ∧
      (∀ l r, L ≤ l → l ≤ r → r ≤ R → ∃ x t1,
        (⟨.node 0 10 .null .null 55 ⟨5⟩⟩ : segmentTree Int addTag).query32 defaultPolicy32
          (fuelFor L R) l r = .ok (x, t1))) :=
  path_nodes_pushed_down32 ⟨.node 0 10 .null .null 55 ⟨5⟩⟩
    (@Reachable32.modify _ _ defaultPolicy32 1 ⟨.node 0 10 .null .null 0 ⟨0⟩⟩ _ 0 10 ⟨5⟩
      (@Reachable32.init _ _ defaultPolicy32 0 10 _ (by decide)) (by decide))

/-- C16 (failing input): on the default sum tree over `[0, 2^31 - 1]` right after construction,
the in-range query `query(2^31 - 1, 2^31 - 1)` does not return, with any recursion depth. -/
theorem query32_never_returns (fuel : Nat) :
    (construct defaultPolicy32 0 2147483647).bind
      (fun t => t.query32 defaultPolicy32 fuel 2147483647 2147483647) = .stuck :=
  query32_stuck _ _ _ _ _ _ _ _ (by decide) (by decide) (by decide) (by decide)

/-- C17 (failing input): on the default tree over `[1, 2^31 - 1]` the midpoint of the root
computed in 32-bit arithmetic is `-2^30 < L`; after `replace(5, 1)` the children of the root
are the empty interval `[1, -2^30]` and the interval `[-2^30 + 1, 2^31 - 1]`, wider than the
root; and the in-range call `replace(2^31 - 1, v)` does not terminate: no recursion depth makes
it return. -/
theorem descent_not_narrower32 :
    mid32 1 2147483647 = -1073741824 ∧
    (replaceAux32 defaultPolicy32 40 (.node 1 2147483647 .null .null 0 ⟨0⟩) 5 1).map
        (fun n => (n.kids.1.bounds?, n.kids.2.bounds?))
      = some (some (1, -1073741824), some (-1073741823, 2147483647)) ∧
    ∀ (fuel : Nat) (v : Int),
      (⟨.node 1 2147483647 .null .null 0 ⟨0⟩⟩ : segmentTree Int addTag).replace32
        defaultPolicy32 fuel 2147483647 v = .stuck :=
  ⟨by decide, by decide,
    fun fuel v => replace32_stuck defaultPolicy32 fuel 1 2147483647 0 ⟨0⟩ 2147483647 v
      (by decide) (by decide) (by decide)⟩

/-- C18 (failing input): for the node `[2^30, 2^31 - 1]`, the right child of the root of a tree
over `[0, 2^31 - 1]`, the 32-bit sum wraps and the computed midpoint is negative: it is neither
`floor((L + R) / 2)` nor inside `[L, R)`. -/
theorem mid32_overflow :
    mid32 1073741824 2147483647 = -536870913 ∧
    ¬ (mid32 1073741824 2147483647 = (1073741824 + 2147483647) / 2 ∧
      1073741824 ≤ mid32 1073741824 2147483647 ∧
      mid32 1073741824 2147483647 < 2147483647) := by
  decide

/-- C19: depth bound. In every tree over `[L, R]` reachable from construction by
`replace`/`modify`/`query`/`clear` (any policy), the tree has at most
`ceil(log2(R - L + 1)) + 1` levels, i.e. every materialized node lies at depth at most
`ceil(log2(R - L + 1))` below the root, and every in-range call completes within recursion
depth `ceil(log2(R - L + 1)) + 1`: the helper run with that much fuel returns the result of
the public call. -/
theorem depth_bound (P : Policy V T) (t : segmentTree V T) (L R : Int)
    (hreach : ReachableC P t) (hb : t.root.bounds? = some (L, R)) :
    height t.root ≤ Nat.clog 2 (R - L + 1).toNat + 1 ∧
    (∀ pos v, L ≤ pos → pos ≤ R → ∃ n1,
      replaceAux P (Nat.clog 2 (R - L + 1).toNat + 1) t.root pos v = some n1 ∧
      t.replace P pos v = .ok ⟨n1⟩) ∧
    (∀ l r tag, L ≤ l → l ≤ r → r ≤ R → ∃ n1,
      modifyAux P (Nat.clog 2 (R - L + 1).toNat + 1) t.root l r tag = some n1 ∧
      t.modify P l r tag = .ok ⟨n1⟩) ∧
    (∀ l r, L ≤ l → l ≤ r → r ≤ R → ∃ x n1,
      queryAux P (Nat.clog 2 (R - L + 1).toNat + 1) t.root l r = some (x, n1) ∧
      t.query P l r = .ok (x, ⟨n1⟩)) := by
  obtain ⟨L1, R1, hs, hb1⟩ := reachableC_shaped hreach
  rw [hb] at hb1
  simp only [Option.some.injEq, Prod.mk.injEq] at hb1
  obtain ⟨rfl, rfl⟩ := hb1
  obtain ⟨root⟩ := t
  cases root with
  | null => simp [Node.bounds?] at hb
  | node L0 R0 cl cr val tg =>
    simp only [Node.bounds?, Option.some.injEq, Prod.mk.injEq] at hb
    obtain ⟨rfl, rfl⟩ := hb
    refine ⟨shaped_height _ _ _ hs rfl, fun pos v h1 h2 => ?_, fun l r tag h1 h2 h3 => ?_,
      fun l r h1 h2 h3 => ?_⟩
    · obtain ⟨n1, e, _⟩ := replaceAux_log P (Nat.clog 2 (R0 - L0 + 1).toNat + 1) _ L0 R0 pos v
        hs rfl h1 h2 (Nat.lt_succ_self _)
      refine ⟨n1, e, ?_⟩
      simp only [segmentTree.replace, replaceAux_fuel_le P (clog_le_width L0 R0) e]
      rw [if_neg (by omega)]
    · obtain ⟨n1, e, _⟩ := modifyAux_log P (Nat.clog 2 (R0 - L0 + 1).toNat + 1) _ L0 R0 l r
        tag hs rfl h1 h2 h3 (Nat.lt_succ_self _)
      refine ⟨n1, e, ?_⟩
      simp only [segmentTree.modify, modifyAux_fuel_le P (clog_le_width L0 R0) e]
      rw [if_neg (by omega), if_neg (by omega), if_neg (by omega)]
    · obtain ⟨x, n1, e, _⟩ := queryAux_log P (Nat.clog 2 (R0 - L0 + 1).toNat + 1) _ L0 R0 l r
        hs rfl h1 h2 h3 (Nat.lt_succ_self _)
      refine ⟨x, n1, e, ?_⟩
      simp only [segmentTree.query, queryAux_fuel_le P (clog_le_width L0 R0) e]
      rw [if_neg (by omega), if_neg (by omega)]

theorem depth_bound_witness :
    height (⟨.node 0 10 .null .null 0 ⟨0⟩⟩ : segmentTree Int addTag).root
      ≤ Nat.clog 2 ((10 : Int) - 0 + 1).toNat + 1 ∧
    (∀ pos v, 0 ≤ pos → pos ≤ 10 → ∃ n1,
      replaceAux defaultPolicy (Nat.clog 2 ((10 : Int) - 0 + 1).toNat + 1)
        (⟨.node 0 10 .null .null 0 ⟨0⟩⟩ : segmentTree Int addTag).root pos v = some n1 ∧
      (⟨.node 0 10 .null .null 0 ⟨0⟩⟩ : segmentTree Int addTag).replace defaultPolicy pos v
        = .ok ⟨n1⟩) ∧
    (∀ l r tag, 0 ≤ l → l ≤ r → r ≤ 10 → ∃ n1,
      modifyAux defaultPolicy (Nat.clog 2 ((10 : Int) - 0 + 1).toNat + 1)
        (⟨.node 0 10 .null .null 0 ⟨0⟩⟩ : segmentTree Int addTag).root l r tag = some n1 ∧
      (⟨.node 0 10 .null .null 0 ⟨0⟩⟩ : segmentTree Int addTag).modify defaultPolicy l r tag
        = .ok ⟨n1⟩) ∧
    (∀ l r, 0 ≤ l → l ≤ r → r ≤ 10 → ∃ x n1,
      queryAux defaultPolicy (Nat.clog 2 ((10 : Int) - 0 + 1).toNat + 1)
        (⟨.node 0 10 .null .null 0 ⟨0⟩⟩ : segmentTree Int addTag).root l r = some (x, n1) ∧
      (⟨.node 0 10 .null .null 0 ⟨0⟩⟩ : segmentTree Int addTag).query defaultPolicy l r
        = .ok (x, ⟨n1⟩)) :=
  depth_bound defaultPolicy ⟨.node 0 10 .null .null 0 ⟨0⟩⟩ 0 10
    (@ReachableC.init _ _ defaultPolicy 0 10 _ (by decide)) rfl

/-- C20 (failing input): on the default tree over `[1, 2^31 - 1]` right after construction the
call `replace(5, 1)` returns and the tree then has `65` nodes on `33` levels: the call has
created `64` nodes, more than `2 * ceil(log2(R - L + 1)) = 62`. -/
theorem replace32_creates_64_nodes :
    ((construct defaultPolicy32 1 2147483647).bind
      (fun t => (t.replace32 defaultPolicy32 40 5 1).bind
        (fun t1 => .ok (nodeCount t.root, nodeCount t1.root, height t1.root))))
      = .ok (1, 65, 33) ∧
    2 * Nat.clog 2 (2147483647 - 1 + 1 : Int).toNat = 62 := by
  refine ⟨by decide, ?_⟩
  have h : (2147483647 - 1 + 1 : Int).toNat = 2147483647 := by decide
  rw [h, clog_int_max]

end SegTree
